import Mathlib

/-!
# tree-creator: a verification development

Shallow embedding of `tree-creator.go` (package `main`):

* `parseXMLElement`, `parseXML`: the recursive-descent XML decoder, run over a model of
  the token stream of `encoding/xml`;
* `loadStructureFromFile`: the format sniffing and the dispatch to a decoder;
* `createStructure`: the materializer, run over a model of a POSIX-like filesystem.

Go strings are modelled by `String` (valid UTF-8 text), and the functions of package
`strings` are written over the list of characters so that they evaluate inside the kernel.
A Go `map[string]interface{}` is modelled by an association list; a list is one
iteration order of the map, and the keys of a Go map are pairwise distinct.

What the program calls in its libraries is modelled next to it: `fmt.Sprintf` (`sprint`,
with the rendering of a `float64` as a parameter), `filepath.Join` and `filepath.Dir` on
cleaned relative paths, `os.MkdirAll` and `os.WriteFile` on an ideal filesystem, and
`(*xml.Decoder).Token` on a list of tokens. The decoders of JSON and YAML are parameters.
-/

namespace TreeCreator

/-! ## Package `strings` -/

/-- Go `strings.HasPrefix(s, p)`. -/
def hasPrefix (s p : String) : Bool :=
  p.data.isPrefixOf s.data

/-- Occurrence of the character list `sub` somewhere in `cs`. -/
def containsChars (sub : List Char) : List Char → Bool
  | [] => sub.isPrefixOf []
  | c :: cs => sub.isPrefixOf (c :: cs) || containsChars sub cs

/-- Go `strings.Contains(s, sub)`. -/
def contains (s sub : String) : Bool :=
  containsChars sub.data s.data

/-- Go `unicode.IsSpace`: the characters with the Unicode White_Space property. -/
def isSpace (c : Char) : Bool :=
  let n := c.toNat
  (9 ≤ n && n ≤ 13) || n == 32 || n == 133 || n == 160 || n == 5760 ||
    (8192 ≤ n && n ≤ 8202) || n == 8232 || n == 8233 || n == 8239 || n == 8287 || n == 12288

/-- Removal of the leading and of the trailing white space of a character list. -/
def trimChars (cs : List Char) : List Char :=
  ((cs.dropWhile isSpace).reverse.dropWhile isSpace).reverse

/-- Go `strings.TrimSpace(s)`. -/
def trimSpace (s : String) : String :=
  String.mk (trimChars s.data)

/-- Order of Go strings (`<` on strings compares bytes; on UTF-8 text that is the order of
the code points). -/
def ltChars : List Char → List Char → Bool
  | _, [] => false
  | [], _ :: _ => true
  | a :: as, b :: bs => a.toNat < b.toNat || (a.toNat == b.toNat && ltChars as bs)

/-! ## Decoded values -/

/-- The dynamic values that `encoding/json` and `parseXML` store in an `interface{}`:
`nil`, `bool`, `float64` (given by its IEEE-754 bit pattern), `string`, `[]interface{}` and
`map[string]interface{}`. -/
inductive Value where
  | null
  | bool (b : Bool)
  | float (bits : Nat)
  | str (s : String)
  | arr (xs : List Value)
  | map (es : List (String × Value))

/-- A mapping, `map[string]interface{}`. -/
abbrev Mapping := List (String × Value)

/-- Insertion of a rendered entry into a list sorted by key. -/
def insertByKey (e : String × String) : List (String × String) → List (String × String)
  | [] => [e]
  | x :: xs => if ltChars x.1.data e.1.data then x :: insertByKey e xs else e :: x :: xs

/-- Sorting of rendered map entries by key, as package `fmt` prints maps. -/
def sortByKey : List (String × String) → List (String × String)
  | [] => []
  | x :: xs => insertByKey x (sortByKey xs)

mutual
/-- Go `fmt.Sprintf("%v", value)`. The rendering of a `float64` is the parameter `ff`. -/
def sprint (ff : Nat → String) : Value → String
  | .null => "<nil>"
  | .bool b => if b then "true" else "false"
  | .float x => ff x
  | .str s => s
  | .arr xs => "[" ++ " ".intercalate (sprintList ff xs) ++ "]"
  | .map es =>
    "map[" ++ " ".intercalate ((sortByKey (sprintEntries ff es)).map fun e => e.1 ++ ":" ++ e.2)
      ++ "]"
/-- Renderings of the elements of a slice. -/
def sprintList (ff : Nat → String) : List Value → List String
  | [] => []
  | x :: xs => sprint ff x :: sprintList ff xs
/-- Renderings of the entries of a map, each with its key. -/
def sprintEntries (ff : Nat → String) : List (String × Value) → List (String × String)
  | [] => []
  | (k, v) :: es => (k, sprint ff v) :: sprintEntries ff es
end

/-! ## Package `path/filepath` (Unix)

A cleaned relative path is modelled by the list of its components; the empty list is the
path `.`, and `..` components stand only at the front. The base path of `createStructure`
is given in this form (the empty string, for which `os.MkdirAll` fails in `main` before
`createStructure` is reached, has no representation). -/

/-- A cleaned relative path. -/
abbrev Path := List String

/-- Splitting of a character list at every `/`. -/
def splitSlash : List Char → List (List Char)
  | [] => [[]]
  | c :: cs =>
    if c = '/' then [] :: splitSlash cs
    else
      match splitSlash cs with
      | [] => [[c]]
      | h :: t => (c :: h) :: t

/-- One step of `filepath.Clean`: the effect of the next component on the cleaned path
built so far. -/
def cleanStep (acc : Path) (c : String) : Path :=
  if c = "" ∨ c = "." then acc
  else if c = ".." then
    match acc.getLast? with
    | none => [".."]
    | some l => if l = ".." then acc ++ [".."] else acc.dropLast
  else acc ++ [c]

/-- Go `filepath.Join(basePath, name)` for a cleaned relative `basePath`: the cleaning of
`basePath + "/" + name`. -/
def join (base : Path) (name : String) : Path :=
  ((splitSlash name.data).map String.mk).foldl cleanStep base

/-- Go `filepath.Dir(p)` for a cleaned relative path. -/
def dir (p : Path) : Path :=
  p.dropLast

/-! ## The filesystem

An ideal POSIX-like filesystem: case-sensitive, without links, without limits on the length
or the characters of a name, and with every permission granted. A node is named by the list
of the components of its absolute path; the root is the empty list.

A real filesystem also refuses a name that holds a NUL character or that is longer than its
limit (255 bytes for most), and the model does not: a call that succeeds on a real filesystem
succeeds here with the same effect, and a call here may succeed where the real one fails.
So what is proved of the runs that succeed holds of the runs of the program that succeed.
That a run succeeds, where it is concluded from the shape of the names alone
(`createStructure_done`, `createStructure_on_empty_dir`), is a statement about this ideal
filesystem; the theorems C3, C14, C15 and C16 take the success of the run as a hypothesis. -/

/-- What a path names: a directory, or a regular file with its content. -/
inductive FNode where
  | dir
  | file (content : String)
  deriving DecidableEq

/-- The errors of the filesystem calls. -/
inductive FsErr where
  | notDir
  | isDir
  | noEnt
  deriving DecidableEq

/-- A state of the filesystem, with the working directory of the process. -/
structure FS where
  cwd : List String
  node : List String → Option FNode

/-- Resolution of a cleaned relative path from the working directory. -/
def FS.abs (fs : FS) (p : Path) : List String :=
  p.foldl (fun acc c => if c = ".." then acc.dropLast else acc ++ [c]) fs.cwd

/-- Whether a node is a regular file. -/
def isFileNode : Option FNode → Bool
  | some (.file _) => true
  | _ => false

/-- Go `os.MkdirAll(p, 0755)`: fails when `p` or one of its ancestors is a regular file, and
otherwise makes `p` and every ancestor of `p` a directory. Every name is accepted, also one
that a real filesystem refuses for a NUL character or for its length. -/
def mkdirAll (fs : FS) (p : Path) : Except FsErr FS :=
  let a := fs.abs p
  if a.inits.any (fun q => isFileNode (fs.node q)) then .error .notDir
  else .ok { fs with node := fun q => if q.isPrefixOf a then some .dir else fs.node q }

/-- Go `os.WriteFile(p, content, 0644)`: fails when `p` is a directory or when the parent of
`p` is not an existing directory, and otherwise makes `p` a regular file holding `content`.
Every name is accepted, also one that a real filesystem refuses for a NUL character or for
its length. -/
def writeFile (fs : FS) (p : Path) (content : String) : Except FsErr FS :=
  let a := fs.abs p
  match fs.node a with
  | some .dir => .error .isDir
  | _ =>
    match fs.node a.dropLast with
    | some .dir => .ok { fs with node := fun q => if q = a then some (.file content) else fs.node q }
    | some (.file _) => .error .notDir
    | none => .error .noEnt

/-! ## `createStructure` -/

/-- The state in which `createStructure` returns, and the error it returns, if any. -/
structure Outcome where
  fs : FS
  err : Option FsErr

/-- The inner loop of `createStructure`: whether a key of `m` starts with `@`. -/
def hasAtKey : List (String × Value) → Bool
  | [] => false
  | (k, _) :: es => if hasPrefix k "@" then true else hasAtKey es

/-- The text that `createStructure` writes for `value`: `fmt.Sprintf("%v", value)`, replaced
by the empty text when it is `<nil>`. -/
def fileContent (ff : Nat → String) (value : Value) : String :=
  let content := sprint ff value
  if content = "<nil>" then "" else content

/-- The second half of the loop body of `createStructure`: creation of the parent directory
and writing of the file. -/
def writeEntry (ff : Nat → String) (currentPath : Path) (value : Value) (fs : FS) : Outcome :=
  match mkdirAll fs (dir currentPath) with
  | .error e => ⟨fs, some e⟩
  | .ok fs1 =>
    match writeFile fs1 currentPath (fileContent ff value) with
    | .error e => ⟨fs1, some e⟩
    | .ok fs2 => ⟨fs2, none⟩

mutual
/-- The body of the loop of `createStructure` for the entry `name`, `value`. -/
def createEntry (ff : Nat → String) (name : String) : Value → Path → FS → Outcome
  | .map m, basePath, fs =>
    if hasAtKey m then writeEntry ff (join basePath name) (.map m) fs
    else
      match mkdirAll fs (join basePath name) with
      | .error e => ⟨fs, some e⟩
      | .ok fs1 => createStructure ff m (join basePath name) fs1
  | .null, basePath, fs => writeEntry ff (join basePath name) .null fs
  | .bool b, basePath, fs => writeEntry ff (join basePath name) (.bool b) fs
  | .float x, basePath, fs => writeEntry ff (join basePath name) (.float x) fs
  | .str s, basePath, fs => writeEntry ff (join basePath name) (.str s) fs
  | .arr xs, basePath, fs => writeEntry ff (join basePath name) (.arr xs) fs
/-- Go `createStructure(data, basePath)`, with the entries of `data` visited in the order of
the list; it stops at the first error. -/
def createStructure (ff : Nat → String) : List (String × Value) → Path → FS → Outcome
  | [], _, fs => ⟨fs, none⟩
  | (name, value) :: rest, basePath, fs =>
    match createEntry ff name value basePath fs with
    | ⟨fs1, some e⟩ => ⟨fs1, some e⟩
    | ⟨fs1, none⟩ => createStructure ff rest basePath fs1
end

/-! ## Package `encoding/xml`

The decoder is modelled by the tokens it has still to return. `bad` records that the text
after these tokens is not well-formed XML. `stack` holds the names of the open elements:
`Token` checks that start and end elements are properly nested and matched. -/

/-- Go `xml.Name`. -/
structure Name where
  Space : String
  Local : String
  deriving DecidableEq

/-- Go `xml.Attr`. -/
structure Attr where
  Name : Name
  Value : String
  deriving DecidableEq

/-- Go `xml.StartElement`. -/
structure StartElement where
  Name : Name
  Attr : List Attr
  deriving DecidableEq

/-- Go `xml.Token`. -/
inductive Token where
  | StartElement (se : StartElement)
  | EndElement (name : Name)
  | CharData (data : String)
  | Comment (data : String)
  | ProcInst (target : String) (inst : String)
  | Directive (data : String)
  deriving DecidableEq

/-- The errors of `Decoder.Token`: `io.EOF`, or an `xml.SyntaxError`. -/
inductive XmlErr where
  | eof
  | malformed
  deriving DecidableEq

/-- Go `xml.Decoder` (in its default, strict mode). -/
structure Decoder where
  input : List Token
  bad : Bool
  stack : List Name

/-- Go `(*xml.Decoder).Token`. -/
def Decoder.Token (d : Decoder) : Except XmlErr (Token × Decoder) :=
  match d.input with
  | [] => .error (if d.bad || !d.stack.isEmpty then .malformed else .eof)
  | .StartElement se :: rest =>
    .ok (.StartElement se, { d with input := rest, stack := se.Name :: d.stack })
  | .EndElement n :: rest =>
    match d.stack with
    | [] => .error .malformed
    | top :: st =>
      if top = n then .ok (.EndElement n, { d with input := rest, stack := st })
      else .error .malformed
  | t :: rest => .ok (t, { d with input := rest })

/-! ## `parseXMLElement` and `parseXML` -/

/-- Go `children[k] = v` on a `map[string]interface{}`. -/
def setKey (k : String) (v : Value) : Mapping → Mapping
  | [] => [(k, v)]
  | e :: es => if e.1 = k then (k, v) :: es else e :: setKey k v es

/-- The loop of `parseXMLElement`, with its local variables `children`, `hasChildren` and
`textContent`. Every turn of the loop takes one token from the decoder; `fuel` bounds the
number of tokens taken, and the result is `none` when it is used up. -/
def parseXMLElementLoop : Nat → Decoder → StartElement → Mapping → Bool → String →
    Option (Except XmlErr (Value × Decoder))
  | 0, _, _, _, _, _ => none
  | fuel + 1, dec, se, children, hasChildren, textContent =>
    match dec.Token with
    | .error err => some (.error err)
    | .ok (.StartElement t, dec1) =>
      match parseXMLElementLoop fuel dec1 t [] false "" with
      | none => none
      | some (.error err) => some (.error err)
      | some (.ok (childVal, dec2)) =>
        parseXMLElementLoop fuel dec2 se (setKey t.Name.Local childVal children) true textContent
    | .ok (.CharData t, dec1) =>
      parseXMLElementLoop fuel dec1 se children hasChildren (textContent ++ trimSpace t)
    | .ok (.EndElement t, dec1) =>
      if t = se.Name then
        if hasChildren then some (.ok (.map children, dec1))
        else some (.ok (.str textContent, dec1))
      else parseXMLElementLoop fuel dec1 se children hasChildren textContent
    | .ok (_, dec1) => parseXMLElementLoop fuel dec1 se children hasChildren textContent

/-- Go `parseXMLElement(dec, se)`, returning the decoded value and the decoder after the
call. The fuel is one more than the number of tokens left, which the loop cannot use up. -/
def parseXMLElement (dec : Decoder) (se : StartElement) : Except XmlErr (Value × Decoder) :=
  match parseXMLElementLoop (dec.input.length + 1) dec se [] false "" with
  | some r => r
  | none => .error .malformed

/-- The errors of `parseXML`: `empty XML document`, or the error of the decoder. -/
inductive ParseErr where
  | emptyDocument
  | token (err : XmlErr)
  deriving DecidableEq

/-- The loop of `parseXML`, bounded like the loop of `parseXMLElement`. -/
def parseXMLLoop : Nat → Decoder → Option (Except ParseErr Mapping)
  | 0, _ => none
  | fuel + 1, dec =>
    match dec.Token with
    | .error .eof => some (.error .emptyDocument)
    | .error err => some (.error (.token err))
    | .ok (.StartElement se, dec1) =>
      match parseXMLElement dec1 se with
      | .error err => some (.error (.token err))
      | .ok (content, _) => some (.ok [(se.Name.Local, content)])
    | .ok (_, dec1) => parseXMLLoop fuel dec1

/-- Go `parseXML(dec)`. -/
def parseXML (dec : Decoder) : Except ParseErr Mapping :=
  match parseXMLLoop (dec.input.length + 1) dec with
  | some r => r
  | none => .error (.token .malformed)

/-! ## `loadStructureFromFile`

The decoders of `encoding/json`, of `gopkg.in/yaml.v2` and the tokenizer of `encoding/xml`
are parameters. The file is given by its text; failures of `os.Open`, `Read` and `Seek` are
outside the model. -/

/-- The dynamic values that `yaml.Unmarshal` (yaml.v2) stores in an `interface{}`; a YAML
mapping is stored as a `map[interface{}]interface{}`. -/
inductive YamlValue where
  | null
  | bool (b : Bool)
  | int (n : Int)
  | float (bits : Nat)
  | str (s : String)
  | seq (xs : List YamlValue)
  | map (es : List (YamlValue × YamlValue))

/-- The library decoders that `loadStructureFromFile` calls, each with the message of its
error. -/
structure Codecs where
  jsonDecode : String → Except String Value
  yamlUnmarshal : String → Except String YamlValue
  xmlDecoder : String → Decoder

/-- The formats that the detector tells apart. -/
inductive Format where
  | json
  | yaml
  | xml
  deriving DecidableEq

/-- The errors of `loadStructureFromFile`. -/
inductive LoadErr where
  | json (msg : String)
  | yaml (msg : String)
  | xml (err : ParseErr)
  | unableToDetect
  | notAMap
  deriving DecidableEq

/-- The longest run of leading characters that lies within the first `n` bytes. -/
def takeBytes : Nat → List Char → List Char
  | _, [] => []
  | n, c :: cs => if c.utf8Size ≤ n then c :: takeBytes (n - c.utf8Size) cs else []

/-- The variable `head`: the text of the first 1024 bytes of the file. A character that the
end of the buffer cuts is left out; the detector looks only for ASCII characters and
skips only white space. -/
def sniff (content : String) : String :=
  String.mk (takeBytes 1024 content.data)

/-- The guards of the `switch` of `loadStructureFromFile`, in their order. -/
def detectFormat (head : String) : Option Format :=
  if hasPrefix head "\x7b" then some .json
  else if contains head "---" || contains head ":" then some .yaml
  else if hasPrefix (trimSpace head) "<" then some .xml
  else none

/-- What the variable `structure` holds after the `switch`. -/
inductive Decoded where
  | fromJSON (v : Value)
  | fromYAML (v : YamlValue)
  | fromXML (m : Mapping)

/-- The type assertion `structure.(map[string]interface{})`. It holds for a JSON object and
for the result of `parseXML`; it fails for every value that yaml.v2 stores, a YAML mapping
being a `map[interface{}]interface{}`. -/
def Decoded.asMapping : Decoded → Option Mapping
  | .fromJSON (.map m) => some m
  | .fromJSON _ => none
  | .fromYAML _ => none
  | .fromXML m => some m

/-- The `switch` of `loadStructureFromFile`: the decoding by the detected format. -/
def decodeBy (c : Codecs) (content : String) : Option Format → Except LoadErr Decoded
  | some .json =>
    match c.jsonDecode content with
    | .error msg => .error (.json msg)
    | .ok v => .ok (.fromJSON v)
  | some .yaml =>
    match c.yamlUnmarshal content with
    | .error msg => .error (.yaml msg)
    | .ok v => .ok (.fromYAML v)
  | some .xml =>
    match parseXML (c.xmlDecoder content) with
    | .error err => .error (.xml err)
    | .ok m => .ok (.fromXML m)
  | none => .error .unableToDetect

/-- Go `loadStructureFromFile(path)`, for a file with the text `content`. -/
def loadStructureFromFile (c : Codecs) (content : String) : Except LoadErr Mapping :=
  match decodeBy c content (detectFormat (sniff content)) with
  | .error err => .error err
  | .ok decoded =>
    match decoded.asMapping with
    | some m => .ok m
    | none => .error .notAMap

/-! ## `main`

The choice of the input file (the command-line argument, or the first default file that
exists) is not modelled: `main` is given the text of the file it would read, if there is one.
Of what `main` prints, only the last line is kept, without the text of a library error. -/

/-- The last line that `main` prints. -/
inductive Report where
  | notFound
  | loadError (e : LoadErr)
  | notADict
  | mkdirError
  | createError (e : FsErr)
  | created (projectName : String)
  | silent
  deriving DecidableEq

/-- The state of `os.MkdirAll` on the text of a path, between two components: the filesystem,
the directory reached (as a cleaned relative path), and whether no call has failed. -/
structure Walk where
  fs : FS
  pos : Path
  ok : Bool

/-- Go `os.MkdirAll` on the text of a path, one component: an empty component and `.` stay in
the directory reached, `..` goes to its parent, and a name goes to the entry of that name,
made a directory if it is not there; it fails on a regular file. Without links the parent of
the directory reached is the parent of its cleaned path. -/
def mkdirAllStep (w : Walk) (c : String) : Walk :=
  if w.ok then
    if c = "" ∨ c = "." ∨ c = ".." then { w with pos := cleanStep w.pos c }
    else
      match mkdirAll w.fs (cleanStep w.pos c) with
      | .ok fs1 => ⟨fs1, cleanStep w.pos c, true⟩
      | .error _ => ⟨w.fs, cleanStep w.pos c, false⟩
  else w

/-- The cleaned relative path of the directory from which a path given as text is resolved:
the working directory, or the root when the text starts with `/`. The root is reached from
the working directory by one `..` for each of its components. -/
def startOf (fs : FS) (name : String) : Path :=
  if name.data.head? = some '/' then List.replicate fs.cwd.length ".." else []

/-- Go `os.MkdirAll(name, 0755)` for a path given as text, as `main` calls it: the state
reached, and whether the call succeeded. It fails on the empty text. -/
def mkdirAllText (fs : FS) (name : String) : FS × Bool :=
  if name = "" then (fs, false)
  else
    let w := ((splitSlash name.data).map String.mk).foldl mkdirAllStep ⟨fs, startOf fs name, true⟩
    (w.fs, w.ok)

/-- The base path that `createStructure` is given by `main`, cleaned: `filepath.Join` of the
project name and an entry name is the cleaning of the one, a `/`, and the other. -/
def projectBase (fs : FS) (projectName : String) : Path :=
  join (startOf fs projectName) projectName

/-- The loop `for projectName, projectData := range structure` of `main`, with the entries
of `structure` in the order in which the loop visits them: every path through the body
leaves the loop. -/
def mainLoop (ff : Nat → String) : List (String × Value) → FS → FS × Report
  | [], fs => (fs, .silent)
  | (projectName, projectData) :: _, fs =>
    match projectData with
    | .map projectMap =>
      match mkdirAllText fs projectName with
      | (fs1, false) => (fs1, .mkdirError)
      | (fs1, true) =>
        match createStructure ff projectMap (projectBase fs projectName) fs1 with
        | ⟨fs2, some e⟩ => (fs2, .createError e)
        | ⟨fs2, none⟩ => (fs2, .created projectName)
    | _ => (fs, .notADict)

/-- Go `main`, from the reading of the input file on. -/
def main (c : Codecs) (ff : Nat → String) (input : Option String) (fs : FS) : FS × Report :=
  match input with
  | none => (fs, .notFound)
  | some content =>
    match loadStructureFromFile c content with
    | .error e => (fs, .loadError e)
    | .ok structureMap => mainLoop ff structureMap fs

/-! ## XML documents

The content of an element, as a tree; its tokens are those that the decoder returns for a
well-formed document. -/

/-- A piece of the content of an element. -/
inductive XNode where
  | elem (se : StartElement) (kids : List XNode)
  | text (data : String)
  | comment (data : String)
  | procInst (target : String) (inst : String)
  | directive (data : String)

mutual
/-- The tokens of a piece of content. -/
def XNode.tokens : XNode → List Token
  | .elem se kids => .StartElement se :: (tokensOf kids ++ [.EndElement se.Name])
  | .text data => [.CharData data]
  | .comment data => [.Comment data]
  | .procInst target inst => [.ProcInst target inst]
  | .directive data => [.Directive data]
/-- The tokens of the content of an element. -/
def tokensOf : List XNode → List Token
  | [] => []
  | n :: ns => n.tokens ++ tokensOf ns
end

/-- Whether the content has a child element. -/
def hasChildElement : List XNode → Bool
  | [] => false
  | .elem _ _ :: _ => true
  | _ :: ns => hasChildElement ns

/-- The text runs of the content, in document order. -/
def textRuns : List XNode → List String
  | [] => []
  | .text data :: ns => data :: textRuns ns
  | _ :: ns => textRuns ns

/-- The text runs of the content, each trimmed of its surrounding white space, concatenated
after `acc`. -/
def trimmedText (acc : String) : List XNode → String
  | [] => acc
  | .text data :: ns => trimmedText (acc ++ trimSpace data) ns
  | _ :: ns => trimmedText acc ns

mutual
/-- The entry that a piece of content adds to the mapping of its parent: a child element adds
its decoded value under its local name, and the other pieces add nothing. -/
def XNode.entry : XNode → Option (String × Value)
  | .elem se kids =>
    some (se.Name.Local,
      if hasChildElement kids then .map (childMap [] kids) else .str (trimmedText "" kids))
  | _ => none
/-- The child elements of the content entered into `acc` in document order, each under its
local name with its decoded value. -/
def childMap (acc : Mapping) : List XNode → Mapping
  | [] => acc
  | n :: ns =>
    match n.entry with
    | some (k, v) => childMap (setKey k v acc) ns
    | none => childMap acc ns
end

/-- The value that an element with the content `kids` decodes to: the mapping of its child
elements when it has one, and its text otherwise. -/
def elemValue (kids : List XNode) : Value :=
  if hasChildElement kids then .map (childMap [] kids) else .str (trimmedText "" kids)

/-- The child elements of the content, in document order. -/
def childElements : List XNode → List (StartElement × List XNode)
  | [] => []
  | .elem se kids :: ns => (se, kids) :: childElements ns
  | _ :: ns => childElements ns

/-! ## Notions of the statements -/

/-- The value that `parseXMLElement` returns at the end element, from its local variables. -/
def finish (children : Mapping) (hasChildren : Bool) (textContent : String) : Value :=
  if hasChildren then .map children else .str textContent

/-- Concatenation of a list of strings. -/
def concatStrings : List String → String
  | [] => ""
  | s :: ss => s ++ concatStrings ss

/-- A token without its attributes. -/
def eraseAttr : Token → Token
  | .StartElement se => .StartElement ⟨se.Name, []⟩
  | t => t

/-- A decoder whose remaining tokens have lost their attributes. -/
def Decoder.eraseAttrs (d : Decoder) : Decoder :=
  { d with input := d.input.map eraseAttr }

/-- The tokens that are neither a start nor an end element. -/
def isMisc : Token → Bool
  | .StartElement _ => false
  | .EndElement _ => false
  | _ => true

/-- A plain file name: not empty, without `/`, and neither `.` nor `..`. -/
def plainName (s : String) : Bool :=
  decide (s ≠ "") && !s.data.contains '/' && decide (s ≠ ".") && decide (s ≠ "..")

mutual
/-- A value all of whose directory levels are plain: a mapping without an `@` key is a plain
tree, and every other value is a leaf. -/
def plainValue : Value → Bool
  | .map m => hasAtKey m || plainTree m
  | _ => true
/-- A mapping whose keys are plain file names, distinct from one another, and whose values
are plain. -/
def plainTree : List (String × Value) → Bool
  | [] => true
  | (k, v) :: es => plainName k && es.all (fun e => decide (e.1 ≠ k)) && plainValue v && plainTree es
end

mutual
/-- A value no key of which starts with `@`, at any depth. -/
def noAtValue : Value → Bool
  | .map m => noAtTree m
  | _ => true
/-- A mapping no key of which starts with `@`, at any depth. -/
def noAtTree : List (String × Value) → Bool
  | [] => true
  | (k, v) :: es => !hasPrefix k "@" && noAtValue v && noAtTree es
end

/-- The value under the key `k` of a mapping. -/
def lookupKey (k : String) : List (String × Value) → Option Value
  | [] => none
  | e :: es => if e.1 = k then some e.2 else lookupKey k es

/-- What `value`, materialized at a path, puts at the relative path `r` below it: a mapping
without an `@` key is a directory holding its entries, and every other value is a file with
its text. -/
def nodeAt (ff : Nat → String) : List String → Value → Option FNode
  | [], .map m => if hasAtKey m then some (.file (fileContent ff (.map m))) else some .dir
  | [], v => some (.file (fileContent ff v))
  | k :: r, .map m =>
    if hasAtKey m then none
    else
      match lookupKey k m with
      | some v => nodeAt ff r v
      | none => none
  | _ :: _, _ => none

/-- What the mapping `data`, materialized in a directory, puts at the relative path `r` of
that directory. -/
def treeAt (ff : Nat → String) (data : List (String × Value)) : List String → Option FNode
  | [] => some .dir
  | k :: r =>
    match lookupKey k data with
    | some v => nodeAt ff r v
    | none => none

/-- A value that `createStructure` writes as a file: anything but a mapping without an `@`
key. -/
def isLeaf : Value → Bool
  | .map m => hasAtKey m
  | _ => true

/-- The node `a` and all its ancestors are directories. -/
def DirsTo (fs : FS) (a : List String) : Prop :=
  ∀ q, q <+: a → fs.node q = some .dir

/-- Nothing exists at the entry `k` of the directory `a`, nor below it. -/
def FreeAt (fs : FS) (a : List String) (k : String) : Prop :=
  ∀ r, fs.node (a ++ k :: r) = none

/-- The outcome `o` of the loop body for the entry `k`, `v` of the directory `a`, run from
`fs`: no error, the nodes at and below the entry are those of `v`, and every other node is
as in `fs`. -/
def EntryDone (ff : Nat → String) (k : String) (v : Value) (a : List String) (fs : FS)
    (o : Outcome) : Prop :=
  o.err = none ∧ o.fs.cwd = fs.cwd ∧
    (∀ r, o.fs.node (a ++ k :: r) = nodeAt ff r v) ∧
    (∀ q, (∀ r, q ≠ a ++ k :: r) → o.fs.node q = fs.node q)

/-- The outcome `o` of `createStructure` for the mapping `es` in the directory `a`, run from
`fs`: no error, the nodes at and below the entries of `es` are those of their values, and
every other node is as in `fs`. -/
def Materialized (ff : Nat → String) (es : List (String × Value)) (a : List String) (fs : FS)
    (o : Outcome) : Prop :=
  o.err = none ∧ o.fs.cwd = fs.cwd ∧
    (∀ k r v, lookupKey k es = some v → o.fs.node (a ++ k :: r) = nodeAt ff r v) ∧
    (∀ q, (∀ k r, q = a ++ k :: r → lookupKey k es = none) → o.fs.node q = fs.node q)

/-- The value found in `v` by following the keys of `r` through mappings without an `@`
key. -/
def valueAt : List String → Value → Option Value
  | [], v => some v
  | k :: r, .map m =>
    if hasAtKey m then none
    else
      match lookupKey k m with
      | some v => valueAt r v
      | none => none
  | _ :: _, _ => none

/-- The value of the entry of `data` at the relative path `r`, every mapping above it being
without an `@` key. -/
def entryAt (data : List (String × Value)) : List String → Option Value
  | [] => none
  | k :: r =>
    match lookupKey k data with
    | some v => valueAt r v
    | none => none

mutual
/-- The shape of the values of the XML decoder: a string, or a mapping that is not empty and
whose values have that shape. -/
def xmlShaped : Value → Bool
  | .str _ => true
  | .map m => !m.isEmpty && xmlShapedAll m
  | _ => false
/-- All the values of the entries have the shape of the values of the XML decoder. -/
def xmlShapedAll : List (String × Value) → Bool
  | [] => true
  | (_, v) :: es => xmlShaped v && xmlShapedAll es
end

/-- The content of the last child element with the local name `n`, in document order. -/
def lastChild (n : String) : List XNode → Option (List XNode)
  | [] => none
  | .elem se kids :: ns =>
    match lastChild n ns with
    | some c => some c
    | none => if se.Name.Local = n then some kids else none
  | _ :: ns => lastChild n ns

/-- The error on which the token source stops, when it is read token after token; `fuel`
bounds the number of tokens read. -/
def drain : Nat → Decoder → XmlErr
  | 0, _ => .malformed
  | fuel + 1, dec =>
    match dec.Token with
    | .error err => err
    | .ok (_, dec1) => drain fuel dec1

/-- The error on which the token source stops: `io.EOF` at the end of a well-formed text, or
its syntax error. -/
def Decoder.streamError (dec : Decoder) : XmlErr :=
  drain (dec.input.length + 1) dec

/-- The decoder as it is once fewer than `depth` elements are open, when the source is read
token after token; `none` when the source stops on an error before that. -/
def closeFrom : Nat → Nat → Decoder → Option Decoder
  | 0, _, _ => none
  | fuel + 1, depth, dec =>
    match dec.Token with
    | .error _ => none
    | .ok (_, dec1) => if dec1.stack.length < depth then some dec1 else closeFrom fuel depth dec1

/-- The decoder just after the end element that leaves fewer than `depth` elements open;
`none` when the source ends or reports an error before that end element. -/
def Decoder.closeAt (depth : Nat) (dec : Decoder) : Option Decoder :=
  closeFrom (dec.input.length + 1) depth dec

mutual
/-- The content of the XML element that encodes a value: the text of a string, and one child
element for every entry of a mapping. -/
def xmlContent : Value → List XNode
  | .str s => [.text s]
  | .map m => xmlEntries m
  | _ => []
/-- The child elements that encode the entries of a mapping. -/
def xmlEntries : List (String × Value) → List XNode
  | [] => []
  | (k, v) :: es => .elem ⟨⟨"", k⟩, []⟩ (xmlContent v) :: xmlEntries es
end

mutual
/-- The values that an XML element can encode: a string without surrounding white space, and
a mapping that is not empty, whose keys are distinct and whose values are such values. -/
def xmlEncodable : Value → Bool
  | .str s => decide (trimSpace s = s)
  | .map m => !m.isEmpty && xmlEncodableAll m
  | _ => false
/-- The entries have distinct keys and values that an XML element can encode. -/
def xmlEncodableAll : List (String × Value) → Bool
  | [] => true
  | (k, v) :: es => es.all (fun e => decide (e.1 ≠ k)) && xmlEncodable v && xmlEncodableAll es
end

/-- A call of `createStructure` to the filesystem. -/
inductive Op where
  | mkdir (p : Path)
  | write (p : Path) (content : String)

/-- The call `o` made in the state `fs`. -/
def Op.run (fs : FS) : Op → Except FsErr FS
  | .mkdir p => mkdirAll fs p
  | .write p content => writeFile fs p content

/-- The calls of a list made one after the other, up to the first that fails. -/
def runOps : List Op → FS → Outcome
  | [], fs => ⟨fs, none⟩
  | o :: os, fs =>
    match o.run fs with
    | .error e => ⟨fs, some e⟩
    | .ok fs1 => runOps os fs1

/-- The calls of the second half of the loop body of `createStructure`. -/
def writeOps (ff : Nat → String) (currentPath : Path) (value : Value) : List Op :=
  [.mkdir (dir currentPath), .write currentPath (fileContent ff value)]

mutual
/-- The calls that the loop body of `createStructure` makes for the entry `name`, `value`,
in their order. -/
def entryOps (ff : Nat → String) (name : String) : Value → Path → List Op
  | .map m, basePath =>
    if hasAtKey m then writeOps ff (join basePath name) (.map m)
    else .mkdir (join basePath name) :: treeOps ff m (join basePath name)
  | .null, basePath => writeOps ff (join basePath name) .null
  | .bool b, basePath => writeOps ff (join basePath name) (.bool b)
  | .float x, basePath => writeOps ff (join basePath name) (.float x)
  | .str s, basePath => writeOps ff (join basePath name) (.str s)
  | .arr xs, basePath => writeOps ff (join basePath name) (.arr xs)
/-- The calls that `createStructure(data, basePath)` makes, in their order. -/
def treeOps (ff : Nat → String) : List (String × Value) → Path → List Op
  | [], _ => []
  | (name, value) :: rest, basePath =>
    entryOps ff name value basePath ++ treeOps ff rest basePath
end

/-- The effect of a call that succeeds. -/
def Op.force (fs : FS) : Op → FS
  | .mkdir p => { fs with node := fun q => if q.isPrefixOf (fs.abs p) then some .dir else fs.node q }
  | .write p content =>
    { fs with node := fun q => if q = fs.abs p then some (.file content) else fs.node q }

/-- The effects of the calls of a list, one after the other. -/
def forceAll : List Op → FS → FS
  | [], fs => fs
  | o :: os, fs => forceAll os (o.force fs)

/-- The effects of the writes of a list, one after the other, the other calls left out. -/
def applyWrites : List Op → FS → FS
  | [], fs => fs
  | .mkdir _ :: os, fs => applyWrites os fs
  | .write p content :: os, fs => applyWrites os (Op.force fs (.write p content))

/-- Two states with the same working directory, the same directories and the same files, the
contents of the files left aside. -/
def SameShape (t s : FS) : Prop :=
  t.cwd = s.cwd ∧
    ∀ q, (t.node q = some .dir ↔ s.node q = some .dir) ∧
      isFileNode (t.node q) = isFileNode (s.node q)

mutual
/-- The value `v1` is the value `v2`, up to the order in which the entries of the mappings
are visited. A mapping with an `@` key is written as one file, from its rendering by `fmt`:
its entries are not visited, and it is the same value under every order. -/
def subValue : Value → Value → Prop
  | .map m1, v2 =>
    match v2 with
    | .map m2 => if hasAtKey m1 = true then m1 = m2 else hasAtKey m2 = false ∧ subEntries m1 m2
    | _ => False
  | .null, v2 => v2 = .null
  | .bool b, v2 => v2 = .bool b
  | .float x, v2 => v2 = .float x
  | .str s, v2 => v2 = .str s
  | .arr xs, v2 => v2 = .arr xs
/-- Every entry of the first mapping is an entry of the second, up to the order in which
the entries of the mappings are visited. -/
def subEntries : List (String × Value) → List (String × Value) → Prop
  | [], _ => True
  | (k, v) :: es, m2 => (∃ v2, lookupKey k m2 = some v2 ∧ subValue v v2) ∧ subEntries es m2
end

/-- Two lists of entries of one mapping, each in an order in which the mapping and its
nested mappings are visited. -/
def Reordered (es1 es2 : List (String × Value)) : Prop :=
  subEntries es1 es2 ∧ subEntries es2 es1

/-- The state `o` is the state `fs` with the entry `k`, `v` of the directory `a` laid over it:
the nodes at and below the entry that `v` describes are those of `v`, the directory `a` and
its ancestors are directories, and every other node is as in `fs`. -/
def EntryLaid (ff : Nat → String) (k : String) (v : Value) (a : List String) (fs o : FS) :
    Prop :=
  o.cwd = fs.cwd ∧
    (∀ r, o.node (a ++ k :: r) = (nodeAt ff r v).or (fs.node (a ++ k :: r))) ∧
    (∀ q, (∀ r, q ≠ a ++ k :: r) →
      o.node q = if q.isPrefixOf a then some .dir else fs.node q)

/-- The state `o` is the state `fs` with the mapping `es` laid over the directory `a`: the
nodes that `es` describes are those of `es`, the directory `a` and its ancestors are
directories when `es` has an entry, and every other node is as in `fs`. -/
def TreeLaid (ff : Nat → String) (es : List (String × Value)) (a : List String) (fs o : FS) :
    Prop :=
  o.cwd = fs.cwd ∧
    (∀ k r v, lookupKey k es = some v →
      o.node (a ++ k :: r) = (nodeAt ff r v).or (fs.node (a ++ k :: r))) ∧
    (∀ q, (∀ k r, q = a ++ k :: r → lookupKey k es = none) →
      o.node q = if !es.isEmpty && q.isPrefixOf a then some .dir else fs.node q)

/-- The string form of a leaf: the text of the value, and the empty text for a null value. -/
def stringForm (ff : Nat → String) : Value → String
  | .null => ""
  | .bool b => sprint ff (.bool b)
  | .float x => sprint ff (.float x)
  | .str s => s
  | .arr xs => sprint ff (.arr xs)
  | .map m => sprint ff (.map m)

mutual
/-- The value with every leaf replaced by its string form. -/
def stringify (ff : Nat → String) : Value → Value
  | .map m => .map (stringifyAll ff m)
  | .null => .str (stringForm ff .null)
  | .bool b => .str (stringForm ff (.bool b))
  | .float x => .str (stringForm ff (.float x))
  | .str s => .str (stringForm ff (.str s))
  | .arr xs => .str (stringForm ff (.arr xs))
/-- The mapping with every leaf replaced by its string form. -/
def stringifyAll (ff : Nat → String) : List (String × Value) → List (String × Value)
  | [] => []
  | (k, v) :: es => (k, stringify ff v) :: stringifyAll ff es
end

mutual
/-- No leaf of the value other than a null has the text `<nil>`. -/
def noNilValue (ff : Nat → String) : Value → Bool
  | .map m => noNilTree ff m
  | .null => true
  | .bool b => decide (sprint ff (.bool b) ≠ "<nil>")
  | .float x => decide (sprint ff (.float x) ≠ "<nil>")
  | .str s => decide (s ≠ "<nil>")
  | .arr xs => decide (sprint ff (.arr xs) ≠ "<nil>")
/-- No leaf of the mapping other than a null has the text `<nil>`. -/
def noNilTree (ff : Nat → String) : List (String × Value) → Bool
  | [] => true
  | (_, v) :: es => noNilValue ff v && noNilTree ff es
end

mutual
/-- The filesystem at the path `a`, read back as a tree, is the value: a directory reads as
the mapping whose keys are the names of its entries, each entry read back in the same way,
and a file reads as the leaf that holds its content. -/
def ReadsAsValue (fs : FS) : List String → Value → Prop
  | a, .map m =>
    fs.node a = some .dir ∧ (m.map Prod.fst).Nodup ∧ ReadsAsEntries fs a m ∧
      ∀ k, fs.node (a ++ [k]) ≠ none → lookupKey k m ≠ none
  | a, .str s => fs.node a = some (.file s)
  | _, .null => False
  | _, .bool _ => False
  | _, .float _ => False
  | _, .arr _ => False
/-- Every entry of the mapping is the entry of that name of the directory `a`, read back as
a tree. -/
def ReadsAsEntries (fs : FS) : List String → List (String × Value) → Prop
  | _, [] => True
  | a, (k, v) :: es => ReadsAsValue fs (a ++ [k]) v ∧ ReadsAsEntries fs a es
end

/-- The base path of `createStructure` at the nesting depth reached from `basePath` through
the entries `names`, one `filepath.Join` for each level. -/
def joinAll (basePath : Path) (names : List String) : Path :=
  names.foldl join basePath

mutual
/-- The content of an XML element encodes the value: a string is the text of the element,
the white space around it aside; a mapping, which is not empty, is one child element for
each entry, in the order of the entries, with the key as its local name and a content that
encodes the value of the entry, the keys being distinct. What stands between the child
elements, and the namespaces and the attributes of the elements, do not count. -/
def xmlEncodes : Value → List XNode → Bool
  | .str s, kids =>
    match kids with
    | [] => decide (s = "")
    | [.text t] => decide (trimSpace t = s)
    | _ => false
  | .map m, kids => !m.isEmpty && xmlEncodesAll m (childElements kids)
  | .null, _ => false
  | .bool _, _ => false
  | .float _, _ => false
  | .arr _, _ => false
/-- The child elements encode the entries, one by one. -/
def xmlEncodesAll : List (String × Value) → List (StartElement × List XNode) → Bool
  | [], cs => cs.isEmpty
  | (k, v) :: es, cs =>
    match cs with
    | [] => false
    | (se, sub) :: cs2 =>
      decide (se.Name.Local = k) && es.all (fun e => decide (e.1 ≠ k)) && xmlEncodes v sub &&
        xmlEncodesAll es cs2
end

/-! ## Sample inputs -/

/-- Library decoders that reject every text, over an XML tokenizer that finds no token. -/
def rejectAll : Codecs :=
  { jsonDecode := fun _ => .error "invalid character",
    yamlUnmarshal := fun _ => .error "yaml: did not find expected node",
    xmlDecoder := fun _ => ⟨[], false, []⟩ }

/-- A filesystem holding the root, the working directory `/w` and the empty directory
`/w/myapp`. -/
def fsProject : FS :=
  { cwd := ["w"],
    node := fun q => if q = [] ∨ q = ["w"] ∨ q = ["w", "myapp"] then some .dir else none }

/-- The tree of the scenario of the specification. -/
def scenario : List (String × Value) :=
  [("src", .map [("main.go", .str "package main")]), ("README.md", .str "hello")]

/-- A tree with a leaf whose text is `<nil>`. -/
def nilLeaf : List (String × Value) :=
  [("src", .map [("main.go", .str "<nil>")])]

/-- A rendering of `float64` values, for the inputs that hold none. -/
def noFloat : Nat → String :=
  fun _ => "0"

/-- A mapping with an `@` key. -/
def atMapping : List (String × Value) :=
  [("@id", .str "7"), ("body", .str "text")]

/-- A tree with a mapping that has an `@` key, one level down. -/
def atTree : List (String × Value) :=
  [("doc", .map [("page", .map atMapping)])]

/-- The text `{:---<`. -/
def braceFirst : String :=
  "\x7b:---<"

/-- The text of a newline followed by `{"myapp": {}}`. -/
def jsonAfterNewline : String :=
  "\n\x7b\"myapp\": \x7b\x7d\x7d"

/-- The text of a space followed by `{}`. -/
def jsonAfterSpace : String :=
  " \x7b\x7d"

/-- The start element `<tag>`, in no namespace and without attributes. -/
def tag (s : String) : StartElement :=
  ⟨⟨"", s⟩, []⟩

/-- The content of `<x>a <!--c--> b</x>`: two text runs around a comment. -/
def twoRuns : List XNode :=
  [.text "a ", .comment "c", .text " b"]

/-- The content of `<p> pad <a>x</a><b><c/></b></p>`. -/
def twoChildren : List XNode :=
  [.text " pad ", .elem (tag "a") [.text "x"], .elem (tag "b") [.elem (tag "c") []]]

/-- The tokens of `<a x="1">t</a>`. -/
def withAttr : List Token :=
  [.StartElement ⟨⟨"", "a"⟩, [⟨⟨"", "x"⟩, "1"⟩]⟩, .CharData "t", .EndElement ⟨"", "a"⟩]

/-- The tokens of `<a x="1"><b>t</b></a>`. -/
def withAttrAndChild : List Token :=
  [.StartElement ⟨⟨"", "a"⟩, [⟨⟨"", "x"⟩, "1"⟩]⟩, .StartElement (tag "b"), .CharData "t",
    .EndElement ⟨"", "b"⟩, .EndElement ⟨"", "a"⟩]

/-- The tokens of `<a>x</a><b>y</b>`, a text with two top-level elements. -/
def twoRoots : List Token :=
  (XNode.elem (tag "a") [.text "x"]).tokens ++ (XNode.elem (tag "b") [.text "y"]).tokens

/-- The content of `<p><a>1</a><b/><a xmlns="urn:x">2</a></p>`: two children with the local
name `a`, the second in a namespace. -/
def twiceA : List XNode :=
  [.elem (tag "a") [.text "1"], .elem (tag "b") [], .elem ⟨⟨"urn:x", "a"⟩, []⟩ [.text "2"]]

/-- The tokens of `<a><b>x`: the text ends while two elements are open. -/
def cutShort : List Token :=
  [.StartElement (tag "a"), .StartElement (tag "b"), .CharData "x"]

/-- The tokens of `<a><b>x</a>`: the end element does not match the open element. -/
def crossed : List Token :=
  [.StartElement (tag "a"), .StartElement (tag "b"), .CharData "x", .EndElement ⟨"", "a"⟩]

/-- The JSON text `{"myapp": {"debug": true}}`. -/
def jsonFlag : String :=
  "\x7b\"myapp\": \x7b\"debug\": true\x7d\x7d"

/-- The YAML text of the mapping of `myapp` to the mapping of `debug` to `true`. -/
def yamlFlag : String :=
  "myapp:\n  debug: true\n"

/-- The XML text `<myapp><debug>true</debug></myapp>`. -/
def xmlFlag : String :=
  "<myapp><debug>true</debug></myapp>"

/-- The JSON text `{"myapp": {"name": "demo"}}`. -/
def jsonName : String :=
  "\x7b\"myapp\": \x7b\"name\": \"demo\"\x7d\x7d"

/-- The YAML text of the mapping of `myapp` to the mapping of `name` to `demo`. -/
def yamlName : String :=
  "myapp:\n  name: demo\n"

/-- The XML text `<myapp><name>demo</name></myapp>`. -/
def xmlName : String :=
  "<myapp><name>demo</name></myapp>"

/-- The library decoders on the sample texts: what `encoding/json`, yaml.v2 and the tokenizer
of `encoding/xml` give for them. -/
def sampleCodecs : Codecs :=
  { jsonDecode := fun s =>
      if s = jsonFlag then .ok (.map [("myapp", .map [("debug", .bool true)])])
      else if s = jsonName then .ok (.map [("myapp", .map [("name", .str "demo")])])
      else .error "invalid character",
    yamlUnmarshal := fun s =>
      if s = yamlFlag then .ok (.map [(.str "myapp", .map [(.str "debug", .bool true)])])
      else if s = yamlName then .ok (.map [(.str "myapp", .map [(.str "name", .str "demo")])])
      else .error "yaml: did not find expected node",
    xmlDecoder := fun s =>
      if s = xmlFlag then
        ⟨(XNode.elem (tag "myapp") [.elem (tag "debug") [.text "true"]]).tokens, false, []⟩
      else if s = xmlName then
        ⟨(XNode.elem (tag "myapp") [.elem (tag "name") [.text "demo"]]).tokens, false, []⟩
      else ⟨[], true, []⟩ }

/-- A tree whose second entry cannot be made: `a` is written as a file, and `a/b` needs `a`
to be a directory. -/
def blocked : List (String × Value) :=
  [("a", .str "x"), ("a/b", .str "y"), ("c", .str "z")]

/-- A mapping whose keys `a` and `./a` are distinct and name the same path. -/
def sameFileTwice : List (String × Value) :=
  [("a", .str "1"), ("./a", .str "2")]

/-- The mapping of `a` and `./a`, its entries in the other order. -/
def sameFileTwiceBack : List (String × Value) :=
  [("./a", .str "2"), ("a", .str "1")]

/-- A tree with two entries, one of them a mapping of two entries. -/
def twoLevels : List (String × Value) :=
  [("src", .map [("a.go", .str "x"), ("b.go", .bool true)]), ("README.md", .str "hello")]

/-- The tree with two entries, the entries of each mapping in the other order. -/
def twoLevelsBack : List (String × Value) :=
  [("README.md", .str "hello"), ("src", .map [("b.go", .bool true), ("a.go", .str "x")])]

/-- A tree with a mapping whose only key starts with `@`. -/
def atPage : List (String × Value) :=
  [("page", .map [("@id", .str "7")])]

/-- A tree with leaves of every kind of scalar. -/
def scalars : List (String × Value) :=
  [("src", .map [("on", .bool true), ("none", .null)]), ("README.md", .str "hello")]

/-- A filesystem holding the root and the working directory `/w`, which is empty. -/
def fsWork : FS :=
  { cwd := ["w"], node := fun q => if q = [] ∨ q = ["w"] then some .dir else none }

/-- A decoded structure with two top-level entries, both mappings. -/
def twoProjects : List (String × Value) :=
  [("myapp", .map scenario), ("other", .map [("x", .str "1")])]

/-- A decoded structure whose first top-level entry is a leaf. -/
def leafFirst : List (String × Value) :=
  [("myapp", .str "text"), ("other", .map [("x", .str "1")])]

/-- The XML text of the tree of `myapp` with the entry `name` set to `demo`, one element on
each line. -/
def xmlPretty : String :=
  "<myapp>\n  <name>demo</name>\n</myapp>\n"

/-- The content of the element `myapp` of the text on several lines. -/
def prettyKids : List XNode :=
  [.text "\n  ", .elem (tag "name") [.text "demo"], .text "\n"]

/-- The library decoders on the JSON text and on the XML text on several lines of the tree
of `myapp`. -/
def prettyCodecs : Codecs :=
  { jsonDecode := fun s =>
      if s = jsonName then .ok (.map [("myapp", .map [("name", .str "demo")])])
      else .error "invalid character",
    yamlUnmarshal := fun _ => .error "yaml: did not find expected node",
    xmlDecoder := fun s =>
      if s = xmlPretty then
        ⟨(XNode.elem (tag "myapp") prettyKids).tokens ++ [.CharData "\n"], false, []⟩
      else ⟨[], true, []⟩ }

/-- A tree whose only key holds a `/`. -/
def slashKey : List (String × Value) :=
  [("a/b", .str "x")]

/-- The XML text `<myapp><url>http://x</url></myapp>`, which holds a `:`. -/
def xmlUrl : String :=
  "<myapp><url>http://x</url></myapp>"

/-! # Theorems -/

/-! ## The materializer -/

theorem splitSlash_plain : ∀ cs : List Char, cs.contains '/' = false → splitSlash cs = [cs] := by
  intro cs
  induction cs with
  | nil => intro _; rfl
  | cons c cs ih =>
    intro h
    simp only [List.contains_cons, Bool.or_eq_false_iff, beq_eq_false_iff_ne, ne_eq] at h
    have hc : ¬ c = '/' := fun e => h.1 e.symm
    simp [splitSlash, hc, ih h.2]

theorem plainName_spec (k : String) (h : plainName k = true) :
    k ≠ "" ∧ k.data.contains '/' = false ∧ k ≠ "." ∧ k ≠ ".." := by
  simp only [plainName, Bool.and_eq_true, decide_eq_true_eq, Bool.not_eq_true'] at h
  exact ⟨h.1.1.1, h.1.1.2, h.1.2, h.2⟩

theorem join_plain (base : Path) (k : String) (h : plainName k = true) :
    join base k = base ++ [k] := by
  obtain ⟨h1, h2, h3, h4⟩ := plainName_spec k h
  simp [join, splitSlash_plain k.data h2, cleanStep, h1, h3, h4]

theorem abs_append (fs : FS) (p : Path) (k : String) (h : k ≠ "..") :
    fs.abs (p ++ [k]) = fs.abs p ++ [k] := by
  simp [FS.abs, List.foldl_append, h]

theorem mkdirAll_ok (fs : FS) (p : Path)
    (h : ∀ q, q <+: fs.abs p → isFileNode (fs.node q) = false) :
    mkdirAll fs p =
      .ok ⟨fs.cwd, fun q => if q.isPrefixOf (fs.abs p) then some .dir else fs.node q⟩ := by
  have hany : (fs.abs p).inits.any (fun q => isFileNode (fs.node q)) = false := by
    rw [List.any_eq_false]
    intro q hq
    rw [List.mem_inits] at hq
    simp [h q hq]
  simp [mkdirAll, hany]

theorem writeFile_ok (fs : FS) (p : Path) (content : String)
    (h1 : fs.node (fs.abs p) ≠ some .dir) (h2 : fs.node (fs.abs p).dropLast = some .dir) :
    writeFile fs p content =
      .ok ⟨fs.cwd, fun q => if q = fs.abs p then some (.file content) else fs.node q⟩ := by
  unfold writeFile
  simp only [h2]

theorem abs_congr (fs1 fs : FS) (h : fs1.cwd = fs.cwd) (p : Path) : fs1.abs p = fs.abs p := by
  simp [FS.abs, h]

theorem nodeAt_leaf (ff : Nat → String) (v : Value) (h : isLeaf v = true) :
    nodeAt ff [] v = some (.file (fileContent ff v)) ∧ ∀ k r, nodeAt ff (k :: r) v = none := by
  cases v <;> simp_all [nodeAt, isLeaf]

theorem createEntry_leaf (ff : Nat → String) (k : String) (v : Value) (base : Path) (fs : FS)
    (h : isLeaf v = true) :
    createEntry ff k v base fs = writeEntry ff (join base k) v fs := by
  cases v <;> simp_all [createEntry, isLeaf]

theorem prefix_ne_append_cons (a q : List String) (k : String) (r : List String)
    (h : q <+: a) : q ≠ a ++ k :: r := by
  intro e
  have := h.length_le
  rw [e] at this
  simp at this

/-- A leaf entry with a plain name, in a directory where nothing has its name: the file is
written, and nothing else changes. -/
theorem createEntry_leaf_done (ff : Nat → String) (k : String) (v : Value) (base : Path)
    (fs : FS) (hk : plainName k = true) (hv : isLeaf v = true)
    (hd : DirsTo fs (fs.abs base)) (hf : FreeAt fs (fs.abs base) k) :
    EntryDone ff k v (fs.abs base) fs (createEntry ff k v base fs) := by
  have hk2 : k ≠ ".." := (plainName_spec k hk).2.2.2
  have hm : mkdirAll fs base = .ok ⟨fs.cwd, fs.node⟩ := by
    rw [mkdirAll_ok fs base (fun q hq => by rw [hd q hq]; rfl)]
    congr 2
    funext q
    by_cases hq : q.isPrefixOf (fs.abs base) = true
    · simp only [hq, if_true]
      exact (hd q (List.isPrefixOf_iff_prefix.1 hq)).symm
    · simp [hq]
  have habs : ∀ fs1 : FS, fs1.cwd = fs.cwd → fs1.abs (base ++ [k]) = fs.abs base ++ [k] := by
    intro fs1 h1
    rw [abs_congr fs1 fs h1, abs_append fs base k hk2]
  have hw : writeFile ⟨fs.cwd, fs.node⟩ (base ++ [k]) (fileContent ff v) =
      .ok ⟨fs.cwd, fun q => if q = fs.abs base ++ [k] then some (.file (fileContent ff v))
        else fs.node q⟩ := by
    have := writeFile_ok ⟨fs.cwd, fs.node⟩ (base ++ [k]) (fileContent ff v)
      (by rw [habs _ rfl]; show fs.node _ ≠ _; rw [hf []]; simp)
      (by rw [habs _ rfl]; show fs.node _ = _; simpa using hd (fs.abs base) (List.prefix_refl _))
    rw [this, habs _ rfl]
  have hl := nodeAt_leaf ff v hv
  rw [createEntry_leaf ff k v base fs hv, join_plain base k hk, writeEntry]
  simp only [dir, List.dropLast_concat, hm, hw]
  refine ⟨rfl, rfl, ?_, ?_⟩
  · intro r
    cases r with
    | nil => simp [hl.1]
    | cons k2 r2 =>
      have hne : fs.abs base ++ k :: k2 :: r2 ≠ fs.abs base ++ [k] := by simp
      simp only [hne, if_false, hl.2]
      exact hf (k2 :: r2)
  · intro q hq
    have hne : q ≠ fs.abs base ++ [k] := hq []
    simp [hne]

/-- A directory entry with a plain name, in a directory where nothing has its name: the
directory is made and filled as `createStructure` fills it, and nothing else changes. -/
theorem createEntry_dir_done (ff : Nat → String) (k : String) (m : List (String × Value))
    (base : Path) (fs : FS) (hk : plainName k = true) (hat : hasAtKey m = false)
    (hd : DirsTo fs (fs.abs base)) (hf : FreeAt fs (fs.abs base) k)
    (ih : ∀ fs1 : FS, fs1.cwd = fs.cwd → DirsTo fs1 (fs.abs base ++ [k]) →
      (∀ k2, lookupKey k2 m ≠ none → FreeAt fs1 (fs.abs base ++ [k]) k2) →
      Materialized ff m (fs.abs base ++ [k]) fs1 (createStructure ff m (base ++ [k]) fs1)) :
    EntryDone ff k (.map m) (fs.abs base) fs (createEntry ff k (.map m) base fs) := by
  have hk2 : k ≠ ".." := (plainName_spec k hk).2.2.2
  have habs : fs.abs (base ++ [k]) = fs.abs base ++ [k] := abs_append fs base k hk2
  have hpre : ∀ q, q <+: fs.abs base ++ [k] → q = fs.abs base ++ [k] ∨ q <+: fs.abs base :=
    fun q hq => List.prefix_concat_iff.1 hq
  have hm : mkdirAll fs (base ++ [k]) = .ok ⟨fs.cwd, fun q =>
      if q.isPrefixOf (fs.abs base ++ [k]) then some .dir else fs.node q⟩ := by
    rw [mkdirAll_ok fs (base ++ [k]), habs]
    intro q hq
    rw [habs] at hq
    rcases hpre q hq with h | h
    · rw [h]
      have := hf []
      simp only at this
      rw [this]; rfl
    · rw [hd q h]; rfl
  have hlong : ∀ (k2 : String) (r : List String),
      ((fs.abs base ++ [k]) ++ k2 :: r).isPrefixOf (fs.abs base ++ [k]) = false := by
    intro k2 r
    rw [Bool.eq_false_iff]
    intro h
    exact prefix_ne_append_cons _ _ k2 r (List.isPrefixOf_iff_prefix.1 h) rfl
  obtain ⟨he, hc, hA, hB⟩ := ih ⟨fs.cwd, fun q =>
      if q.isPrefixOf (fs.abs base ++ [k]) then some .dir else fs.node q⟩ rfl
    (by
      intro q hq
      show (if q.isPrefixOf (fs.abs base ++ [k]) then some FNode.dir else fs.node q) = _
      rw [List.isPrefixOf_iff_prefix.2 hq]; rfl)
    (by
      intro k2 _ r
      show (if ((fs.abs base ++ [k]) ++ k2 :: r).isPrefixOf (fs.abs base ++ [k]) then
        some FNode.dir else fs.node _) = _
      rw [hlong k2 r]
      simpa using hf (k2 :: r))
  rw [createEntry]
  simp only [hat, join_plain base k hk, hm, Bool.false_eq_true, if_false]
  refine ⟨he, hc, ?_, ?_⟩
  · intro r
    cases r with
    | nil =>
      rw [hB _ (fun k3 r3 e => absurd e (prefix_ne_append_cons _ _ k3 r3 (List.prefix_refl _)))]
      simp [nodeAt, hat]
    | cons k2 r2 =>
      have hassoc : fs.abs base ++ k :: k2 :: r2 = (fs.abs base ++ [k]) ++ k2 :: r2 := by simp
      cases hl : lookupKey k2 m with
      | some v =>
        rw [hassoc, hA k2 r2 v hl]
        simp [nodeAt, hat, hl]
      | none =>
        rw [hassoc, hB _ (fun k3 r3 e => by
          have := List.append_cancel_left e
          simp only [List.cons.injEq] at this
          rw [← this.1]; exact hl)]
        show (if ((fs.abs base ++ [k]) ++ k2 :: r2).isPrefixOf (fs.abs base ++ [k]) then
          some FNode.dir else fs.node _) = _
        rw [hlong k2 r2]
        simpa [nodeAt, hat, hl] using hf (k2 :: r2)
  · intro q hq
    rw [hB q (fun k3 r3 e => absurd (by rw [e]; simp) (hq (k3 :: r3)))]
    show (if q.isPrefixOf (fs.abs base ++ [k]) then some FNode.dir else fs.node q) = _
    by_cases hp : q.isPrefixOf (fs.abs base ++ [k]) = true
    · rcases hpre q (List.isPrefixOf_iff_prefix.1 hp) with h | h
      · exact absurd h (hq [])
      · simp [hp, hd q h]
    · simp [hp]

theorem lookupKey_fresh (k : String) : ∀ es : List (String × Value),
    es.all (fun e => decide (e.1 ≠ k)) = true → lookupKey k es = none := by
  intro es
  induction es with
  | nil => intro _; rfl
  | cons e es ih =>
    intro h
    simp only [List.all_cons, Bool.and_eq_true, decide_eq_true_eq] at h
    simp [lookupKey, h.1, ih h.2]

/-- The loop of `createStructure`, one turn: the entry is materialized, then the others. -/
theorem createStructure_cons_done (ff : Nat → String) (k : String) (v : Value)
    (rest : List (String × Value)) (base : Path) (fs : FS) (a : List String)
    (hfresh : lookupKey k rest = none)
    (h1 : EntryDone ff k v a fs (createEntry ff k v base fs))
    (h2 : Materialized ff rest a (createEntry ff k v base fs).fs
      (createStructure ff rest base (createEntry ff k v base fs).fs)) :
    Materialized ff ((k, v) :: rest) a fs (createStructure ff ((k, v) :: rest) base fs) := by
  rw [createStructure]
  generalize createEntry ff k v base fs = o1 at h1 h2
  obtain ⟨fs1, e1⟩ := o1
  obtain ⟨he1, hc1, hA1, hB1⟩ := h1
  simp only at he1 hc1 hA1 hB1 h2
  subst he1
  simp only
  obtain ⟨he, hc, hA, hB⟩ := h2
  refine ⟨he, hc.trans hc1, ?_, ?_⟩
  · intro k0 r v0 hl
    by_cases hk : k = k0
    · subst hk
      simp only [lookupKey, if_true, Option.some.injEq] at hl
      subst hl
      rw [hB _ (fun k3 r3 e => by
        have := List.append_cancel_left e
        simp only [List.cons.injEq] at this
        rw [← this.1]; exact hfresh)]
      exact hA1 r
    · simp only [lookupKey, hk, if_false] at hl
      exact hA k0 r v0 hl
  · intro q hq
    have hrest : ∀ k3 r3, q = a ++ k3 :: r3 → lookupKey k3 rest = none := by
      intro k3 r3 e
      have := hq k3 r3 e
      by_cases hk : k = k3
      · simp [lookupKey, hk] at this
      · simpa [lookupKey, hk] using this
    rw [hB q hrest]
    apply hB1
    intro r e
    have := hq k r e
    simp [lookupKey] at this

theorem plainValue_not_leaf (v : Value) (hv : plainValue v = true) (hl : ¬ isLeaf v = true) :
    ∃ m, v = .map m ∧ hasAtKey m = false ∧ plainTree m = true := by
  cases v with
  | map m =>
    simp only [isLeaf, Bool.not_eq_true] at hl
    rw [plainValue, hl] at hv
    exact ⟨m, rfl, hl, by simpa using hv⟩
  | null => simp [isLeaf] at hl
  | bool b => simp [isLeaf] at hl
  | float x => simp [isLeaf] at hl
  | str s => simp [isLeaf] at hl
  | arr xs => simp [isLeaf] at hl

/-- The materializer on a plain tree: run in a directory that exists with all its ancestors
and where nothing has the name of an entry, `createStructure` succeeds, puts at and below
every entry the nodes of its value, and leaves every other node as it was. -/
theorem createStructure_done (ff : Nat → String) : ∀ (n : Nat) (es : List (String × Value))
    (base : Path) (fs : FS), sizeOf es ≤ n → plainTree es = true → DirsTo fs (fs.abs base) →
    (∀ k, lookupKey k es ≠ none → FreeAt fs (fs.abs base) k) →
    Materialized ff es (fs.abs base) fs (createStructure ff es base fs) := by
  intro n
  induction n with
  | zero =>
    intro es base fs hn
    cases es <;> simp at hn
  | succ n ih =>
    intro es base fs hn hp hd hf
    cases es with
    | nil =>
      refine ⟨rfl, rfl, ?_, ?_⟩
      · intro k r v h; simp [lookupKey] at h
      · intro q _; rfl
    | cons e rest =>
      obtain ⟨k, v⟩ := e
      rw [plainTree] at hp
      simp only [Bool.and_eq_true] at hp
      obtain ⟨⟨⟨hk, hall⟩, hv⟩, hrest⟩ := hp
      have hfresh := lookupKey_fresh k rest hall
      have hfk : FreeAt fs (fs.abs base) k := hf k (by simp [lookupKey])
      have hsz : sizeOf v + sizeOf rest < sizeOf ((k, v) :: rest) := by simp; omega
      have h1 : EntryDone ff k v (fs.abs base) fs (createEntry ff k v base fs) := by
        by_cases hl : isLeaf v = true
        · exact createEntry_leaf_done ff k v base fs hk hl hd hfk
        · obtain ⟨m, rfl, hat, hpm⟩ := plainValue_not_leaf v hv hl
          apply createEntry_dir_done ff k m base fs hk hat hd hfk
          intro fs1 hc hd1 hf1
          have hk2 : k ≠ ".." := (plainName_spec k hk).2.2.2
          have habs : fs1.abs (base ++ [k]) = fs.abs base ++ [k] := by
            rw [abs_congr fs1 fs hc, abs_append fs base k hk2]
          have hm : sizeOf (Value.map m) = 1 + sizeOf m := Value.map.sizeOf_spec m
          have := ih m (base ++ [k]) fs1 (by omega) hpm
            (by rw [habs]; exact hd1) (by rw [habs]; exact hf1)
          rw [habs] at this
          exact this
      obtain ⟨he1, hc1, hA1, hB1⟩ := h1
      have habs1 : (createEntry ff k v base fs).fs.abs base = fs.abs base :=
        abs_congr _ fs hc1 base
      have h2 := ih rest base (createEntry ff k v base fs).fs (by omega) hrest
        (by
          rw [habs1]
          intro q hq
          rw [hB1 q (fun r => prefix_ne_append_cons _ _ k r hq)]
          exact hd q hq)
        (by
          rw [habs1]
          intro k2 hk2 r
          have hne : k2 ≠ k := fun e => hk2 (e ▸ hfresh)
          rw [hB1 _ (fun r2 e => by
            have := List.append_cancel_left e
            simp only [List.cons.injEq] at this
            exact hne this.1)]
          exact hf k2 (by simpa [lookupKey, Ne.symm hne] using hk2) r)
      rw [habs1] at h2
      exact createStructure_cons_done ff k v rest base fs (fs.abs base) hfresh
        ⟨he1, hc1, hA1, hB1⟩ h2

/-- The materializer on a plain tree in an empty directory: `createStructure` succeeds, and
afterwards the nodes at and below the directory are exactly those of the tree, every other
node being as before. -/
theorem createStructure_on_empty_dir (ff : Nat → String) (es : List (String × Value))
    (base : Path) (fs : FS) (hp : plainTree es = true) (hd : DirsTo fs (fs.abs base))
    (hempty : ∀ q, fs.abs base <+: q → q ≠ fs.abs base → fs.node q = none) :
    (createStructure ff es base fs).err = none ∧
    (∀ r, (createStructure ff es base fs).fs.node (fs.abs base ++ r) = treeAt ff es r) ∧
    ∀ q, ¬ fs.abs base <+: q → (createStructure ff es base fs).fs.node q = fs.node q := by
  have hfree : ∀ k, lookupKey k es ≠ none → FreeAt fs (fs.abs base) k := by
    intro k _ r
    exact hempty _ (List.prefix_append _ _) (by simp)
  obtain ⟨he, _, hA, hB⟩ := createStructure_done ff (sizeOf es) es base fs (le_refl _) hp hd hfree
  refine ⟨he, ?_, ?_⟩
  · intro r
    cases r with
    | nil =>
      rw [List.append_nil, hB _ (fun k r e =>
        absurd e (prefix_ne_append_cons _ _ k r (List.prefix_refl _)))]
      exact hd _ (List.prefix_refl _)
    | cons k r =>
      cases hl : lookupKey k es with
      | some v => rw [hA k r v hl]; simp [treeAt, hl]
      | none =>
        rw [hB _ (fun k3 r3 e => by
          have := List.append_cancel_left e
          simp only [List.cons.injEq] at this
          rw [← this.1]; exact hl)]
        simp only [treeAt, hl]
        exact hempty _ (List.prefix_append _ _) (by simp)
  · intro q hq
    exact hB q (fun k r e => absurd (e ▸ List.prefix_append _ _) hq)

theorem abs_dropLast_below_dir (fs : FS) (p : Path) : (fs.abs p).dropLast <+: fs.abs (dir p) := by
  rcases List.eq_nil_or_concat p with rfl | ⟨b, c, rfl⟩
  · exact List.dropLast_prefix _
  · rw [List.concat_eq_append]
    simp only [dir, List.dropLast_concat, FS.abs, List.foldl_append, List.foldl_cons,
      List.foldl_nil]
    by_cases hc : c = ".."
    · simp only [hc, if_true]
      exact (List.dropLast_prefix _).trans (List.dropLast_prefix _)
    · simp [hc]

/-- The loop body on a value that is written as a file, for any name: when no ancestor of
the path is a regular file, and the path is neither a directory nor an ancestor of its own
parent, the file is written with the text of the value, the ancestors of the path are
directories, and every other node is as before. -/
theorem createEntry_leaf_written (ff : Nat → String) (k : String) (v : Value) (base : Path)
    (fs : FS) (hv : isLeaf v = true)
    (hanc : ∀ q, q <+: fs.abs (dir (join base k)) → isFileNode (fs.node q) = false)
    (hnd : fs.node (fs.abs (join base k)) ≠ some .dir)
    (hne : ¬ fs.abs (join base k) <+: fs.abs (dir (join base k))) :
    (createEntry ff k v base fs).err = none ∧
    ∀ q, (createEntry ff k v base fs).fs.node q =
      if q = fs.abs (join base k) then some (.file (fileContent ff v))
      else if q.isPrefixOf (fs.abs (dir (join base k))) then some .dir else fs.node q := by
  have hm := mkdirAll_ok fs (dir (join base k)) hanc
  have hnp : (fs.abs (join base k)).isPrefixOf (fs.abs (dir (join base k))) = false := by
    rw [Bool.eq_false_iff]
    exact fun h => hne (List.isPrefixOf_iff_prefix.1 h)
  have hw := writeFile_ok ⟨fs.cwd, fun q =>
      if q.isPrefixOf (fs.abs (dir (join base k))) then some .dir else fs.node q⟩ (join base k)
    (fileContent ff v)
    (by
      show (if (fs.abs (join base k)).isPrefixOf (fs.abs (dir (join base k))) then
        some FNode.dir else fs.node (fs.abs (join base k))) ≠ _
      rw [hnp]; exact hnd)
    (by
      show (if ((fs.abs (join base k)).dropLast).isPrefixOf (fs.abs (dir (join base k))) then
        some FNode.dir else fs.node _) = _
      rw [List.isPrefixOf_iff_prefix.2 (abs_dropLast_below_dir fs (join base k))]; rfl)
  rw [createEntry_leaf ff k v base fs hv, writeEntry, hm]
  simp only [hw]
  exact ⟨trivial, fun q => rfl⟩

theorem sprint_map_ne_nil (ff : Nat → String) (m : List (String × Value)) :
    sprint ff (.map m) ≠ "<nil>" := by
  rw [sprint]
  intro h
  have := congrArg String.data h
  simp only [String.data_append] at this
  revert this
  generalize (String.intercalate " " _).data = x
  intro this
  simp at this

theorem fileContent_map (ff : Nat → String) (m : List (String × Value)) :
    fileContent ff (.map m) = sprint ff (.map m) := by
  simp [fileContent, sprint_map_ne_nil]

theorem fileContent_str (ff : Nat → String) (s : String) :
    fileContent ff (.str s) = if s = "<nil>" then "" else s := by
  simp [fileContent, sprint]

theorem fileContent_null (ff : Nat → String) : fileContent ff .null = "" := by
  simp [fileContent, sprint]

theorem nodeAt_valueAt (ff : Nat → String) : ∀ (r : List String) (v w : Value),
    valueAt r v = some w → ∀ r2, nodeAt ff (r ++ r2) v = nodeAt ff r2 w := by
  intro r
  induction r with
  | nil =>
    intro v w h r2
    simp only [valueAt, Option.some.injEq] at h
    rw [h]; rfl
  | cons k r ih =>
    intro v w h r2
    cases v with
    | map m =>
      by_cases hat : hasAtKey m = true
      · simp [valueAt, hat] at h
      · cases hl : lookupKey k m with
        | none => simp [valueAt, hat, hl] at h
        | some u =>
          simp only [valueAt, hat, hl, if_false, Bool.false_eq_true] at h
          simp only [List.cons_append, nodeAt, hat, hl, if_false, Bool.false_eq_true]
          exact ih u w h r2
    | null => simp [valueAt] at h
    | bool b => simp [valueAt] at h
    | float x => simp [valueAt] at h
    | str s => simp [valueAt] at h
    | arr xs => simp [valueAt] at h

theorem treeAt_entryAt (ff : Nat → String) (data : List (String × Value)) (path : List String)
    (w : Value) (h : entryAt data path = some w) :
    ∀ r2, treeAt ff data (path ++ r2) = nodeAt ff r2 w := by
  intro r2
  cases path with
  | nil => simp [entryAt] at h
  | cons k r =>
    cases hl : lookupKey k data with
    | none => simp [entryAt, hl] at h
    | some u =>
      simp only [entryAt, hl] at h
      simp only [List.cons_append, treeAt, hl]
      exact nodeAt_valueAt ff r u w h r2

theorem fsProject_dirs : DirsTo fsProject (fsProject.abs ["myapp"]) := by
  intro q hq
  have hq2 : q ∈ (["w", "myapp"] : List String).inits := (List.mem_inits _ _).2 hq
  simp only [List.inits, List.map_cons, List.map_nil, List.mem_cons, List.mem_singleton,
    List.not_mem_nil, or_false] at hq2
  rcases hq2 with rfl | rfl | rfl <;> rfl

theorem fsProject_empty :
    ∀ q, fsProject.abs ["myapp"] <+: q → q ≠ fsProject.abs ["myapp"] → fsProject.node q = none := by
  intro q hq hne
  obtain ⟨r, rfl⟩ := hq
  cases r with
  | nil => exact absurd (List.append_nil _) hne
  | cons k r => simp [fsProject, FS.abs]

theorem fsProject_no_file : ∀ q, isFileNode (fsProject.node q) = false := by
  intro q
  simp only [fsProject]
  split <;> rfl

/-- The scenario of the specification: the tree of `src/main.go` and `README.md` under the
empty directory `myapp` gives the directory `myapp/src`, the file `myapp/src/main.go` with
the content `package main` and the file `myapp/README.md` with the content `hello`, and
nothing else. -/
theorem scenario_materialized :
    (createStructure noFloat scenario ["myapp"] fsProject).err = none ∧
    (createStructure noFloat scenario ["myapp"] fsProject).fs.node ["w", "myapp", "src"] =
      some .dir ∧
    (createStructure noFloat scenario ["myapp"] fsProject).fs.node
      ["w", "myapp", "src", "main.go"] = some (.file "package main") ∧
    (createStructure noFloat scenario ["myapp"] fsProject).fs.node
      ["w", "myapp", "README.md"] = some (.file "hello") ∧
    ∀ r, treeAt noFloat scenario r = none →
      (createStructure noFloat scenario ["myapp"] fsProject).fs.node (["w", "myapp"] ++ r) = none := by
  obtain ⟨he, hA, _⟩ := createStructure_on_empty_dir noFloat scenario ["myapp"] fsProject rfl
    fsProject_dirs fsProject_empty
  exact ⟨he, hA ["src"], hA ["src", "main.go"], hA ["README.md"], fun r hr => (hA r).trans hr⟩

/-- C1 at a tree with the leaf `<nil>`: the keys of the tree are plain and none starts with
`@`, the base is an empty directory, `createStructure` succeeds, and the file of the leaf
`src/main.go`, whose text is `<nil>`, is empty. -/
theorem C1_nil_leaf_file_is_empty (ff : Nat → String) :
    plainTree nilLeaf = true ∧ noAtTree nilLeaf = true ∧
    entryAt nilLeaf ["src", "main.go"] = some (.str "<nil>") ∧
    (createStructure ff nilLeaf ["myapp"] fsProject).err = none ∧
    (createStructure ff nilLeaf ["myapp"] fsProject).fs.node ["w", "myapp", "src", "main.go"] =
      some (.file "") :=
  ⟨rfl, rfl, rfl, rfl, rfl⟩

/-- C2 at the leaf entry `notes.txt` with the string `<nil>`: the textual form of the value
is `<nil>`, `createStructure` succeeds, and the file it writes is empty. -/
theorem C2_nil_string_written_empty (ff : Nat → String) :
    sprint ff (.str "<nil>") = "<nil>" ∧
    (createStructure ff [("notes.txt", .str "<nil>")] ["myapp"] fsProject).err = none ∧
    (createStructure ff [("notes.txt", .str "<nil>")] ["myapp"] fsProject).fs.node
      ["w", "myapp", "notes.txt"] = some (.file "") ∧
    (createStructure ff [("notes.txt", .str "hello"), ("empty", .null)] ["myapp"]
      fsProject).fs.node ["w", "myapp", "notes.txt"] = some (.file "hello") ∧
    (createStructure ff [("notes.txt", .str "hello"), ("empty", .null)] ["myapp"]
      fsProject).fs.node ["w", "myapp", "empty"] = some (.file "") :=
  ⟨rfl, rfl, rfl, rfl, rfl⟩

/-! ## The format detector -/

/-- C4: when the sniffed prefix starts with `{` the detector selects JSON whatever else the
prefix holds, `loadStructureFromFile` is the outcome of the JSON decoder followed by the
check of the top level, and when the JSON decoder fails the result is its error, whatever
the YAML decoder and the XML tokenizer are. -/
theorem C4_brace_routes_to_json (c : Codecs) (content : String)
    (h : hasPrefix (sniff content) "\x7b" = true) :
    detectFormat (sniff content) = some .json ∧
    loadStructureFromFile c content =
      (match c.jsonDecode content with
        | .error msg => .error (.json msg)
        | .ok (.map m) => .ok m
        | .ok _ => .error .notAMap) ∧
    ∀ msg, c.jsonDecode content = .error msg →
      ∀ c2 : Codecs, c2.jsonDecode = c.jsonDecode →
        loadStructureFromFile c2 content = .error (.json msg) := by
  have hd : detectFormat (sniff content) = some .json := by simp [detectFormat, h]
  refine ⟨hd, ?_, ?_⟩
  · simp only [loadStructureFromFile, hd, decodeBy]
    cases hj : c.jsonDecode content with
    | error msg => rfl
    | ok v => cases v <;> rfl
  · intro msg hmsg c2 hc2
    simp only [loadStructureFromFile, hd, decodeBy, hc2, hmsg]

/-- Witness of C4: a text that starts with `{` and also holds `:`, `---` and `<`. -/
theorem C4_brace_routes_to_json_witness :
    hasPrefix (sniff braceFirst) "\x7b" = true ∧
    loadStructureFromFile rejectAll braceFirst = .error (.json "invalid character") :=
  ⟨by decide,
    (C4_brace_routes_to_json rejectAll braceFirst (by decide)).2.2 "invalid character" rfl
      rejectAll rfl⟩

/-- C5: a JSON object after a newline. Its sniffed prefix starts with `{` once the leading
white space is removed, and the detector selects YAML; the text of a space followed by `{}`
is not recognised at all. -/
theorem C5_leading_space_not_json :
    hasPrefix (String.mk ((sniff jsonAfterNewline).data.dropWhile isSpace)) "\x7b" = true ∧
    detectFormat (sniff jsonAfterNewline) = some .yaml ∧
    hasPrefix (String.mk ((sniff jsonAfterSpace).data.dropWhile isSpace)) "\x7b" = true ∧
    detectFormat (sniff jsonAfterSpace) = none ∧
    (∀ c : Codecs, loadStructureFromFile c jsonAfterSpace = .error .unableToDetect) := by
  refine ⟨by decide, by decide, by decide, by decide, ?_⟩
  intro c
  have hd : detectFormat (sniff jsonAfterSpace) = none := by decide
  simp only [loadStructureFromFile, hd, decodeBy]

/-- C6: when the sniffed prefix does not start with `{`, the detector selects YAML if the
prefix holds `---` or `:` (whatever the trimmed prefix starts with), and the YAML decoder is
what runs; otherwise it selects XML if the trimmed prefix starts with `<`, and `parseXML` is
what runs; and otherwise `loadStructureFromFile` fails with the detection error whatever the
decoders are. The empty prefix is in the last case. -/
theorem C6_detection_order (content : String) (h : hasPrefix (sniff content) "\x7b" = false) :
    ((contains (sniff content) "---" = true ∨ contains (sniff content) ":" = true) →
      detectFormat (sniff content) = some .yaml ∧
      ∀ c : Codecs, decodeBy c content (detectFormat (sniff content)) =
        (match c.yamlUnmarshal content with
          | .error msg => .error (.yaml msg)
          | .ok v => .ok (.fromYAML v))) ∧
    (contains (sniff content) "---" = false → contains (sniff content) ":" = false →
      hasPrefix (trimSpace (sniff content)) "<" = true →
      detectFormat (sniff content) = some .xml ∧
      ∀ c : Codecs, decodeBy c content (detectFormat (sniff content)) =
        (match parseXML (c.xmlDecoder content) with
          | .error err => .error (.xml err)
          | .ok m => .ok (.fromXML m))) ∧
    (contains (sniff content) "---" = false → contains (sniff content) ":" = false →
      hasPrefix (trimSpace (sniff content)) "<" = false →
      detectFormat (sniff content) = none ∧
      ∀ c : Codecs, loadStructureFromFile c content = .error .unableToDetect) ∧
    (sniff content = "" → ∀ c : Codecs, loadStructureFromFile c content = .error .unableToDetect) := by
  have hlast : ∀ c : Codecs, detectFormat (sniff content) = none →
      loadStructureFromFile c content = .error .unableToDetect := by
    intro c hd
    simp only [loadStructureFromFile, hd, decodeBy]
  refine ⟨?_, ?_, ?_, ?_⟩
  · intro hy
    have hd : detectFormat (sniff content) = some .yaml := by
      rcases hy with hy | hy <;> simp [detectFormat, h, hy]
    exact ⟨hd, fun c => by rw [hd, decodeBy]⟩
  · intro h1 h2 h3
    have hd : detectFormat (sniff content) = some .xml := by
      simp [detectFormat, h, h1, h2, h3]
    exact ⟨hd, fun c => by rw [hd, decodeBy]⟩
  · intro h1 h2 h3
    have hd : detectFormat (sniff content) = none := by simp [detectFormat, h, h1, h2, h3]
    exact ⟨hd, fun c => hlast c hd⟩
  · intro he c
    apply hlast
    rw [he]
    decide

/-- Witness of C6: a text that starts with `<` and holds `:` is taken for YAML. -/
theorem C6_detection_order_witness :
    hasPrefix (sniff "<a>x:y</a>") "\x7b" = false ∧
    detectFormat (sniff "<a>x:y</a>") = some .yaml :=
  ⟨by decide, ((C6_detection_order "<a>x:y</a>" (by decide)).1 (Or.inr (by decide))).1⟩

/-! ## The XML decoder -/

theorem token_length (dec : Decoder) (t : Token) (dec1 : Decoder)
    (h : dec.Token = .ok (t, dec1)) : dec1.input.length + 1 = dec.input.length := by
  obtain ⟨input, bad, stack⟩ := dec
  cases input with
  | nil => simp [Decoder.Token] at h
  | cons u rest =>
    cases u with
    | EndElement n =>
      cases stack with
      | nil => simp [Decoder.Token] at h
      | cons top st =>
        by_cases htop : top = n
        · simp only [Decoder.Token, htop, if_true, Except.ok.injEq, Prod.mk.injEq] at h
          rw [← h.2]; rfl
        · simp [Decoder.Token, htop] at h
    | StartElement se =>
      simp only [Decoder.Token, Except.ok.injEq, Prod.mk.injEq] at h
      rw [← h.2]; rfl
    | CharData d =>
      simp only [Decoder.Token, Except.ok.injEq, Prod.mk.injEq] at h
      rw [← h.2]; rfl
    | Comment d =>
      simp only [Decoder.Token, Except.ok.injEq, Prod.mk.injEq] at h
      rw [← h.2]; rfl
    | ProcInst a b =>
      simp only [Decoder.Token, Except.ok.injEq, Prod.mk.injEq] at h
      rw [← h.2]; rfl
    | Directive d =>
      simp only [Decoder.Token, Except.ok.injEq, Prod.mk.injEq] at h
      rw [← h.2]; rfl

/-- The loop of `parseXMLElement` does not use up a fuel greater than the number of tokens
left, and it returns with fewer tokens left than it started with. -/
theorem parseXMLElementLoop_total : ∀ (fuel : Nat) (dec : Decoder) (se : StartElement)
    (children : Mapping) (hc : Bool) (text : String), dec.input.length < fuel →
    ∃ r, parseXMLElementLoop fuel dec se children hc text = some r ∧
      ∀ v d, r = .ok (v, d) → d.input.length < dec.input.length := by
  intro fuel
  induction fuel with
  | zero => intro dec se children hc text h; omega
  | succ f ih =>
    intro dec se children hc text hlen
    rw [parseXMLElementLoop]
    cases ht : dec.Token with
    | error e => exact ⟨.error e, rfl, fun v d h => by cases h⟩
    | ok p =>
      obtain ⟨t, dec1⟩ := p
      have hl := token_length dec t dec1 ht
      cases t with
      | StartElement t =>
        obtain ⟨r1, h1, hr1⟩ := ih dec1 t [] false "" (by omega)
        simp only [h1]
        cases r1 with
        | error e => exact ⟨.error e, rfl, fun v d h => by cases h⟩
        | ok q =>
          obtain ⟨v1, d2⟩ := q
          have hd2 := hr1 v1 d2 rfl
          obtain ⟨r2, h2, hr2⟩ := ih d2 se (setKey t.Name.Local v1 children) true text (by omega)
          exact ⟨r2, h2, fun v d h => by have := hr2 v d h; omega⟩
      | EndElement n =>
        simp only
        by_cases hn : n = se.Name
        · cases hc
          · refine ⟨.ok (.str text, dec1), by simp [hn], fun v d h => ?_⟩
            simp only [Except.ok.injEq, Prod.mk.injEq] at h
            rw [← h.2]; omega
          · refine ⟨.ok (.map children, dec1), by simp [hn], fun v d h => ?_⟩
            simp only [Except.ok.injEq, Prod.mk.injEq] at h
            rw [← h.2]; omega
        · obtain ⟨r2, h2, hr2⟩ := ih dec1 se children hc text (by omega)
          exact ⟨r2, by simp [hn, h2], fun v d h => by have := hr2 v d h; omega⟩
      | CharData c =>
        obtain ⟨r2, h2, hr2⟩ := ih dec1 se children hc (text ++ trimSpace c) (by omega)
        exact ⟨r2, h2, fun v d h => by have := hr2 v d h; omega⟩
      | Comment c =>
        obtain ⟨r2, h2, hr2⟩ := ih dec1 se children hc text (by omega)
        exact ⟨r2, h2, fun v d h => by have := hr2 v d h; omega⟩
      | ProcInst a b =>
        obtain ⟨r2, h2, hr2⟩ := ih dec1 se children hc text (by omega)
        exact ⟨r2, h2, fun v d h => by have := hr2 v d h; omega⟩
      | Directive c =>
        obtain ⟨r2, h2, hr2⟩ := ih dec1 se children hc text (by omega)
        exact ⟨r2, h2, fun v d h => by have := hr2 v d h; omega⟩

/-- The fuel of `parseXMLElement` is never used up: its result is the result of its loop. -/
theorem parseXMLElement_total (dec : Decoder) (se : StartElement) :
    parseXMLElementLoop (dec.input.length + 1) dec se [] false "" =
      some (parseXMLElement dec se) := by
  obtain ⟨r, h, _⟩ := parseXMLElementLoop_total (dec.input.length + 1) dec se [] false ""
    (Nat.lt_succ_self _)
  simp [parseXMLElement, h]

theorem parseXMLLoop_total : ∀ (fuel : Nat) (dec : Decoder), dec.input.length < fuel →
    ∃ r, parseXMLLoop fuel dec = some r := by
  intro fuel
  induction fuel with
  | zero => intro dec h; omega
  | succ f ih =>
    intro dec hlen
    rw [parseXMLLoop]
    cases ht : dec.Token with
    | error e => cases e <;> exact ⟨_, rfl⟩
    | ok p =>
      obtain ⟨t, dec1⟩ := p
      have hl := token_length dec t dec1 ht
      cases t with
      | StartElement t =>
        simp only
        cases parseXMLElement dec1 t with
        | error e => exact ⟨_, rfl⟩
        | ok q => exact ⟨_, rfl⟩
      | EndElement n => exact ih dec1 (by omega)
      | CharData c => exact ih dec1 (by omega)
      | Comment c => exact ih dec1 (by omega)
      | ProcInst a b => exact ih dec1 (by omega)
      | Directive c => exact ih dec1 (by omega)

/-- The fuel of `parseXML` is never used up: its result is the result of its loop. -/
theorem parseXML_total (dec : Decoder) :
    parseXMLLoop (dec.input.length + 1) dec = some (parseXML dec) := by
  obtain ⟨r, h⟩ := parseXMLLoop_total (dec.input.length + 1) dec (Nat.lt_succ_self _)
  simp [parseXML, h]

theorem elemValue_eq (kids : List XNode) :
    elemValue kids = finish (childMap [] kids) (hasChildElement kids) (trimmedText "" kids) :=
  rfl

theorem childMap_nil (acc : Mapping) : childMap acc [] = acc :=
  rfl

theorem childMap_elem (acc : Mapping) (se : StartElement) (kids ns : List XNode) :
    childMap acc (.elem se kids :: ns) = childMap (setKey se.Name.Local (elemValue kids) acc) ns :=
  rfl

theorem childMap_text (acc : Mapping) (d : String) (ns : List XNode) :
    childMap acc (.text d :: ns) = childMap acc ns :=
  rfl

theorem childMap_comment (acc : Mapping) (d : String) (ns : List XNode) :
    childMap acc (.comment d :: ns) = childMap acc ns :=
  rfl

theorem childMap_procInst (acc : Mapping) (t i : String) (ns : List XNode) :
    childMap acc (.procInst t i :: ns) = childMap acc ns :=
  rfl

theorem childMap_directive (acc : Mapping) (d : String) (ns : List XNode) :
    childMap acc (.directive d :: ns) = childMap acc ns :=
  rfl

theorem tokensOf_cons (n : XNode) (ns : List XNode) :
    tokensOf (n :: ns) = n.tokens ++ tokensOf ns := by
  rw [tokensOf]

/-- The invariant of the loop of `parseXMLElement`: run on the tokens of the content `kids`
followed by the end element of `se`, with enough fuel, the loop returns at that end element
with the child elements of `kids` entered into `children` and the trimmed text runs of
`kids` added to `textContent`. -/
theorem loop_kids : ∀ (kids : List XNode) (fuel : Nat) (se : StartElement) (children : Mapping)
    (hc : Bool) (text : String) (rest : List Token) (bad : Bool) (st : List Name),
    (tokensOf kids).length + 1 ≤ fuel →
    parseXMLElementLoop fuel ⟨tokensOf kids ++ .EndElement se.Name :: rest, bad, se.Name :: st⟩
        se children hc text =
      some (.ok (finish (childMap children kids) (hc || hasChildElement kids)
        (trimmedText text kids), ⟨rest, bad, st⟩))
  | [], fuel, se, children, hc, text, rest, bad, st, hf => by
    obtain ⟨f, rfl⟩ : ∃ f, fuel = f + 1 := ⟨fuel - 1, by omega⟩
    cases hc <;>
      simp [tokensOf, parseXMLElementLoop, Decoder.Token, hasChildElement,
        trimmedText, finish, childMap_nil]
  | .elem se1 ks :: tl, fuel, se, children, hc, text, rest, bad, st, hf => by
    obtain ⟨f, rfl⟩ : ∃ f, fuel = f + 1 := ⟨fuel - 1, by omega⟩
    have hlen : (tokensOf ks).length + 1 + (tokensOf tl).length + 1 ≤ f := by
      simp [tokensOf, XNode.tokens] at hf; omega
    have h1 := loop_kids ks f se1 [] false "" (tokensOf tl ++ .EndElement se.Name :: rest) bad
      (se.Name :: st) (by omega)
    have h2 := loop_kids tl f se (setKey se1.Name.Local (elemValue ks) children) true text rest
      bad st (by omega)
    rw [tokensOf_cons, XNode.tokens, parseXMLElementLoop]
    simp only [Decoder.Token, List.cons_append, List.append_assoc, List.nil_append]
    simp only [List.cons_append, List.nil_append] at h1
    rw [h1]
    simp only [← elemValue_eq, Bool.false_or]
    rw [h2]
    simp [childMap_elem, childMap_text, childMap_comment, childMap_procInst, childMap_directive,
      hasChildElement, trimmedText]
  | .text data :: tl, fuel, se, children, hc, text, rest, bad, st, hf => by
    obtain ⟨f, rfl⟩ : ∃ f, fuel = f + 1 := ⟨fuel - 1, by omega⟩
    have hlen : (tokensOf tl).length + 1 ≤ f := by
      simp [tokensOf, XNode.tokens] at hf; omega
    have h2 := loop_kids tl f se children hc (text ++ trimSpace data) rest bad st hlen
    rw [tokensOf_cons, XNode.tokens, parseXMLElementLoop]
    simp only [Decoder.Token, List.cons_append, List.nil_append]
    rw [h2]
    simp [childMap_elem, childMap_text, childMap_comment, childMap_procInst, childMap_directive,
      hasChildElement, trimmedText]
  | .comment data :: tl, fuel, se, children, hc, text, rest, bad, st, hf => by
    obtain ⟨f, rfl⟩ : ∃ f, fuel = f + 1 := ⟨fuel - 1, by omega⟩
    have hlen : (tokensOf tl).length + 1 ≤ f := by
      simp [tokensOf, XNode.tokens] at hf; omega
    have h2 := loop_kids tl f se children hc text rest bad st hlen
    rw [tokensOf_cons, XNode.tokens, parseXMLElementLoop]
    simp only [Decoder.Token, List.cons_append, List.nil_append]
    rw [h2]
    simp [childMap_elem, childMap_text, childMap_comment, childMap_procInst, childMap_directive,
      hasChildElement, trimmedText]
  | .procInst t i :: tl, fuel, se, children, hc, text, rest, bad, st, hf => by
    obtain ⟨f, rfl⟩ : ∃ f, fuel = f + 1 := ⟨fuel - 1, by omega⟩
    have hlen : (tokensOf tl).length + 1 ≤ f := by
      simp [tokensOf, XNode.tokens] at hf; omega
    have h2 := loop_kids tl f se children hc text rest bad st hlen
    rw [tokensOf_cons, XNode.tokens, parseXMLElementLoop]
    simp only [Decoder.Token, List.cons_append, List.nil_append]
    rw [h2]
    simp [childMap_elem, childMap_text, childMap_comment, childMap_procInst, childMap_directive,
      hasChildElement, trimmedText]
  | .directive data :: tl, fuel, se, children, hc, text, rest, bad, st, hf => by
    obtain ⟨f, rfl⟩ : ∃ f, fuel = f + 1 := ⟨fuel - 1, by omega⟩
    have hlen : (tokensOf tl).length + 1 ≤ f := by
      simp [tokensOf, XNode.tokens] at hf; omega
    have h2 := loop_kids tl f se children hc text rest bad st hlen
    rw [tokensOf_cons, XNode.tokens, parseXMLElementLoop]
    simp only [Decoder.Token, List.cons_append, List.nil_append]
    rw [h2]
    simp [childMap_elem, childMap_text, childMap_comment, childMap_procInst, childMap_directive,
      hasChildElement, trimmedText]

/-- On the tokens of a well-formed element, `parseXMLElement` returns the value of the
element and leaves the decoder just after its end element. -/
theorem parseXMLElement_elem (se : StartElement) (kids : List XNode) (rest : List Token)
    (bad : Bool) (st : List Name) :
    parseXMLElement ⟨tokensOf kids ++ .EndElement se.Name :: rest, bad, se.Name :: st⟩ se =
      .ok (elemValue kids, ⟨rest, bad, st⟩) := by
  have h := loop_kids kids ((tokensOf kids ++ Token.EndElement se.Name :: rest).length + 1) se []
    false "" rest bad st (by simp)
  simp only [parseXMLElement, h, elemValue_eq, Bool.false_or]

theorem trimmedText_eq (kids : List XNode) : ∀ acc : String,
    trimmedText acc kids = acc ++ concatStrings ((textRuns kids).map trimSpace) := by
  induction kids with
  | nil => intro acc; simp [trimmedText, textRuns, concatStrings]
  | cons n ns ih =>
    intro acc
    cases n <;> simp [trimmedText, textRuns, concatStrings, ih, String.append_assoc]

/-- C7, as the code has it: an element without child elements decodes to the leaf string
made of its text runs, each trimmed of its surrounding white space, concatenated in document
order; when the element has a single text run, that is its trimmed text. -/
theorem C7_leaf_concatenates_trimmed_runs (se : StartElement) (kids : List XNode)
    (rest : List Token) (bad : Bool) (st : List Name) (h : hasChildElement kids = false) :
    parseXMLElement ⟨tokensOf kids ++ .EndElement se.Name :: rest, bad, se.Name :: st⟩ se =
      .ok (.str (concatStrings ((textRuns kids).map trimSpace)), ⟨rest, bad, st⟩) ∧
    ∀ data, textRuns kids = [data] →
      parseXMLElement ⟨tokensOf kids ++ .EndElement se.Name :: rest, bad, se.Name :: st⟩ se =
        .ok (.str (trimSpace (concatStrings (textRuns kids))), ⟨rest, bad, st⟩) := by
  have h1 : parseXMLElement
      ⟨tokensOf kids ++ .EndElement se.Name :: rest, bad, se.Name :: st⟩ se =
      .ok (.str (concatStrings ((textRuns kids).map trimSpace)), ⟨rest, bad, st⟩) := by
    rw [parseXMLElement_elem, elemValue_eq, finish, trimmedText_eq]
    simp [h]
  refine ⟨h1, ?_⟩
  intro data hd
  rw [h1, hd]
  simp [concatStrings]

/-- Witness of C7: the element `<x>a <!--c--> b</x>` decodes to `ab`. -/
theorem C7_leaf_concatenates_trimmed_runs_witness :
    hasChildElement twoRuns = false ∧
    parseXMLElement ⟨tokensOf twoRuns ++ [.EndElement (tag "x").Name], false, [(tag "x").Name]⟩
      (tag "x") = .ok (.str "ab", ⟨[], false, []⟩) :=
  ⟨rfl, (C7_leaf_concatenates_trimmed_runs (tag "x") twoRuns [] false [] rfl).1⟩

/-- C7, as the claim has it, fails on `<x>a <!--c--> b</x>`: the element has no child
element, its text with the surrounding white space removed is `a  b`, and `parseXMLElement`
returns `ab`. -/
theorem C7_trimmed_text_counterexample :
    hasChildElement twoRuns = false ∧
    trimSpace (concatStrings (textRuns twoRuns)) = "a  b" ∧
    parseXMLElement ⟨tokensOf twoRuns ++ [.EndElement (tag "x").Name], false, [(tag "x").Name]⟩
      (tag "x") = .ok (.str "ab", ⟨[], false, []⟩) ∧
    ¬ parseXMLElement ⟨tokensOf twoRuns ++ [.EndElement (tag "x").Name], false, [(tag "x").Name]⟩
      (tag "x") = .ok (.str (trimSpace (concatStrings (textRuns twoRuns))), ⟨[], false, []⟩) := by
  have h : parseXMLElement
      ⟨tokensOf twoRuns ++ [.EndElement (tag "x").Name], false, [(tag "x").Name]⟩ (tag "x") =
      .ok (.str "ab", ⟨[], false, []⟩) := rfl
  refine ⟨rfl, by decide, h, ?_⟩
  rw [h]
  intro hc
  injection hc with hc
  injection hc with hc _
  injection hc with hc
  revert hc
  decide

theorem setKey_fresh (k : String) (v : Value) : ∀ acc : Mapping,
    k ∉ acc.map Prod.fst → setKey k v acc = acc ++ [(k, v)] := by
  intro acc
  induction acc with
  | nil => intro _; rfl
  | cons e es ih =>
    intro hk
    simp only [List.map_cons, List.mem_cons, not_or] at hk
    have hne : ¬ e.1 = k := fun h => hk.1 h.symm
    simp [setKey, hne, ih hk.2]

theorem childMap_distinct (kids : List XNode) : ∀ acc : Mapping,
    (acc.map Prod.fst ++ (childElements kids).map fun c => c.1.Name.Local).Nodup →
    childMap acc kids =
      acc ++ (childElements kids).map fun c => (c.1.Name.Local, elemValue c.2) := by
  induction kids with
  | nil => intro acc _; simp [childMap_nil, childElements]
  | cons n ns ih =>
    intro acc hnd
    cases n with
    | elem se ks =>
      simp only [childElements, List.map_cons] at hnd
      have hfresh : se.Name.Local ∉ acc.map Prod.fst := by
        intro hmem
        have := (List.nodup_append.1 hnd).2.2
        exact this hmem (List.mem_cons_self _ _)
      have hnd2 : ((acc ++ [(se.Name.Local, elemValue ks)]).map Prod.fst ++
          (childElements ns).map fun c => c.1.Name.Local).Nodup := by
        simp only [List.map_append, List.map_cons, List.map_nil, List.append_assoc,
          List.singleton_append]
        exact hnd
      rw [childMap_elem, setKey_fresh _ _ _ hfresh, ih _ hnd2]
      simp [childElements]
    | text d => simpa [childMap_text, childElements] using ih acc (by simpa [childElements] using hnd)
    | comment d => simpa [childMap_comment, childElements] using ih acc (by simpa [childElements] using hnd)
    | procInst t i =>
      simpa [childMap_procInst, childElements] using ih acc (by simpa [childElements] using hnd)
    | directive d =>
      simpa [childMap_directive, childElements] using ih acc (by simpa [childElements] using hnd)

theorem hasChildElement_iff (kids : List XNode) :
    hasChildElement kids = true ↔ childElements kids ≠ [] := by
  induction kids with
  | nil => simp [hasChildElement, childElements]
  | cons n ns ih => cases n <;> simp [hasChildElement, childElements, ih]

/-- C8: an element with at least one child element, whose child elements have pairwise
distinct local names, decodes to the mapping that has one entry for each child element, under
the local name of the child and holding the value that `parseXMLElement` returns for the
child; every content with the same child elements, whatever its character data, decodes to
the same mapping. -/
theorem C8_interior_is_mapping_of_children (se : StartElement) (kids : List XNode)
    (rest : List Token) (bad : Bool) (st : List Name)
    (h : hasChildElement kids = true)
    (hd : ((childElements kids).map fun c => c.1.Name.Local).Nodup) :
    parseXMLElement ⟨tokensOf kids ++ .EndElement se.Name :: rest, bad, se.Name :: st⟩ se =
      .ok (.map ((childElements kids).map fun c => (c.1.Name.Local, elemValue c.2)),
        ⟨rest, bad, st⟩) ∧
    (∀ c ∈ childElements kids, ∀ (rest1 : List Token) (bad1 : Bool) (st1 : List Name),
      parseXMLElement ⟨tokensOf c.2 ++ .EndElement c.1.Name :: rest1, bad1, c.1.Name :: st1⟩ c.1 =
        .ok (elemValue c.2, ⟨rest1, bad1, st1⟩)) ∧
    ∀ kids2 : List XNode, childElements kids2 = childElements kids →
      parseXMLElement ⟨tokensOf kids2 ++ .EndElement se.Name :: rest, bad, se.Name :: st⟩ se =
        .ok (.map ((childElements kids).map fun c => (c.1.Name.Local, elemValue c.2)),
          ⟨rest, bad, st⟩) := by
  have key : ∀ kids2 : List XNode, childElements kids2 = childElements kids →
      parseXMLElement ⟨tokensOf kids2 ++ .EndElement se.Name :: rest, bad, se.Name :: st⟩ se =
        .ok (.map ((childElements kids).map fun c => (c.1.Name.Local, elemValue c.2)),
          ⟨rest, bad, st⟩) := by
    intro kids2 h2
    have hc2 : hasChildElement kids2 = true := by
      rw [hasChildElement_iff, h2, ← hasChildElement_iff]; exact h
    have hm := childMap_distinct kids2 [] (by simpa [h2] using hd)
    rw [parseXMLElement_elem, elemValue, hc2, hm, h2]
    simp
  exact ⟨key kids rfl, fun c _ rest1 bad1 st1 => parseXMLElement_elem c.1 c.2 rest1 bad1 st1, key⟩

/-- Witness of C8: `<p> pad <a>x</a><b><c/></b></p>` decodes to the mapping of `a` and `b`. -/
theorem C8_interior_is_mapping_of_children_witness :
    hasChildElement twoChildren = true ∧
    parseXMLElement
      ⟨tokensOf twoChildren ++ [.EndElement (tag "p").Name], false, [(tag "p").Name]⟩ (tag "p") =
      .ok (.map [("a", .str "x"), ("b", .map [("c", .str "")])], ⟨[], false, []⟩) :=
  ⟨rfl, ((C8_interior_is_mapping_of_children (tag "p") twoChildren [] false [] rfl
    (by decide)).1).trans (by rfl)⟩

/-- The loop of `parseXMLElement` does not look at attributes: on the tokens without their
attributes it returns the same value, or the same error. -/
theorem loop_eraseAttrs : ∀ (fuel : Nat) (dec : Decoder) (se : StartElement)
    (children : Mapping) (hc : Bool) (text : String),
    parseXMLElementLoop fuel dec.eraseAttrs ⟨se.Name, []⟩ children hc text =
      (parseXMLElementLoop fuel dec se children hc text).map
        (Except.map fun r => (r.1, r.2.eraseAttrs)) := by
  intro fuel
  induction fuel with
  | zero => intro dec se children hc text; rfl
  | succ f ih =>
    intro dec se children hc text
    obtain ⟨input, bad, stack⟩ := dec
    cases input with
    | nil => simp [parseXMLElementLoop, Decoder.Token, Decoder.eraseAttrs, Except.map]
    | cons t rest =>
      cases t with
      | StartElement t =>
        have h1 := ih ⟨rest, bad, t.Name :: stack⟩ t [] false ""
        simp only [Decoder.eraseAttrs, List.map_cons, eraseAttr, parseXMLElementLoop,
          Decoder.Token] at h1 ⊢
        rw [h1]
        cases hin : parseXMLElementLoop f ⟨rest, bad, t.Name :: stack⟩ t [] false "" with
        | none => rfl
        | some r =>
          cases r with
          | error e => rfl
          | ok p =>
            obtain ⟨v, d2⟩ := p
            have h2 := ih d2 se (setKey t.Name.Local v children) true text
            simp only [Decoder.eraseAttrs] at h2
            simp only [Option.map_some', Except.map, h2]
      | EndElement n =>
        cases stack with
        | nil => simp [parseXMLElementLoop, Decoder.Token, Decoder.eraseAttrs, eraseAttr, Except.map]
        | cons top st =>
          have h2 := ih ⟨rest, bad, st⟩ se children hc text
          simp only [Decoder.eraseAttrs] at h2
          by_cases htop : top = n
          · by_cases hn : n = se.Name
            · cases hc <;>
                simp [parseXMLElementLoop, Decoder.Token, Decoder.eraseAttrs, eraseAttr,
                  Except.map, htop, hn]
            · simp [parseXMLElementLoop, Decoder.Token, Decoder.eraseAttrs, eraseAttr,
                htop, hn, h2]
          · simp [parseXMLElementLoop, Decoder.Token, Decoder.eraseAttrs, eraseAttr,
              Except.map, htop]
      | CharData d =>
        have h2 := ih ⟨rest, bad, stack⟩ se children hc (text ++ trimSpace d)
        simp only [Decoder.eraseAttrs] at h2
        simp [parseXMLElementLoop, Decoder.Token, Decoder.eraseAttrs, eraseAttr, h2]
      | Comment d =>
        have h2 := ih ⟨rest, bad, stack⟩ se children hc text
        simp only [Decoder.eraseAttrs] at h2
        simp [parseXMLElementLoop, Decoder.Token, Decoder.eraseAttrs, eraseAttr, h2]
      | ProcInst t i =>
        have h2 := ih ⟨rest, bad, stack⟩ se children hc text
        simp only [Decoder.eraseAttrs] at h2
        simp [parseXMLElementLoop, Decoder.Token, Decoder.eraseAttrs, eraseAttr, h2]
      | Directive d =>
        have h2 := ih ⟨rest, bad, stack⟩ se children hc text
        simp only [Decoder.eraseAttrs] at h2
        simp [parseXMLElementLoop, Decoder.Token, Decoder.eraseAttrs, eraseAttr, h2]

theorem parseXMLElement_eraseAttrs (dec : Decoder) (se : StartElement) :
    parseXMLElement dec.eraseAttrs ⟨se.Name, []⟩ =
      (parseXMLElement dec se).map fun r => (r.1, r.2.eraseAttrs) := by
  have h := loop_eraseAttrs (dec.input.length + 1) dec se [] false ""
  have hl : dec.eraseAttrs.input.length = dec.input.length := by simp [Decoder.eraseAttrs]
  simp only [parseXMLElement, hl, h]
  cases parseXMLElementLoop (dec.input.length + 1) dec se [] false "" with
  | none => rfl
  | some r => rfl

theorem parseXMLLoop_eraseAttrs : ∀ (fuel : Nat) (dec : Decoder),
    parseXMLLoop fuel dec.eraseAttrs = parseXMLLoop fuel dec := by
  intro fuel
  induction fuel with
  | zero => intro dec; rfl
  | succ f ih =>
    intro dec
    obtain ⟨input, bad, stack⟩ := dec
    cases input with
    | nil => simp [parseXMLLoop, Decoder.Token, Decoder.eraseAttrs]
    | cons t rest =>
      cases t with
      | StartElement t =>
        have h1 := parseXMLElement_eraseAttrs ⟨rest, bad, t.Name :: stack⟩ t
        simp only [Decoder.eraseAttrs] at h1
        simp only [Decoder.eraseAttrs, List.map_cons, eraseAttr, parseXMLLoop, Decoder.Token, h1]
        cases parseXMLElement ⟨rest, bad, t.Name :: stack⟩ t with
        | error e => rfl
        | ok p => rfl
      | EndElement n =>
        cases stack with
        | nil => simp [parseXMLLoop, Decoder.Token, Decoder.eraseAttrs, eraseAttr]
        | cons top st =>
          have h2 := ih ⟨rest, bad, st⟩
          simp only [Decoder.eraseAttrs] at h2
          by_cases htop : top = n
          · simp [parseXMLLoop, Decoder.Token, Decoder.eraseAttrs, eraseAttr, htop, h2]
          · simp [parseXMLLoop, Decoder.Token, Decoder.eraseAttrs, eraseAttr, htop]
      | CharData d =>
        have h2 := ih ⟨rest, bad, stack⟩
        simp only [Decoder.eraseAttrs] at h2
        simp [parseXMLLoop, Decoder.Token, Decoder.eraseAttrs, eraseAttr, h2]
      | Comment d =>
        have h2 := ih ⟨rest, bad, stack⟩
        simp only [Decoder.eraseAttrs] at h2
        simp [parseXMLLoop, Decoder.Token, Decoder.eraseAttrs, eraseAttr, h2]
      | ProcInst t i =>
        have h2 := ih ⟨rest, bad, stack⟩
        simp only [Decoder.eraseAttrs] at h2
        simp [parseXMLLoop, Decoder.Token, Decoder.eraseAttrs, eraseAttr, h2]
      | Directive d =>
        have h2 := ih ⟨rest, bad, stack⟩
        simp only [Decoder.eraseAttrs] at h2
        simp [parseXMLLoop, Decoder.Token, Decoder.eraseAttrs, eraseAttr, h2]

/-- C9, as the code has it: the XML decoder ignores attributes. `parseXML` returns for a
document what it returns for the document without its attributes, and `parseXMLElement`
returns for an element the value it returns for the element without its attributes. -/
theorem C9_attributes_are_ignored (dec : Decoder) :
    parseXML dec.eraseAttrs = parseXML dec ∧
    ∀ se : StartElement,
      (parseXMLElement dec.eraseAttrs ⟨se.Name, []⟩).map Prod.fst =
        (parseXMLElement dec se).map Prod.fst := by
  constructor
  · have hl : dec.eraseAttrs.input.length = dec.input.length := by simp [Decoder.eraseAttrs]
    simp only [parseXML, hl, parseXMLLoop_eraseAttrs]
  · intro se
    rw [parseXMLElement_eraseAttrs]
    cases parseXMLElement dec se with
    | error e => rfl
    | ok p => rfl

/-- C9, as the claim has it, fails on `<a x="1">t</a>`: the element carries the attribute `x`
and decodes to the leaf `t`, which is no mapping; and `<a x="1"><b>t</b></a>` decodes to a
mapping whose only key is `b`. -/
theorem C9_attribute_counterexample :
    withAttr.head? = some (.StartElement ⟨⟨"", "a"⟩, [⟨⟨"", "x"⟩, "1"⟩]⟩) ∧
    parseXML ⟨withAttr, false, []⟩ = .ok [("a", .str "t")] ∧
    parseXMLElement ⟨withAttr.tail, false, [⟨"", "a"⟩]⟩ ⟨⟨"", "a"⟩, [⟨⟨"", "x"⟩, "1"⟩]⟩ =
      .ok (.str "t", ⟨[], false, []⟩) ∧
    parseXML ⟨withAttrAndChild, false, []⟩ = .ok [("a", .map [("b", .str "t")])] ∧
    hasAtKey [("b", .str "t")] = false :=
  ⟨rfl, rfl, rfl, rfl, rfl⟩

theorem parseXMLLoop_skip (pre : List Token) (hpre : ∀ t ∈ pre, isMisc t = true) :
    ∀ (fuel : Nat) (rest : List Token) (bad : Bool) (st : List Name),
      parseXMLLoop (pre.length + fuel) ⟨pre ++ rest, bad, st⟩ = parseXMLLoop fuel ⟨rest, bad, st⟩ := by
  induction pre with
  | nil => intro fuel rest bad st; simp
  | cons t ts ih =>
    intro fuel rest bad st
    have ht : isMisc t = true := hpre t (List.mem_cons_self _ _)
    have hts : ∀ u ∈ ts, isMisc u = true := fun u hu => hpre u (List.mem_cons_of_mem _ hu)
    have hf : (t :: ts).length + fuel = (ts.length + fuel) + 1 := by simp; omega
    rw [hf]
    cases t with
    | StartElement se => simp [isMisc] at ht
    | EndElement n => simp [isMisc] at ht
    | CharData d => simpa [parseXMLLoop, Decoder.Token] using ih hts fuel rest bad st
    | Comment d => simpa [parseXMLLoop, Decoder.Token] using ih hts fuel rest bad st
    | ProcInst a b => simpa [parseXMLLoop, Decoder.Token] using ih hts fuel rest bad st
    | Directive d => simpa [parseXMLLoop, Decoder.Token] using ih hts fuel rest bad st

theorem parseXMLLoop_single : ∀ (fuel : Nat) (dec : Decoder) (m : Mapping),
    parseXMLLoop fuel dec = some (.ok m) → ∃ k v, m = [(k, v)] := by
  intro fuel
  induction fuel with
  | zero => intro dec m h; simp [parseXMLLoop] at h
  | succ f ih =>
    intro dec m h
    rw [parseXMLLoop] at h
    split at h
    · simp at h
    · simp at h
    · rename_i se dec1 _
      split at h
      · simp at h
      · rename_i content _ _
        simp only [Option.some.injEq, Except.ok.injEq] at h
        exact ⟨se.Name.Local, content, h.symm⟩
    · exact ih _ m h

/-- C10, as the code has it: `parseXML` decodes the first top-level element and reads no
further. Whatever tokens follow the end of that element (another top-level element, or text
that is not well formed), it succeeds with the mapping whose single entry has the local name
of the element as key and its decoded value as value; and whenever `parseXML` succeeds, on any
token stream, its result is a mapping with exactly one entry. -/
theorem C10_first_element_only (pre : List Token) (se : StartElement) (kids : List XNode)
    (rest : List Token) (bad : Bool) (hpre : ∀ t ∈ pre, isMisc t = true) :
    parseXML ⟨pre ++ ((XNode.elem se kids).tokens ++ rest), bad, []⟩ =
      .ok [(se.Name.Local, elemValue kids)] ∧
    ∀ (dec : Decoder) (m : Mapping), parseXML dec = .ok m → ∃ k v, m = [(k, v)] := by
  constructor
  · have hlen : (pre ++ ((XNode.elem se kids).tokens ++ rest)).length + 1 =
        pre.length + (((XNode.elem se kids).tokens ++ rest).length + 1) := by
      simp; omega
    rw [parseXML]
    simp only [hlen, parseXMLLoop_skip pre hpre]
    simp only [XNode.tokens, List.cons_append, List.append_assoc, List.singleton_append,
      List.length_cons, parseXMLLoop, Decoder.Token, parseXMLElement_elem]
  · intro dec m h
    rw [parseXML] at h
    cases hl : parseXMLLoop (dec.input.length + 1) dec with
    | none => rw [hl] at h; simp at h
    | some r =>
      rw [hl] at h
      simp only at h
      subst h
      exact parseXMLLoop_single _ dec m hl

/-- Witness of C10: after an XML declaration and a line break, `<a>x</a>` followed by
`<b>y</b>` decodes to the mapping of `a` alone. -/
theorem C10_first_element_only_witness :
    (∀ t ∈ [Token.ProcInst "xml" "version=\"1.0\"", Token.CharData "\n"], isMisc t = true) ∧
    parseXML ⟨[Token.ProcInst "xml" "version=\"1.0\"", Token.CharData "\n"] ++
      ((XNode.elem (tag "a") [.text "x"]).tokens ++ (XNode.elem (tag "b") [.text "y"]).tokens),
      false, []⟩ = .ok [("a", .str "x")] :=
  ⟨by decide, (C10_first_element_only [Token.ProcInst "xml" "version=\"1.0\"", Token.CharData "\n"]
    (tag "a") [.text "x"] (XNode.elem (tag "b") [.text "y"]).tokens false (by decide)).1⟩

/-- C10, as the claim has it, fails: the text `<a>x</a><b>y</b>` has two top-level elements,
and `parseXML` accepts it; so does `parseXML` accept `<a>x</a>` followed by an end element
that nothing opens. -/
theorem C10_two_roots_counterexample :
    twoRoots = [.StartElement (tag "a"), .CharData "x", .EndElement ⟨"", "a"⟩,
      .StartElement (tag "b"), .CharData "y", .EndElement ⟨"", "b"⟩] ∧
    parseXML ⟨twoRoots, false, []⟩ = .ok [("a", .str "x")] ∧
    parseXML ⟨(XNode.elem (tag "a") [.text "x"]).tokens ++ [.EndElement ⟨"", "b"⟩], true, []⟩ =
      .ok [("a", .str "x")] :=
  ⟨rfl, rfl, rfl⟩

theorem setKey_ne_nil (k : String) (v : Value) (m : Mapping) : setKey k v m ≠ [] := by
  cases m with
  | nil => simp [setKey]
  | cons e es =>
    rw [setKey]
    split <;> simp

theorem xmlShapedAll_setKey (k : String) (v : Value) (hv : xmlShaped v = true) :
    ∀ m : Mapping, xmlShapedAll m = true → xmlShapedAll (setKey k v m) = true := by
  intro m
  induction m with
  | nil => intro _; simp [setKey, xmlShapedAll, hv]
  | cons e es ih =>
    intro h
    obtain ⟨k1, v1⟩ := e
    simp only [xmlShapedAll, Bool.and_eq_true] at h
    rw [setKey]
    split
    · simp [xmlShapedAll, hv, h.2]
    · simp [xmlShapedAll, h.1, ih h.2]

/-- The loop of `parseXMLElement` keeps the shape: from children that have the shape, and
that are not empty once a child element was seen, it returns a value that has the shape. -/
theorem loop_xmlShaped : ∀ (fuel : Nat) (dec : Decoder) (se : StartElement)
    (children : Mapping) (hc : Bool) (text : String) (v : Value) (d : Decoder),
    xmlShapedAll children = true → (hc = true → children ≠ []) →
    parseXMLElementLoop fuel dec se children hc text = some (.ok (v, d)) →
    xmlShaped v = true := by
  intro fuel
  induction fuel with
  | zero => intro dec se children hc text v d _ _ h; simp [parseXMLElementLoop] at h
  | succ f ih =>
    intro dec se children hc text v d hs hne h
    rw [parseXMLElementLoop] at h
    cases ht : dec.Token with
    | error e => rw [ht] at h; simp at h
    | ok p =>
      obtain ⟨t, dec1⟩ := p
      rw [ht] at h
      cases t with
      | StartElement t =>
        simp only at h
        cases hin : parseXMLElementLoop f dec1 t [] false "" with
        | none => rw [hin] at h; simp at h
        | some r =>
          rw [hin] at h
          cases r with
          | error e => simp at h
          | ok q =>
            obtain ⟨v1, d2⟩ := q
            simp only at h
            have hv1 := ih dec1 t [] false "" v1 d2 rfl (fun hf => by cases hf) hin
            exact ih d2 se (setKey t.Name.Local v1 children) true text v d
              (xmlShapedAll_setKey _ _ hv1 _ hs) (fun _ => setKey_ne_nil _ _ _) h
      | EndElement n =>
        simp only at h
        by_cases hn : n = se.Name
        · cases hc with
          | false =>
            simp only [hn, if_true, Bool.false_eq_true, if_false, Option.some.injEq,
              Except.ok.injEq, Prod.mk.injEq] at h
            rw [← h.1]; rfl
          | true =>
            simp only [hn, if_true, Option.some.injEq, Except.ok.injEq, Prod.mk.injEq] at h
            rw [← h.1]
            have hne2 := hne rfl
            cases children with
            | nil => exact absurd rfl hne2
            | cons e es => simpa [xmlShaped] using hs
        · simp only [hn, if_false] at h
          exact ih dec1 se children hc text v d hs hne h
      | CharData c => exact ih dec1 se children hc _ v d hs hne h
      | Comment c => exact ih dec1 se children hc text v d hs hne h
      | ProcInst a b => exact ih dec1 se children hc text v d hs hne h
      | Directive c => exact ih dec1 se children hc text v d hs hne h

/-- C20: every value that `parseXMLElement` returns, on any token stream, is a string or a
mapping that is not empty and whose values are again such values; so it is never null, a
number, a boolean, a slice or the empty mapping. An element whose end element follows its
start element at once, as for `<a/>` and `<a></a>`, decodes to the empty string. -/
theorem C20_xml_values_are_strings_or_mappings :
    (∀ (dec : Decoder) (se : StartElement) (v : Value) (d : Decoder),
      parseXMLElement dec se = .ok (v, d) → xmlShaped v = true) ∧
    xmlShaped .null = false ∧ (∀ b, xmlShaped (.bool b) = false) ∧
    (∀ x, xmlShaped (.float x) = false) ∧ (∀ xs, xmlShaped (.arr xs) = false) ∧
    xmlShaped (.map []) = false ∧
    ∀ (se : StartElement) (rest : List Token) (bad : Bool) (st : List Name),
      parseXMLElement ⟨.EndElement se.Name :: rest, bad, se.Name :: st⟩ se =
        .ok (.str "", ⟨rest, bad, st⟩) := by
  refine ⟨?_, rfl, fun _ => rfl, fun _ => rfl, fun _ => rfl, rfl, ?_⟩
  · intro dec se v d h
    have ht := parseXMLElement_total dec se
    rw [h] at ht
    exact loop_xmlShaped _ dec se [] false "" v d rfl (fun hf => by cases hf) ht
  · intro se rest bad st
    exact parseXMLElement_elem se [] rest bad st

theorem lookupKey_setKey (n k : String) (v : Value) : ∀ m : Mapping,
    lookupKey n (setKey k v m) = if k = n then some v else lookupKey n m := by
  intro m
  induction m with
  | nil => simp [setKey, lookupKey]
  | cons e es ih =>
    rw [setKey]
    by_cases hk : e.1 = k
    · by_cases hn : k = n
      · simp [lookupKey, hk, hn]
      · have : ¬ e.1 = n := fun h => hn (hk ▸ h)
        simp [lookupKey, hk, hn, this]
    · by_cases hn : e.1 = n
      · have h1 : ¬ k = n := fun h => hk (h ▸ hn)
        rw [if_neg hk, lookupKey, if_pos hn, if_neg h1, lookupKey, if_pos hn]
      · simp [lookupKey, hk, hn, ih]

theorem keys_setKey (k : String) (v : Value) : ∀ m : Mapping,
    (setKey k v m).map Prod.fst =
      if k ∈ m.map Prod.fst then m.map Prod.fst else m.map Prod.fst ++ [k] := by
  intro m
  induction m with
  | nil => simp [setKey]
  | cons e es ih =>
    rw [setKey]
    by_cases hk : e.1 = k
    · simp [hk]
    · have hk2 : ¬ k = e.1 := fun h => hk h.symm
      by_cases hmem : k ∈ es.map Prod.fst
      · simp only [hk, if_false, List.map_cons, ih, hmem, if_true, List.mem_cons, or_true]
      · simp only [hk, if_false, List.map_cons, ih, hmem, List.mem_cons, hk2, or_self,
          List.cons_append]

theorem nodup_keys_setKey (k : String) (v : Value) (m : Mapping)
    (h : (m.map Prod.fst).Nodup) : ((setKey k v m).map Prod.fst).Nodup := by
  rw [keys_setKey]
  by_cases hmem : k ∈ m.map Prod.fst
  · simpa [hmem] using h
  · simp only [hmem, if_false]
    exact List.nodup_append.2 ⟨h, List.nodup_singleton k, by
      intro a ha hb
      rw [List.mem_singleton] at hb
      exact hmem (hb ▸ ha)⟩

/-- The mapping of the child elements: its keys are distinct, and under a local name it holds
the value of the last child element with that name. -/
theorem childMap_last (kids : List XNode) : ∀ acc : Mapping, (acc.map Prod.fst).Nodup →
    ((childMap acc kids).map Prod.fst).Nodup ∧
    ∀ n, lookupKey n (childMap acc kids) =
      match lastChild n kids with
      | some c => some (elemValue c)
      | none => lookupKey n acc := by
  induction kids with
  | nil => intro acc h; exact ⟨h, fun n => rfl⟩
  | cons x ns ih =>
    intro acc h
    cases x with
    | elem se ks =>
      obtain ⟨h1, h2⟩ := ih (setKey se.Name.Local (elemValue ks) acc)
        (nodup_keys_setKey _ _ _ h)
      rw [childMap_elem]
      refine ⟨h1, fun n => ?_⟩
      rw [h2 n, lastChild]
      cases lastChild n ns with
      | some c => rfl
      | none =>
        simp only [lookupKey_setKey]
        by_cases hn : se.Name.Local = n <;> simp [hn]
    | text d => exact ih acc h
    | comment d => exact ih acc h
    | procInst a b => exact ih acc h
    | directive d => exact ih acc h

/-- C19: an element with child elements decodes to a mapping whose keys are distinct, and
that holds under every local name the decoded value of the last child element with that
local name, whatever the namespaces of the children; with two or more children of one local
name there is one entry for the name, the earlier children are dropped, and the call
succeeds. -/
theorem C19_last_duplicate_child_wins (se : StartElement) (kids : List XNode)
    (rest : List Token) (bad : Bool) (st : List Name) (h : hasChildElement kids = true) :
    ∃ m : Mapping,
      parseXMLElement ⟨tokensOf kids ++ .EndElement se.Name :: rest, bad, se.Name :: st⟩ se =
        .ok (.map m, ⟨rest, bad, st⟩) ∧
      (m.map Prod.fst).Nodup ∧
      ∀ n, lookupKey n m = (lastChild n kids).map elemValue := by
  obtain ⟨h1, h2⟩ := childMap_last kids [] List.nodup_nil
  refine ⟨childMap [] kids, ?_, h1, ?_⟩
  · rw [parseXMLElement_elem, elemValue, h]; rfl
  · intro n
    rw [h2 n]
    cases lastChild n kids <;> rfl

/-- Witness of C19: `<p><a>1</a><b/><a xmlns="urn:x">2</a></p>` decodes to a mapping that
holds `2` under `a`, the empty string under `b`, and nothing under `c`. -/
theorem C19_last_duplicate_child_wins_witness :
    hasChildElement twiceA = true ∧
    ∃ m : Mapping,
      parseXMLElement ⟨tokensOf twiceA ++ [.EndElement (tag "p").Name], false, [(tag "p").Name]⟩
        (tag "p") = .ok (.map m, ⟨[], false, []⟩) ∧
      lookupKey "a" m = some (.str "2") ∧ lookupKey "b" m = some (.str "") ∧
      lookupKey "c" m = none := by
  obtain ⟨m, hm, _, hl⟩ := C19_last_duplicate_child_wins (tag "p") twiceA [] false [] rfl
  exact ⟨rfl, m, hm, (hl "a").trans rfl, (hl "b").trans rfl, (hl "c").trans rfl⟩

theorem token_input (dec : Decoder) (t : Token) (dec1 : Decoder)
    (h : dec.Token = .ok (t, dec1)) : dec.input = t :: dec1.input := by
  obtain ⟨input, bad, stack⟩ := dec
  cases input with
  | nil => simp [Decoder.Token] at h
  | cons u rest =>
    cases u with
    | EndElement n =>
      cases stack with
      | nil => simp [Decoder.Token] at h
      | cons top st =>
        by_cases htop : top = n
        · simp only [Decoder.Token, htop, if_true, Except.ok.injEq, Prod.mk.injEq] at h
          rw [← h.1, ← h.2]
        · simp [Decoder.Token, htop] at h
    | StartElement se =>
      simp only [Decoder.Token, Except.ok.injEq, Prod.mk.injEq] at h
      rw [← h.1, ← h.2]
    | CharData d =>
      simp only [Decoder.Token, Except.ok.injEq, Prod.mk.injEq] at h
      rw [← h.1, ← h.2]
    | Comment d =>
      simp only [Decoder.Token, Except.ok.injEq, Prod.mk.injEq] at h
      rw [← h.1, ← h.2]
    | ProcInst a b =>
      simp only [Decoder.Token, Except.ok.injEq, Prod.mk.injEq] at h
      rw [← h.1, ← h.2]
    | Directive d =>
      simp only [Decoder.Token, Except.ok.injEq, Prod.mk.injEq] at h
      rw [← h.1, ← h.2]

theorem token_eof (dec : Decoder) (h : dec.Token = .error .eof) : dec.input = [] := by
  obtain ⟨input, bad, stack⟩ := dec
  cases input with
  | nil => rfl
  | cons u rest =>
    cases u with
    | EndElement n =>
      cases stack with
      | nil => simp [Decoder.Token] at h
      | cons top st =>
        by_cases htop : top = n <;> simp [Decoder.Token, htop] at h
    | StartElement se => simp [Decoder.Token] at h
    | CharData d => simp [Decoder.Token] at h
    | Comment d => simp [Decoder.Token] at h
    | ProcInst a b => simp [Decoder.Token] at h
    | Directive d => simp [Decoder.Token] at h

theorem drain_fuel : ∀ (fuel : Nat) (dec : Decoder), dec.input.length < fuel →
    drain fuel dec = dec.streamError := by
  intro fuel
  induction fuel with
  | zero => intro dec h; omega
  | succ f ih =>
    intro dec h
    rw [Decoder.streamError, drain, drain]
    cases ht : dec.Token with
    | error e => rfl
    | ok p =>
      obtain ⟨t, d1⟩ := p
      have hl := token_length dec t d1 ht
      simp only
      rw [ih d1 (by omega), ← hl]
      rfl

theorem streamError_of_error (dec : Decoder) (e : XmlErr) (h : dec.Token = .error e) :
    dec.streamError = e := by
  rw [Decoder.streamError, drain, h]

theorem streamError_of_ok (dec : Decoder) (t : Token) (d1 : Decoder)
    (h : dec.Token = .ok (t, d1)) : dec.streamError = d1.streamError := by
  have hl := token_length dec t d1 h
  rw [Decoder.streamError, drain, h]
  exact drain_fuel _ d1 (by omega)

theorem closeFrom_fuel (depth : Nat) : ∀ (fuel : Nat) (dec : Decoder),
    dec.input.length < fuel → closeFrom fuel depth dec = dec.closeAt depth := by
  intro fuel
  induction fuel with
  | zero => intro dec h; omega
  | succ f ih =>
    intro dec h
    rw [Decoder.closeAt, closeFrom, closeFrom]
    cases ht : dec.Token with
    | error e => rfl
    | ok p =>
      obtain ⟨t, d1⟩ := p
      have hl := token_length dec t d1 ht
      simp only
      rw [ih d1 (by omega), ← hl]
      rfl

theorem closeAt_of_error (depth : Nat) (dec : Decoder) (e : XmlErr)
    (h : dec.Token = .error e) : dec.closeAt depth = none := by
  rw [Decoder.closeAt, closeFrom, h]

theorem closeAt_of_ok (depth : Nat) (dec : Decoder) (t : Token) (d1 : Decoder)
    (h : dec.Token = .ok (t, d1)) :
    dec.closeAt depth = if d1.stack.length < depth then some d1 else d1.closeAt depth := by
  have hl := token_length dec t d1 h
  rw [Decoder.closeAt, closeFrom, h]
  simp only
  rw [closeFrom_fuel depth _ d1 (by omega)]

theorem closeAt_weaken (k : Nat) : ∀ (n : Nat) (dec : Decoder), dec.input.length = n →
    dec.closeAt (k + 1) = none → dec.closeAt k = none := by
  intro n
  induction n with
  | zero =>
    intro dec hn _
    cases ht : dec.Token with
    | error e => exact closeAt_of_error k dec e ht
    | ok p => have := token_length dec p.1 p.2 ht; omega
  | succ m ih =>
    intro dec hn h
    cases ht : dec.Token with
    | error e => exact closeAt_of_error k dec e ht
    | ok p =>
      obtain ⟨t, d1⟩ := p
      have hl := token_length dec t d1 ht
      rw [closeAt_of_ok (k + 1) dec t d1 ht] at h
      rw [closeAt_of_ok k dec t d1 ht]
      by_cases hd : d1.stack.length < k + 1
      · simp [hd] at h
      · simp only [hd, if_false] at h
        have hd2 : ¬ d1.stack.length < k := by omega
        simp only [hd2, if_false]
        exact ih d1 (by omega) h

theorem closeAt_compose (k : Nat) : ∀ (n : Nat) (dec d2 : Decoder), dec.input.length = n →
    dec.closeAt (k + 1) = some d2 → ¬ d2.stack.length < k →
    dec.closeAt k = d2.closeAt k := by
  intro n
  induction n with
  | zero =>
    intro dec d2 hn h _
    cases ht : dec.Token with
    | error e => rw [closeAt_of_error (k + 1) dec e ht] at h; cases h
    | ok p => have := token_length dec p.1 p.2 ht; omega
  | succ m ih =>
    intro dec d2 hn h hk
    cases ht : dec.Token with
    | error e => rw [closeAt_of_error (k + 1) dec e ht] at h; cases h
    | ok p =>
      obtain ⟨t, d1⟩ := p
      have hl := token_length dec t d1 ht
      rw [closeAt_of_ok (k + 1) dec t d1 ht] at h
      rw [closeAt_of_ok k dec t d1 ht]
      by_cases hd : d1.stack.length < k + 1
      · simp only [hd, if_true, Option.some.injEq] at h
        subst h
        simp [hk]
      · simp only [hd, if_false] at h
        have hd2 : ¬ d1.stack.length < k := by omega
        simp only [hd2, if_false]
        exact ih d1 d2 (by omega) h hk

theorem closeAt_streamError (k : Nat) : ∀ (n : Nat) (dec d2 : Decoder), dec.input.length = n →
    dec.closeAt k = some d2 → dec.streamError = d2.streamError := by
  intro n
  induction n with
  | zero =>
    intro dec d2 hn h
    cases ht : dec.Token with
    | error e => rw [closeAt_of_error k dec e ht] at h; cases h
    | ok p => have := token_length dec p.1 p.2 ht; omega
  | succ m ih =>
    intro dec d2 hn h
    cases ht : dec.Token with
    | error e => rw [closeAt_of_error k dec e ht] at h; cases h
    | ok p =>
      obtain ⟨t, d1⟩ := p
      have hl := token_length dec t d1 ht
      rw [closeAt_of_ok k dec t d1 ht] at h
      rw [streamError_of_ok dec t d1 ht]
      by_cases hd : d1.stack.length < k
      · simp only [hd, if_true, Option.some.injEq] at h
        rw [h]
      · simp only [hd, if_false] at h
        exact ih d1 d2 (by omega) h

theorem token_stack (dec : Decoder) (t : Token) (d1 : Decoder) (h : dec.Token = .ok (t, d1)) :
    (∀ se, t = .StartElement se → d1.stack = se.Name :: dec.stack) ∧
    (∀ n, t = .EndElement n → dec.stack = n :: d1.stack) ∧
    (isMisc t = true → d1.stack = dec.stack) := by
  obtain ⟨input, bad, stack⟩ := dec
  cases input with
  | nil => simp [Decoder.Token] at h
  | cons u rest =>
    cases u with
    | EndElement n =>
      cases stack with
      | nil => simp [Decoder.Token] at h
      | cons top st =>
        by_cases htop : top = n
        · simp only [Decoder.Token, htop, if_true, Except.ok.injEq, Prod.mk.injEq] at h
          obtain ⟨h1, h2⟩ := h
          subst h1 h2
          exact ⟨fun se e => (by cases e), fun m e => (by cases e; rw [htop]), fun e => (by cases e)⟩
        · simp [Decoder.Token, htop] at h
    | StartElement se =>
      simp only [Decoder.Token, Except.ok.injEq, Prod.mk.injEq] at h
      obtain ⟨h1, h2⟩ := h
      subst h1 h2
      exact ⟨fun se e => (by cases e; rfl), fun m e => (by cases e), fun e => (by cases e)⟩
    | CharData d =>
      simp only [Decoder.Token, Except.ok.injEq, Prod.mk.injEq] at h
      obtain ⟨h1, h2⟩ := h
      subst h1 h2
      exact ⟨fun se e => (by cases e), fun m e => (by cases e), fun _ => rfl⟩
    | Comment d =>
      simp only [Decoder.Token, Except.ok.injEq, Prod.mk.injEq] at h
      obtain ⟨h1, h2⟩ := h
      subst h1 h2
      exact ⟨fun se e => (by cases e), fun m e => (by cases e), fun _ => rfl⟩
    | ProcInst a b =>
      simp only [Decoder.Token, Except.ok.injEq, Prod.mk.injEq] at h
      obtain ⟨h1, h2⟩ := h
      subst h1 h2
      exact ⟨fun se e => (by cases e), fun m e => (by cases e), fun _ => rfl⟩
    | Directive d =>
      simp only [Decoder.Token, Except.ok.injEq, Prod.mk.injEq] at h
      obtain ⟨h1, h2⟩ := h
      subst h1 h2
      exact ⟨fun se e => (by cases e), fun m e => (by cases e), fun _ => rfl⟩

/-- The loop of `parseXMLElement` against the token source: it returns a value exactly when
the source reaches the end element of the open element, and then the decoder is just after
that end element; otherwise it returns the error on which the source stops. -/
theorem loop_close : ∀ (fuel : Nat) (dec : Decoder) (se : StartElement) (children : Mapping)
    (hc : Bool) (text : String) (st : List Name),
    dec.stack = se.Name :: st → dec.input.length < fuel →
    (∃ v d2, parseXMLElementLoop fuel dec se children hc text = some (.ok (v, d2)) ∧
      dec.closeAt (st.length + 1) = some d2 ∧ d2.stack = st) ∨
    (parseXMLElementLoop fuel dec se children hc text = some (.error dec.streamError) ∧
      dec.closeAt (st.length + 1) = none) := by
  intro fuel
  induction fuel with
  | zero => intro dec se children hc text st _ h; omega
  | succ f ih =>
    intro dec se children hc text st hst hlen
    rw [parseXMLElementLoop]
    cases ht : dec.Token with
    | error e =>
      right
      exact ⟨by rw [streamError_of_error dec e ht], closeAt_of_error _ dec e ht⟩
    | ok p =>
      obtain ⟨t, dec1⟩ := p
      have hl := token_length dec t dec1 ht
      obtain ⟨hsS, hsE, hsM⟩ := token_stack dec t dec1 ht
      rw [closeAt_of_ok _ dec t dec1 ht, streamError_of_ok dec t dec1 ht]
      cases t with
      | StartElement t =>
        have hs1 : dec1.stack = t.Name :: (se.Name :: st) := by rw [hsS t rfl, hst]
        have hnl : ¬ dec1.stack.length < st.length + 1 := by rw [hs1]; simp
        simp only [hnl, if_false]
        rcases ih dec1 t [] false "" (se.Name :: st) hs1 (by omega) with
          ⟨v1, d2, h1, hc1, hs2⟩ | ⟨h1, hc1⟩
        · simp only [h1]
          have hc1' : dec1.closeAt (st.length + 1 + 1) = some d2 := by simpa using hc1
          have hd2 : d2.input.length < dec1.input.length := by
            obtain ⟨r, hr, hlt⟩ := parseXMLElementLoop_total f dec1 t [] false "" (by omega)
            rw [h1] at hr
            simp only [Option.some.injEq] at hr
            exact hlt v1 d2 hr.symm
          have hk : ¬ d2.stack.length < st.length + 1 := by rw [hs2]; simp
          rw [closeAt_compose (st.length + 1) _ dec1 d2 rfl hc1' hk,
            closeAt_streamError _ _ dec1 d2 rfl hc1']
          exact ih d2 se _ true text st hs2 (by omega)
        · right
          simp only [h1]
          have hc1' : dec1.closeAt (st.length + 1 + 1) = none := by simpa using hc1
          exact ⟨trivial, closeAt_weaken (st.length + 1) _ dec1 rfl hc1'⟩
      | EndElement n =>
        have hs := hsE n rfl
        have hn : n = se.Name := by
          rw [hst] at hs
          exact ((List.cons.injEq _ _ _ _).mp hs).1.symm
        have hs1 : dec1.stack = st := by
          rw [hst] at hs
          exact ((List.cons.injEq _ _ _ _).mp hs).2.symm
        left
        cases hc
        · exact ⟨.str text, dec1, by simp [hn], by simp [hs1], hs1⟩
        · exact ⟨.map children, dec1, by simp [hn], by simp [hs1], hs1⟩
      | CharData c =>
        have hs := hsM rfl
        have hnl : ¬ dec1.stack.length < st.length + 1 := by rw [hs, hst]; simp
        simp only [hnl, if_false]
        exact ih dec1 se children hc _ st (by rw [hs, hst]) (by omega)
      | Comment c =>
        have hs := hsM rfl
        have hnl : ¬ dec1.stack.length < st.length + 1 := by rw [hs, hst]; simp
        simp only [hnl, if_false]
        exact ih dec1 se children hc _ st (by rw [hs, hst]) (by omega)
      | ProcInst a b =>
        have hs := hsM rfl
        have hnl : ¬ dec1.stack.length < st.length + 1 := by rw [hs, hst]; simp
        simp only [hnl, if_false]
        exact ih dec1 se children hc _ st (by rw [hs, hst]) (by omega)
      | Directive c =>
        have hs := hsM rfl
        have hnl : ¬ dec1.stack.length < st.length + 1 := by rw [hs, hst]; simp
        simp only [hnl, if_false]
        exact ih dec1 se children hc _ st (by rw [hs, hst]) (by omega)

/-- The loop of `parseXMLElement` passes on the error of the token source: an error that it
returns is the error on which the source stops, and a decoder that it returns is one that
the source reaches. -/
theorem loop_streamError : ∀ (fuel : Nat) (dec : Decoder) (se : StartElement)
    (children : Mapping) (hc : Bool) (text : String),
    (∀ e, parseXMLElementLoop fuel dec se children hc text = some (.error e) →
      e = dec.streamError) ∧
    (∀ v d2, parseXMLElementLoop fuel dec se children hc text = some (.ok (v, d2)) →
      d2.streamError = dec.streamError) := by
  intro fuel
  induction fuel with
  | zero =>
    intro dec se children hc text
    exact ⟨fun e h => by simp [parseXMLElementLoop] at h,
      fun v d2 h => by simp [parseXMLElementLoop] at h⟩
  | succ f ih =>
    intro dec se children hc text
    rw [parseXMLElementLoop]
    cases ht : dec.Token with
    | error e0 =>
      rw [streamError_of_error dec e0 ht]
      exact ⟨fun e h => by simp only [Option.some.injEq, Except.error.injEq] at h; exact h.symm,
        fun v d2 h => by simp at h⟩
    | ok p =>
      obtain ⟨t, dec1⟩ := p
      rw [streamError_of_ok dec t dec1 ht]
      cases t with
      | StartElement t =>
        simp only
        obtain ⟨i1, i2⟩ := ih dec1 t [] false ""
        cases hin : parseXMLElementLoop f dec1 t [] false "" with
        | none => exact ⟨fun e h => by simp at h, fun v d2 h => by simp at h⟩
        | some r =>
          cases r with
          | error e1 =>
            have := i1 e1 hin
            exact ⟨fun e h => by
              simp only [Option.some.injEq, Except.error.injEq] at h
              rw [← h]; exact this, fun v d2 h => by simp at h⟩
          | ok q =>
            obtain ⟨v1, d3⟩ := q
            have h3 := i2 v1 d3 hin
            obtain ⟨j1, j2⟩ := ih d3 se (setKey t.Name.Local v1 children) true text
            simp only
            rw [← h3]
            exact ⟨j1, j2⟩
      | EndElement n =>
        simp only
        by_cases hn : n = se.Name
        · cases hc
          · exact ⟨fun e h => by simp [hn] at h, fun v d2 h => by
              simp only [hn, if_true, Bool.false_eq_true, if_false, Option.some.injEq,
                Except.ok.injEq, Prod.mk.injEq] at h
              rw [h.2]⟩
          · exact ⟨fun e h => by simp [hn] at h, fun v d2 h => by
              simp only [hn, if_true, Option.some.injEq, Except.ok.injEq,
                Prod.mk.injEq] at h
              rw [h.2]⟩
        · simp only [hn, if_false]
          exact ih dec1 se children hc text
      | CharData c => exact ih dec1 se children hc _
      | Comment c => exact ih dec1 se children hc text
      | ProcInst a b => exact ih dec1 se children hc text
      | Directive c => exact ih dec1 se children hc text

theorem parseXMLElement_error (dec : Decoder) (se : StartElement) (e : XmlErr)
    (h : parseXMLElement dec se = .error e) : e = dec.streamError := by
  have ht := parseXMLElement_total dec se
  rw [h] at ht
  exact (loop_streamError _ dec se [] false "").1 e ht

theorem parseXMLElement_unclosed (dec : Decoder) (se : StartElement) (st : List Name)
    (hst : dec.stack = se.Name :: st) (hc : dec.closeAt (st.length + 1) = none) :
    parseXMLElement dec se = .error dec.streamError := by
  rcases loop_close (dec.input.length + 1) dec se [] false "" st hst (Nat.lt_succ_self _) with
    ⟨v, d2, _, h2, _⟩ | ⟨h1, _⟩
  · rw [hc] at h2; cases h2
  · rw [parseXMLElement, h1]

/-- The loop of `parseXML` against the token source. -/
theorem parseXMLLoop_errors : ∀ (fuel : Nat) (dec : Decoder), dec.input.length < fuel →
    (parseXMLLoop fuel dec = some (.error .emptyDocument) ↔
      (dec.streamError = .eof ∧ ∀ se, Token.StartElement se ∉ dec.input)) ∧
    (∀ e, parseXMLLoop fuel dec = some (.error (.token e)) → e = dec.streamError) := by
  intro fuel
  induction fuel with
  | zero => intro dec h; omega
  | succ f ih =>
    intro dec hlen
    rw [parseXMLLoop]
    cases ht : dec.Token with
    | error e0 =>
      rw [streamError_of_error dec e0 ht]
      cases e0 with
      | eof =>
        have hin := token_eof dec ht
        exact ⟨⟨fun _ => ⟨rfl, fun se hm => by rw [hin] at hm; cases hm⟩, fun _ => rfl⟩,
          fun e h => by simp at h⟩
      | malformed =>
        exact ⟨⟨fun h => by simp at h, fun h => by cases h.1⟩, fun e h => by
          simp only [Option.some.injEq, Except.error.injEq, ParseErr.token.injEq] at h
          exact h.symm⟩
    | ok p =>
      obtain ⟨t, dec1⟩ := p
      have hl := token_length dec t dec1 ht
      have hi := token_input dec t dec1 ht
      rw [streamError_of_ok dec t dec1 ht]
      obtain ⟨i1, i2⟩ := ih dec1 (by omega)
      have hskip : ∀ u : Token, (∀ se, u ≠ .StartElement se) → dec.input = u :: dec1.input →
          ((dec1.streamError = .eof ∧ ∀ se, Token.StartElement se ∉ dec1.input) ↔
            (dec1.streamError = .eof ∧ ∀ se, Token.StartElement se ∉ dec.input)) := by
        intro u hu hin
        rw [hin]
        constructor
        · intro h
          exact ⟨h.1, fun se hm => by
            rcases List.mem_cons.1 hm with h1 | h1
            · exact hu se h1.symm
            · exact h.2 se h1⟩
        · intro h
          exact ⟨h.1, fun se hm => h.2 se (List.mem_cons_of_mem _ hm)⟩
      cases t with
      | StartElement t =>
        simp only
        have hmem : Token.StartElement t ∈ dec.input := by rw [hi]; exact List.mem_cons_self _ _
        cases hp : parseXMLElement dec1 t with
        | error e1 =>
          have := parseXMLElement_error dec1 t e1 hp
          exact ⟨⟨fun h => by simp at h, fun h => absurd hmem (h.2 t)⟩, fun e h => by
            simp only [Option.some.injEq, Except.error.injEq, ParseErr.token.injEq] at h
            rw [← h]; exact this⟩
        | ok q =>
          exact ⟨⟨fun h => by simp at h, fun h => absurd hmem (h.2 t)⟩, fun e h => by simp at h⟩
      | EndElement n =>
        exact ⟨i1.trans (hskip _ (fun se h => by cases h) hi), i2⟩
      | CharData c => exact ⟨i1.trans (hskip _ (fun se h => by cases h) hi), i2⟩
      | Comment c => exact ⟨i1.trans (hskip _ (fun se h => by cases h) hi), i2⟩
      | ProcInst a b => exact ⟨i1.trans (hskip _ (fun se h => by cases h) hi), i2⟩
      | Directive c => exact ⟨i1.trans (hskip _ (fun se h => by cases h) hi), i2⟩

/-- What `parseXML` does at the first start element, the tokens before it being neither start
nor end elements: it calls `parseXMLElement` and wraps its value, or passes on its error. -/
theorem parseXML_first (pre : List Token) (se : StartElement) (body : List Token) (bad : Bool)
    (hpre : ∀ t ∈ pre, isMisc t = true) :
    parseXML ⟨pre ++ .StartElement se :: body, bad, []⟩ =
      match parseXMLElement ⟨body, bad, [se.Name]⟩ se with
      | .error err => .error (.token err)
      | .ok (content, _) => .ok [(se.Name.Local, content)] := by
  have hlen : (pre ++ Token.StartElement se :: body).length + 1 =
      pre.length + ((Token.StartElement se :: body).length + 1) := by
    simp; omega
  rw [parseXML]
  simp only [hlen, parseXMLLoop_skip pre hpre]
  simp only [List.length_cons, parseXMLLoop, Decoder.Token]
  cases parseXMLElement ⟨body, bad, [se.Name]⟩ se with
  | error e => rfl
  | ok q => rfl

/-- C11: `parseXML` fails with the error `empty XML document` exactly when the token source
stops on `io.EOF` and returns no start element before; every other error of `parseXML`,
and every error of `parseXMLElement`, is the error on which the token source stops; and when
the source ends or reports a syntax error before the end element of the open element, then
`parseXMLElement` fails with that error, and so does `parseXML` for the first element of a
document, returning no tree. -/
theorem C11_parse_errors_are_the_token_errors :
    (∀ dec : Decoder, parseXML dec = .error .emptyDocument ↔
      (dec.streamError = .eof ∧ ∀ se, Token.StartElement se ∉ dec.input)) ∧
    (∀ (dec : Decoder) (e : XmlErr), parseXML dec = .error (.token e) → e = dec.streamError) ∧
    (∀ (dec : Decoder) (se : StartElement) (e : XmlErr),
      parseXMLElement dec se = .error e → e = dec.streamError) ∧
    (∀ (dec : Decoder) (se : StartElement) (st : List Name), dec.stack = se.Name :: st →
      dec.closeAt (st.length + 1) = none → parseXMLElement dec se = .error dec.streamError) ∧
    (∀ (pre : List Token) (se : StartElement) (body : List Token) (bad : Bool),
      (∀ t ∈ pre, isMisc t = true) → (Decoder.mk body bad [se.Name]).closeAt 1 = none →
      parseXML ⟨pre ++ .StartElement se :: body, bad, []⟩ =
        .error (.token (Decoder.mk body bad [se.Name]).streamError)) := by
  refine ⟨?_, ?_, parseXMLElement_error, parseXMLElement_unclosed, ?_⟩
  · intro dec
    have h := (parseXMLLoop_errors _ dec (Nat.lt_succ_self _)).1
    rw [parseXML_total] at h
    simpa using h
  · intro dec e he
    have h := (parseXMLLoop_errors _ dec (Nat.lt_succ_self _)).2 e
    rw [parseXML_total] at h
    exact h (by rw [he])
  · intro pre se body bad hpre hc
    rw [parseXML_first pre se body bad hpre,
      parseXMLElement_unclosed ⟨body, bad, [se.Name]⟩ se [] rfl hc]

/-- The errors of `parseXML` on sample documents: a document of a comment and white space is
empty; `<a><b>x`, which ends while elements are open, and `<a><b>x</a>`, whose end element
does not match, fail with the syntax error of the token source; and so does a text from
which the tokenizer gets nothing. -/
theorem parseXML_error_samples :
    parseXML ⟨[.Comment "c", .CharData "\n"], false, []⟩ = .error .emptyDocument ∧
    parseXML ⟨[], false, []⟩ = .error .emptyDocument ∧
    parseXML ⟨cutShort, false, []⟩ = .error (.token .malformed) ∧
    (Decoder.mk cutShort.tail false [(tag "a").Name]).closeAt 1 = none ∧
    parseXML ⟨crossed, false, []⟩ = .error (.token .malformed) ∧
    parseXML ⟨[], true, []⟩ = .error (.token .malformed) :=
  ⟨rfl, rfl, rfl, rfl, rfl, rfl⟩

/-- What `loadStructureFromFile` accepts, format by format: a JSON text exactly when it
decodes to an object, an XML text exactly when `parseXML` succeeds, and a YAML text never. -/
theorem load_accepts (c : Codecs) (content : String) (m : Mapping) :
    (detectFormat (sniff content) = some .json →
      (loadStructureFromFile c content = .ok m ↔ c.jsonDecode content = .ok (.map m))) ∧
    (detectFormat (sniff content) = some .xml →
      (loadStructureFromFile c content = .ok m ↔ parseXML (c.xmlDecoder content) = .ok m)) ∧
    (detectFormat (sniff content) = some .yaml → loadStructureFromFile c content ≠ .ok m) ∧
    (detectFormat (sniff content) = some .yaml → ∀ v, c.yamlUnmarshal content = .ok v →
      loadStructureFromFile c content = .error .notAMap) := by
  refine ⟨?_, ?_, ?_, ?_⟩
  · intro hd
    simp only [loadStructureFromFile, hd, decodeBy]
    cases hj : c.jsonDecode content with
    | error msg => simp
    | ok v => cases v <;> simp [Decoded.asMapping]
  · intro hd
    simp only [loadStructureFromFile, hd, decodeBy]
    cases hp : parseXML (c.xmlDecoder content) with
    | error e => simp
    | ok m2 => simp [Decoded.asMapping]
  · intro hd
    simp only [loadStructureFromFile, hd, decodeBy]
    cases hy : c.yamlUnmarshal content with
    | error msg => simp
    | ok v => simp [Decoded.asMapping]
  · intro hd v hv
    simp only [loadStructureFromFile, hd, decodeBy, hv, Decoded.asMapping]

/-- C13 at the YAML text of a mapping: the detector selects YAML, the decoder returns the
mapping, and `loadStructureFromFile` fails with `structure is not a map`, while it accepts
the JSON object and the XML document of the same tree. -/
theorem C13_yaml_mapping_is_rejected :
    detectFormat (sniff yamlName) = some .yaml ∧
    sampleCodecs.yamlUnmarshal yamlName =
      .ok (.map [(.str "myapp", .map [(.str "name", .str "demo")])]) ∧
    loadStructureFromFile sampleCodecs yamlName = .error .notAMap ∧
    loadStructureFromFile sampleCodecs jsonName = .ok [("myapp", .map [("name", .str "demo")])] ∧
    loadStructureFromFile sampleCodecs xmlName = .ok [("myapp", .map [("name", .str "demo")])] :=
  ⟨by decide, rfl, rfl, rfl, rfl⟩

/-- C12, as the claim has it, fails on the three texts of the tree of `myapp` with the entry
`debug` set to true: from JSON the leaf is the boolean, from XML it is the string `true`,
and from YAML nothing is returned. It fails as well on the XML text
`<myapp><url>http://x</url></myapp>`: the text holds a `:`, so it is given to the YAML
decoder, and whatever the library decoders return, no tree is returned for it. -/
theorem C12_formats_disagree_counterexample :
    loadStructureFromFile sampleCodecs jsonFlag = .ok [("myapp", .map [("debug", .bool true)])] ∧
    loadStructureFromFile sampleCodecs xmlFlag = .ok [("myapp", .map [("debug", .str "true")])] ∧
    loadStructureFromFile sampleCodecs yamlFlag = .error .notAMap ∧
    loadStructureFromFile sampleCodecs jsonFlag ≠ loadStructureFromFile sampleCodecs xmlFlag ∧
    loadStructureFromFile sampleCodecs jsonFlag ≠ loadStructureFromFile sampleCodecs yamlFlag ∧
    detectFormat (sniff xmlUrl) = some .yaml ∧
    (∀ (c : Codecs) (m : Mapping), loadStructureFromFile c xmlUrl ≠ .ok m) := by
  have hurl : detectFormat (sniff xmlUrl) = some .yaml := by decide
  have hj : loadStructureFromFile sampleCodecs jsonFlag =
      .ok [("myapp", .map [("debug", .bool true)])] := rfl
  have hx : loadStructureFromFile sampleCodecs xmlFlag =
      .ok [("myapp", .map [("debug", .str "true")])] := rfl
  have hy : loadStructureFromFile sampleCodecs yamlFlag = .error .notAMap := rfl
  refine ⟨hj, hx, hy, ?_, ?_, hurl, fun c m => (load_accepts c xmlUrl m).2.2.1 hurl⟩
  · rw [hj, hx]
    intro h
    injection h with h
    injection h with h _
    injection h with _ h
    injection h with h
    injection h with h _
    injection h with _ h
    cases h
  · rw [hj, hy]
    intro h
    cases h

theorem childElements_xmlEntries : ∀ es : List (String × Value),
    childElements (xmlEntries es) =
      es.map fun e => ((⟨⟨"", e.1⟩, []⟩ : StartElement), xmlContent e.2) := by
  intro es
  induction es with
  | nil => rfl
  | cons e es ih =>
    obtain ⟨k, v⟩ := e
    simp [xmlEntries, childElements, ih]

theorem nodup_keys_of_all : ∀ es : List (String × Value),
    xmlEncodableAll es = true → (es.map Prod.fst).Nodup := by
  intro es
  induction es with
  | nil => intro _; exact List.nodup_nil
  | cons e es ih =>
    intro h
    obtain ⟨k, v⟩ := e
    simp only [xmlEncodableAll, Bool.and_eq_true, List.all_eq_true, decide_eq_true_eq] at h
    rw [List.map_cons, List.nodup_cons]
    refine ⟨?_, ih h.2⟩
    intro hm
    obtain ⟨e2, he2, hk⟩ := List.mem_map.1 hm
    exact h.1.1 e2 he2 hk

/-- The XML encoding decodes back: the element that encodes a value decodes to the value. -/
theorem elemValue_xmlContent : ∀ (n : Nat) (v : Value), sizeOf v ≤ n →
    xmlEncodable v = true → elemValue (xmlContent v) = v := by
  intro n
  induction n with
  | zero => intro v hn; cases v <;> simp at hn
  | succ n ih =>
    intro v hn hv
    cases v with
    | str s =>
      simp only [xmlEncodable, decide_eq_true_eq] at hv
      simp [xmlContent, elemValue, hasChildElement, trimmedText, hv]
    | map m =>
      simp only [xmlEncodable, Bool.and_eq_true, Bool.not_eq_true'] at hv
      obtain ⟨hne, hall⟩ := hv
      have hsz : sizeOf (Value.map m) = 1 + sizeOf m := Value.map.sizeOf_spec m
      have hc : hasChildElement (xmlEntries m) = true := by
        cases m with
        | nil => simp at hne
        | cons e es => obtain ⟨k, v⟩ := e; rfl
      have hkeys : ((childElements (xmlEntries m)).map fun c => c.1.Name.Local).Nodup := by
        rw [childElements_xmlEntries, List.map_map]
        exact nodup_keys_of_all m hall
      have hvals : ∀ es : List (String × Value), sizeOf es ≤ n → xmlEncodableAll es = true →
          (es.map fun e => (e.1, elemValue (xmlContent e.2))) = es := by
        intro es
        induction es with
        | nil => intro _ _; rfl
        | cons e es ihes =>
          intro hs he
          obtain ⟨k, v⟩ := e
          simp only [xmlEncodableAll, Bool.and_eq_true] at he
          have hs2 : sizeOf v + sizeOf es < sizeOf ((k, v) :: es) := by simp; omega
          rw [List.map_cons, ihes (by omega) he.2, ih v (by omega) he.1.2]
      have hm := childMap_distinct (xmlEntries m) [] (by simpa using hkeys)
      rw [xmlContent, elemValue, hc, hm, childElements_xmlEntries]
      simp only [if_true, List.nil_append, List.map_map]
      congr 1
      exact hvals m (by omega) hall
    | null => simp [xmlEncodable] at hv
    | bool b => simp [xmlEncodable] at hv
    | float x => simp [xmlEncodable] at hv
    | arr xs => simp [xmlEncodable] at hv

/-! ## The calls of the materializer -/

theorem runOps_append (l1 l2 : List Op) : ∀ fs : FS,
    runOps (l1 ++ l2) fs =
      match runOps l1 fs with
      | ⟨fs1, some e⟩ => ⟨fs1, some e⟩
      | ⟨fs1, none⟩ => runOps l2 fs1 := by
  induction l1 with
  | nil => intro fs; rfl
  | cons o os ih =>
    intro fs
    simp only [List.cons_append, runOps]
    cases o.run fs with
    | error e => rfl
    | ok fs1 => exact ih fs1

theorem writeEntry_eq_runOps (ff : Nat → String) (p : Path) (v : Value) (fs : FS) :
    writeEntry ff p v fs = runOps (writeOps ff p v) fs := by
  simp only [writeEntry, writeOps, runOps, Op.run]

/-- The materializer is the run of its calls: `createStructure` and its loop body return what
the run of their calls returns. -/
theorem createStructure_eq_runOps (ff : Nat → String) : ∀ (n : Nat),
    (∀ (v : Value) (name : String) (base : Path) (fs : FS), sizeOf v ≤ n →
      createEntry ff name v base fs = runOps (entryOps ff name v base) fs) ∧
    (∀ (es : List (String × Value)) (base : Path) (fs : FS), sizeOf es ≤ n →
      createStructure ff es base fs = runOps (treeOps ff es base) fs) := by
  intro n
  induction n with
  | zero =>
    exact ⟨fun v _ _ _ h => by cases v <;> simp at h, fun es _ _ h => by cases es <;> simp at h⟩
  | succ n ih =>
    obtain ⟨ihv, ihs⟩ := ih
    have hentry : ∀ (v : Value) (name : String) (base : Path) (fs : FS), sizeOf v ≤ n + 1 →
        createEntry ff name v base fs = runOps (entryOps ff name v base) fs := by
      intro v name base fs hn
      cases v with
      | map m =>
        have hm : sizeOf (Value.map m) = 1 + sizeOf m := Value.map.sizeOf_spec m
        rw [createEntry, entryOps]
        by_cases hat : hasAtKey m = true
        · simp only [hat, if_true]
          exact writeEntry_eq_runOps ff _ _ fs
        · simp only [hat, if_false, Bool.false_eq_true, runOps, Op.run]
          cases mkdirAll fs (join base name) with
          | error e => rfl
          | ok fs1 => exact ihs m _ fs1 (by omega)
      | null => rw [createEntry, entryOps]; exact writeEntry_eq_runOps ff _ _ fs
      | bool b => rw [createEntry, entryOps]; exact writeEntry_eq_runOps ff _ _ fs
      | float x => rw [createEntry, entryOps]; exact writeEntry_eq_runOps ff _ _ fs
      | str s => rw [createEntry, entryOps]; exact writeEntry_eq_runOps ff _ _ fs
      | arr xs => rw [createEntry, entryOps]; exact writeEntry_eq_runOps ff _ _ fs
    refine ⟨hentry, ?_⟩
    intro es
    induction es with
    | nil => intro base fs _; rfl
    | cons e rest ihr =>
      intro base fs hn
      obtain ⟨k, v⟩ := e
      have hsz : sizeOf v + sizeOf rest < sizeOf ((k, v) :: rest) := by simp; omega
      rw [createStructure, treeOps, runOps_append, hentry v k base fs (by omega)]
      cases runOps (entryOps ff k v base) fs with
      | mk fs1 e1 =>
        cases e1 with
        | none => exact ihr base fs1 (by omega)
        | some e => rfl

theorem createStructure_runOps (ff : Nat → String) (es : List (String × Value)) (base : Path)
    (fs : FS) : createStructure ff es base fs = runOps (treeOps ff es base) fs :=
  (createStructure_eq_runOps ff (sizeOf es)).2 es base fs (le_refl _)

theorem createEntry_runOps (ff : Nat → String) (name : String) (v : Value) (base : Path)
    (fs : FS) : createEntry ff name v base fs = runOps (entryOps ff name v base) fs :=
  (createStructure_eq_runOps ff (sizeOf v)).1 v name base fs (le_refl _)

theorem mkdirAll_inv (fs : FS) (p : Path) (fs1 : FS) (h : mkdirAll fs p = .ok fs1) :
    (∀ q, q <+: fs.abs p → isFileNode (fs.node q) = false) ∧ fs1 = Op.force fs (.mkdir p) := by
  unfold mkdirAll at h
  simp only at h
  split at h
  · cases h
  · rename_i hany
    simp only [Except.ok.injEq] at h
    refine ⟨?_, h.symm⟩
    intro q hq
    rw [Bool.not_eq_true, List.any_eq_false] at hany
    have := hany q ((List.mem_inits _ _).2 hq)
    simpa using this

theorem writeFile_inv (fs : FS) (p : Path) (c : String) (fs1 : FS)
    (h : writeFile fs p c = .ok fs1) :
    fs.node (fs.abs p) ≠ some .dir ∧ fs.node (fs.abs p).dropLast = some .dir ∧
      fs1 = Op.force fs (.write p c) := by
  unfold writeFile at h
  simp only at h
  split at h
  · cases h
  · rename_i hnd
    split at h
    · rename_i hpar
      simp only [Except.ok.injEq] at h
      exact ⟨fun hd => hnd hd, hpar, h.symm⟩
    · cases h
    · cases h

theorem run_force (fs : FS) (o : Op) (fs1 : FS) (h : o.run fs = .ok fs1) : fs1 = o.force fs := by
  cases o with
  | mkdir p => exact (mkdirAll_inv fs p fs1 h).2
  | write p c => exact (writeFile_inv fs p c fs1 h).2.2

theorem force_cwd (fs : FS) (o : Op) : (o.force fs).cwd = fs.cwd := by
  cases o <;> rfl

theorem run_cwd (fs : FS) (o : Op) (fs1 : FS) (h : o.run fs = .ok fs1) : fs1.cwd = fs.cwd := by
  rw [run_force fs o fs1 h, force_cwd]

/-- A call that succeeds removes nothing: a directory stays a directory, and a file stays a
file, with its content unless the call writes it. -/
theorem run_keeps (fs : FS) (o : Op) (fs1 : FS) (h : o.run fs = .ok fs1) (q : List String) :
    (fs.node q = some .dir → fs1.node q = some .dir) ∧
    (∀ c, fs.node q = some (.file c) →
      fs1.node q = some (.file c) ∨ ∃ p c2, o = .write p c2 ∧ q = fs.abs p ∧
        fs1.node q = some (.file c2)) := by
  cases o with
  | mkdir p =>
    obtain ⟨hinv, hf⟩ := mkdirAll_inv fs p fs1 h
    subst hf
    constructor
    · intro hd
      show (if q.isPrefixOf (fs.abs p) then some FNode.dir else fs.node q) = _
      split
      · rfl
      · exact hd
    · intro c hc
      left
      show (if q.isPrefixOf (fs.abs p) then some FNode.dir else fs.node q) = _
      split
      · rename_i hp
        have := hinv q (List.isPrefixOf_iff_prefix.1 hp)
        rw [hc] at this
        cases this
      · exact hc
  | write p c0 =>
    obtain ⟨hnd, _, hf⟩ := writeFile_inv fs p c0 fs1 h
    subst hf
    constructor
    · intro hd
      show (if q = fs.abs p then some (FNode.file c0) else fs.node q) = _
      split
      · rename_i hq
        rw [hq] at hd
        exact absurd hd hnd
      · exact hd
    · intro c hc
      by_cases hq : q = fs.abs p
      · right
        exact ⟨p, c0, rfl, hq, by
          show (if q = fs.abs p then some (FNode.file c0) else fs.node q) = _
          rw [if_pos hq]⟩
      · left
        show (if q = fs.abs p then some (FNode.file c0) else fs.node q) = _
        rw [if_neg hq]
        exact hc

/-- A run of calls removes nothing, whether it ends on an error or not. -/
theorem runOps_keeps (l : List Op) : ∀ (fs : FS) (q : List String),
    (runOps l fs).fs.cwd = fs.cwd ∧
    (fs.node q = some .dir → (runOps l fs).fs.node q = some .dir) ∧
    (∀ c, fs.node q = some (.file c) → ∃ c2, (runOps l fs).fs.node q = some (.file c2)) := by
  induction l with
  | nil => intro fs q; exact ⟨rfl, fun h => h, fun c h => ⟨c, h⟩⟩
  | cons o os ih =>
    intro fs q
    rw [runOps]
    cases ho : o.run fs with
    | error e => exact ⟨rfl, fun h => h, fun c h => ⟨c, h⟩⟩
    | ok fs1 =>
      obtain ⟨k1, k2⟩ := run_keeps fs o fs1 ho q
      obtain ⟨i0, i1, i2⟩ := ih fs1 q
      refine ⟨i0.trans (run_cwd fs o fs1 ho), fun h => i1 (k1 h), fun c h => ?_⟩
      rcases k2 c h with h1 | ⟨p, c2, _, _, h1⟩
      · exact i2 c h1
      · exact i2 c2 h1

theorem treeOps_append (ff : Nat → String) (l1 l2 : List (String × Value)) (base : Path) :
    treeOps ff (l1 ++ l2) base = treeOps ff l1 base ++ treeOps ff l2 base := by
  induction l1 with
  | nil => simp [treeOps]
  | cons x xs ih =>
    obtain ⟨k1, v1⟩ := x
    rw [List.cons_append, treeOps, treeOps, ih, List.append_assoc]

/-- C18: `createStructure` is the run of its calls to the filesystem, one after the other;
the run stops at the first call that fails and returns its error with the state reached
before it, whatever calls would follow. So when the loop body fails for an entry, after the
entries before it succeeded, `createStructure` returns that error and the state of the
failure whatever entries follow, and a failure inside a nested mapping is the failure of its
entry; and the state that `createStructure` returns holds every directory and every file
of the state before. -/
theorem C18_first_failure_stops_the_run (ff : Nat → String) :
    (∀ (es : List (String × Value)) (base : Path) (fs : FS),
      createStructure ff es base fs = runOps (treeOps ff es base) fs) ∧
    (∀ (l1 l2 : List Op) (o : Op) (fs fs1 : FS) (e : FsErr),
      runOps l1 fs = ⟨fs1, none⟩ → o.run fs1 = .error e →
      runOps (l1 ++ o :: l2) fs = ⟨fs1, some e⟩) ∧
    (∀ (pre post : List (String × Value)) (k : String) (v : Value) (base : Path)
      (fs fs1 fs2 : FS) (e : FsErr),
      createStructure ff pre base fs = ⟨fs1, none⟩ →
      createEntry ff k v base fs1 = ⟨fs2, some e⟩ →
      createStructure ff (pre ++ (k, v) :: post) base fs = ⟨fs2, some e⟩) ∧
    (∀ (k : String) (m : List (String × Value)) (base : Path) (fs fs1 fs2 : FS) (e : FsErr),
      hasAtKey m = false → mkdirAll fs (join base k) = .ok fs1 →
      createStructure ff m (join base k) fs1 = ⟨fs2, some e⟩ →
      createEntry ff k (.map m) base fs = ⟨fs2, some e⟩) ∧
    (∀ (es : List (String × Value)) (base : Path) (fs : FS) (q : List String),
      (fs.node q = some .dir → (createStructure ff es base fs).fs.node q = some .dir) ∧
      (∀ c, fs.node q = some (.file c) →
        ∃ c2, (createStructure ff es base fs).fs.node q = some (.file c2))) := by
  refine ⟨createStructure_runOps ff, ?_, ?_, ?_, ?_⟩
  · intro l1 l2 o fs fs1 e h1 ho
    rw [runOps_append, h1]
    simp only [runOps, ho]
  · intro pre post k v base fs fs1 fs2 e h1 h2
    have hsplit : treeOps ff (pre ++ (k, v) :: post) base =
        treeOps ff pre base ++ (entryOps ff k v base ++ treeOps ff post base) := by
      rw [treeOps_append, treeOps]
    rw [createStructure_runOps] at h1 ⊢
    rw [createEntry_runOps] at h2
    rw [hsplit, runOps_append, h1]
    simp only
    rw [runOps_append, h2]
  · intro k m base fs fs1 fs2 e hat hm hc
    rw [createEntry]
    simp only [hat, Bool.false_eq_true, if_false, hm, hc]
  · intro es base fs q
    rw [createStructure_runOps]
    exact (runOps_keeps _ fs q).2

/-- The tree of the files `a`, `a/b` and `c`, materialized in the empty directory `myapp`:
`a` is written, `a/b` fails because `a` is a file, `createStructure` returns that error,
the file `a` is still there, and `c` was not made. -/
theorem blocked_sample :
    (createStructure noFloat blocked ["myapp"] fsProject).err = some .notDir ∧
    (createStructure noFloat blocked ["myapp"] fsProject).fs.node ["w", "myapp", "a"] =
      some (.file "x") ∧
    (createStructure noFloat blocked ["myapp"] fsProject).fs.node ["w", "myapp", "c"] = none :=
  ⟨rfl, rfl, rfl⟩

theorem FS.eq_of (a b : FS) (h1 : a.cwd = b.cwd) (h2 : ∀ q, a.node q = b.node q) : a = b := by
  obtain ⟨c1, n1⟩ := a
  obtain ⟨c2, n2⟩ := b
  simp only at h1 h2
  subst h1
  have : n1 = n2 := funext h2
  subst this
  rfl

theorem runOps_cons_ok (o : Op) (os : List Op) (fs fs2 : FS)
    (h : runOps (o :: os) fs = ⟨fs2, none⟩) :
    ∃ fs1, o.run fs = .ok fs1 ∧ runOps os fs1 = ⟨fs2, none⟩ := by
  rw [runOps] at h
  cases ho : o.run fs with
  | error e => rw [ho] at h; cases h
  | ok fs1 => rw [ho] at h; exact ⟨fs1, rfl, h⟩

theorem isFile_of (x : Option FNode) (h : isFileNode x = true) : ∃ c, x = some (.file c) := by
  cases x with
  | none => cases h
  | some n =>
    cases n with
    | dir => cases h
    | file c => exact ⟨c, rfl⟩

/-- A file that no write of a successful run names keeps its content. -/
theorem runOps_keeps_content (l : List Op) : ∀ (fs fs2 : FS) (q : List String) (c : String),
    runOps l fs = ⟨fs2, none⟩ → fs.node q = some (.file c) →
    (∀ p c2, Op.write p c2 ∈ l → q ≠ fs.abs p) → fs2.node q = some (.file c) := by
  induction l with
  | nil =>
    intro fs fs2 q c h hq _
    simp only [runOps, Outcome.mk.injEq, and_true] at h
    rw [← h]; exact hq
  | cons o os ih =>
    intro fs fs2 q c h hq hno
    obtain ⟨fs1, ho, hr⟩ := runOps_cons_ok o os fs fs2 h
    have hcwd := run_cwd fs o fs1 ho
    have h1 : fs1.node q = some (.file c) := by
      rcases (run_keeps fs o fs1 ho q).2 c hq with h1 | ⟨p, c2, ho2, hq2, _⟩
      · exact h1
      · exact absurd hq2 (hno p c2 (by rw [ho2]; exact List.mem_cons_self _ _))
    exact ih fs1 fs2 q c hr h1 (fun p c2 hm => by
      rw [abs_congr fs1 fs hcwd]
      exact hno p c2 (List.mem_cons_of_mem _ hm))

/-- The calls of a successful run, made again in a state of the shape of the final state,
succeed again, and only the writes change that state. -/
theorem runOps_again (l : List Op) : ∀ (s s2 t : FS), runOps l s = ⟨s2, none⟩ →
    SameShape t s2 → s.cwd = s2.cwd → runOps l t = ⟨applyWrites l t, none⟩ := by
  induction l with
  | nil => intro s s2 t _ _ _; rfl
  | cons o os ih =>
    intro s s2 t h hshape hcwd
    obtain ⟨s1, ho, hr⟩ := runOps_cons_ok o os s s2 h
    have hc1 := run_cwd s o s1 ho
    have hts : t.cwd = s.cwd := hshape.1.trans hcwd.symm
    have hkeep := fun q => (runOps_keeps os s1 q).2
    rw [hr] at hkeep
    simp only at hkeep
    cases o with
    | mkdir p =>
      obtain ⟨hinv, hf⟩ := mkdirAll_inv s p s1 ho
      have hdir : ∀ q, q <+: s.abs p → t.node q = some .dir := by
        intro q hq
        have h1 : s1.node q = some .dir := by
          rw [hf]
          show (if q.isPrefixOf (s.abs p) then some FNode.dir else s.node q) = _
          rw [List.isPrefixOf_iff_prefix.2 hq]; rfl
        exact ((hshape.2 q).1).2 ((hkeep q).1 h1)
      have hrun : Op.run t (.mkdir p) = .ok t := by
        show mkdirAll t p = .ok t
        rw [mkdirAll_ok t p (fun q hq => by
          rw [abs_congr t s hts] at hq
          rw [hdir q hq]; rfl)]
        congr 1
        apply FS.eq_of
        · rfl
        intro q
        show (if q.isPrefixOf (t.abs p) then some FNode.dir else t.node q) = _
        split
        · rename_i hp
          rw [abs_congr t s hts] at hp
          exact (hdir q (List.isPrefixOf_iff_prefix.1 hp)).symm
        · rfl
      rw [runOps, hrun]
      simp only [applyWrites]
      exact ih s1 s2 t hr hshape (hc1.trans hcwd)
    | write p c =>
      obtain ⟨hnd, hpar, hf⟩ := writeFile_inv s p c s1 ho
      have habs : t.abs p = s.abs p := abs_congr t s hts p
      have h1 : s1.node (s.abs p) = some (.file c) := by
        rw [hf]
        show (if s.abs p = s.abs p then some (FNode.file c) else s.node (s.abs p)) = _
        rw [if_pos rfl]
      obtain ⟨c2, h2⟩ := (hkeep (s.abs p)).2 c h1
      have htf : isFileNode (t.node (s.abs p)) = true := by
        rw [(hshape.2 (s.abs p)).2, h2]; rfl
      obtain ⟨c3, h3⟩ := isFile_of _ htf
      have hpar1 : s1.node (s.abs p).dropLast = some .dir := by
        rw [hf]
        show (if (s.abs p).dropLast = s.abs p then some (FNode.file c)
          else s.node (s.abs p).dropLast) = _
        split
        · rename_i he
          rw [he] at hpar
          exact absurd hpar hnd
        · exact hpar
      have hpart : t.node (s.abs p).dropLast = some .dir :=
        ((hshape.2 _).1).2 ((hkeep _).1 hpar1)
      have hrun : Op.run t (.write p c) = .ok (Op.force t (.write p c)) := by
        show writeFile t p c = _
        rw [writeFile_ok t p c (by rw [habs, h3]; simp) (by rw [habs]; exact hpart)]
        rfl
      rw [runOps, hrun]
      simp only [applyWrites]
      apply ih s1 s2 (Op.force t (.write p c)) hr _ (hc1.trans hcwd)
      refine ⟨hshape.1, fun q => ?_⟩
      show ((if q = t.abs p then some (FNode.file c) else t.node q) = some FNode.dir ↔ _) ∧
        isFileNode (if q = t.abs p then some (FNode.file c) else t.node q) = _
      by_cases hq : q = t.abs p
      · rw [if_pos hq, hq, habs, h2]
        simp [isFileNode]
      · rw [if_neg hq]
        exact hshape.2 q

/-- After a successful run, the final state holds what the writes of the run wrote last. -/
theorem applyWrites_final (l : List Op) : ∀ (s s2 t : FS), runOps l s = ⟨s2, none⟩ →
    t.cwd = s2.cwd → s.cwd = s2.cwd →
    (∀ q, (∀ p c, Op.write p c ∈ l → q ≠ s.abs p) → t.node q = s2.node q) →
    applyWrites l t = s2 := by
  induction l with
  | nil =>
    intro s s2 t _ hc _ hq
    exact FS.eq_of _ _ hc (fun q => hq q (fun p c hm => by cases hm))
  | cons o os ih =>
    intro s s2 t h hct hcs hq
    obtain ⟨s1, ho, hr⟩ := runOps_cons_ok o os s s2 h
    have hc1 := run_cwd s o s1 ho
    cases o with
    | mkdir p =>
      rw [applyWrites]
      apply ih s1 s2 t hr hct (hc1.trans hcs)
      intro q hno
      apply hq q
      intro p2 c2 hm
      rcases List.mem_cons.1 hm with h1 | h1
      · cases h1
      · rw [← abs_congr s1 s hc1]; exact hno p2 c2 h1
    | write p c =>
      obtain ⟨_, _, hf⟩ := writeFile_inv s p c s1 ho
      rw [applyWrites]
      apply ih s1 s2 (Op.force t (.write p c)) hr hct (hc1.trans hcs)
      intro q hno
      have habs : t.abs p = s.abs p := abs_congr t s (hct.trans hcs.symm) p
      show (if q = t.abs p then some (FNode.file c) else t.node q) = _
      by_cases hqp : q = s.abs p
      · rw [habs, if_pos hqp]
        have h1 : s1.node q = some (.file c) := by
          rw [hf]
          show (if q = s.abs p then some (FNode.file c) else s.node q) = _
          rw [if_pos hqp]
        exact (runOps_keeps_content os s1 s2 q c hr h1 hno).symm
      · rw [habs, if_neg hqp]
        apply hq q
        intro p2 c2 hm
        rcases List.mem_cons.1 hm with h1 | h1
        · simp only [Op.write.injEq] at h1
          rw [h1.1]; exact hqp
        · rw [← abs_congr s1 s hc1]; exact hno p2 c2 h1

/-- The calls of a successful run, made again in the final state, succeed and leave that
state as it is. -/
theorem runOps_idempotent (l : List Op) (s s2 : FS) (h : runOps l s = ⟨s2, none⟩) :
    runOps l s2 = ⟨s2, none⟩ := by
  have hcwd : s.cwd = s2.cwd := by
    have := (runOps_keeps l s []).1
    rw [h] at this
    exact this.symm
  rw [runOps_again l s s2 s2 h ⟨rfl, fun q => ⟨Iff.rfl, rfl⟩⟩ hcwd,
    applyWrites_final l s s2 s2 h rfl hcwd (fun q _ => rfl)]

theorem forceAll_append (l1 l2 : List Op) : ∀ fs : FS,
    forceAll (l1 ++ l2) fs = forceAll l2 (forceAll l1 fs) := by
  induction l1 with
  | nil => intro fs; rfl
  | cons o os ih => intro fs; exact ih (o.force fs)

theorem runOps_ok_forceAll (l : List Op) : ∀ (fs fs2 : FS), runOps l fs = ⟨fs2, none⟩ →
    fs2 = forceAll l fs := by
  induction l with
  | nil =>
    intro fs fs2 h
    simp only [runOps, Outcome.mk.injEq, and_true] at h
    exact h.symm
  | cons o os ih =>
    intro fs fs2 h
    obtain ⟨fs1, ho, hr⟩ := runOps_cons_ok o os fs fs2 h
    rw [forceAll, ← run_force fs o fs1 ho]
    exact ih fs1 fs2 hr

/-- C16, as the claim has it, fails for the mapping of `a` and `./a`: its keys are distinct,
`createStructure` succeeds under both orders of its entries, and the file `a` holds `2` under
one order and `1` under the other. -/
theorem C16_same_path_counterexample :
    Reordered sameFileTwice sameFileTwiceBack ∧
    (createStructure noFloat sameFileTwice ["myapp"] fsProject).err = none ∧
    (createStructure noFloat sameFileTwiceBack ["myapp"] fsProject).err = none ∧
    (createStructure noFloat sameFileTwice ["myapp"] fsProject).fs.node ["w", "myapp", "a"] =
      some (.file "2") ∧
    (createStructure noFloat sameFileTwiceBack ["myapp"] fsProject).fs.node
      ["w", "myapp", "a"] = some (.file "1") ∧
    (createStructure noFloat sameFileTwice ["myapp"] fsProject).fs ≠
      (createStructure noFloat sameFileTwiceBack ["myapp"] fsProject).fs := by
  refine ⟨?_, rfl, rfl, rfl, rfl, ?_⟩
  · simp [Reordered, sameFileTwice, sameFileTwiceBack, subEntries, subValue, lookupKey]
  · intro h
    have h1 : (createStructure noFloat sameFileTwice ["myapp"] fsProject).fs.node
        ["w", "myapp", "a"] = some (.file "2") := rfl
    rw [h] at h1
    have h2 : (createStructure noFloat sameFileTwiceBack ["myapp"] fsProject).fs.node
        ["w", "myapp", "a"] = some (.file "1") := rfl
    rw [h2] at h1
    revert h1
    decide

theorem entryOps_leaf (ff : Nat → String) (k : String) (v : Value) (base : Path)
    (h : isLeaf v = true) : entryOps ff k v base = writeOps ff (join base k) v := by
  cases v <;> simp_all [entryOps, isLeaf]

theorem forceAll_cwd (l : List Op) : ∀ fs : FS, (forceAll l fs).cwd = fs.cwd := by
  induction l with
  | nil => intro fs; rfl
  | cons o os ih => intro fs; rw [forceAll, ih, force_cwd]

/-- The calls for a leaf entry with a plain name, laid over a state. -/
theorem entryOps_leaf_laid (ff : Nat → String) (k : String) (v : Value) (base : Path)
    (fs : FS) (hk : plainName k = true) (hv : isLeaf v = true) :
    EntryLaid ff k v (fs.abs base) fs (forceAll (entryOps ff k v base) fs) := by
  have hk2 : k ≠ ".." := (plainName_spec k hk).2.2.2
  have hl := nodeAt_leaf ff v hv
  rw [entryOps_leaf ff k v base hv, join_plain base k hk, writeOps]
  simp only [dir, List.dropLast_concat, forceAll, Op.force]
  have habs : FS.abs ⟨fs.cwd, fun q =>
      if q.isPrefixOf (fs.abs base) then some FNode.dir else fs.node q⟩ (base ++ [k]) =
      fs.abs base ++ [k] :=
    (abs_congr _ fs rfl _).trans (abs_append fs base k hk2)
  refine ⟨rfl, ?_, ?_⟩
  · intro r
    show (if fs.abs base ++ k :: r = _ then some (FNode.file (fileContent ff v)) else
      if (fs.abs base ++ k :: r).isPrefixOf (fs.abs base) then some FNode.dir else fs.node _) = _
    rw [habs]
    cases r with
    | nil => simp [hl.1]
    | cons k2 r2 =>
      have hne : fs.abs base ++ k :: k2 :: r2 ≠ fs.abs base ++ [k] := by simp
      have hnp : (fs.abs base ++ k :: k2 :: r2).isPrefixOf (fs.abs base) = false := by
        rw [Bool.eq_false_iff]
        intro h
        exact prefix_ne_append_cons _ _ k (k2 :: r2) (List.isPrefixOf_iff_prefix.1 h) rfl
      simp [hne, hnp, hl.2]
  · intro q hq
    show (if q = _ then some (FNode.file (fileContent ff v)) else
      if q.isPrefixOf (fs.abs base) then some FNode.dir else fs.node q) = _
    rw [habs, if_neg (hq [])]

/-- The calls for a directory entry with a plain name, laid over a state. -/
theorem entryOps_dir_laid (ff : Nat → String) (k : String) (m : List (String × Value))
    (base : Path) (fs : FS) (hk : plainName k = true) (hat : hasAtKey m = false)
    (ih : ∀ fs1 : FS, fs1.cwd = fs.cwd →
      TreeLaid ff m (fs.abs base ++ [k]) fs1 (forceAll (treeOps ff m (base ++ [k])) fs1)) :
    EntryLaid ff k (.map m) (fs.abs base) fs (forceAll (entryOps ff k (.map m) base) fs) := by
  have hk2 : k ≠ ".." := (plainName_spec k hk).2.2.2
  have habs : fs.abs (base ++ [k]) = fs.abs base ++ [k] := abs_append fs base k hk2
  have hpre : ∀ q, q <+: fs.abs base ++ [k] → q = fs.abs base ++ [k] ∨ q <+: fs.abs base :=
    fun q hq => List.prefix_concat_iff.1 hq
  have hlong : ∀ (k2 : String) (r : List String),
      ((fs.abs base ++ [k]) ++ k2 :: r).isPrefixOf (fs.abs base ++ [k]) = false := by
    intro k2 r
    rw [Bool.eq_false_iff]
    intro h
    exact prefix_ne_append_cons _ _ k2 r (List.isPrefixOf_iff_prefix.1 h) rfl
  obtain ⟨hc, hA, hB⟩ := ih ⟨fs.cwd, fun q =>
    if q.isPrefixOf (fs.abs base ++ [k]) then some .dir else fs.node q⟩ rfl
  rw [entryOps]
  simp only [hat, Bool.false_eq_true, if_false, join_plain base k hk, forceAll, Op.force, habs]
  refine ⟨hc, ?_, ?_⟩
  · intro r
    cases r with
    | nil =>
      rw [hB _ (fun k3 r3 e => absurd e (prefix_ne_append_cons _ _ k3 r3 (List.prefix_refl _)))]
      have hself : (fs.abs base ++ [k]).isPrefixOf (fs.abs base ++ [k]) = true :=
        List.isPrefixOf_iff_prefix.2 (List.prefix_refl _)
      simp [nodeAt, hat, hself]
    | cons k2 r2 =>
      have hassoc : fs.abs base ++ k :: k2 :: r2 = (fs.abs base ++ [k]) ++ k2 :: r2 := by simp
      cases hl : lookupKey k2 m with
      | some v =>
        rw [hassoc, hA k2 r2 v hl]
        simp [nodeAt, hat, hl, hlong k2 r2]
      | none =>
        rw [hassoc, hB _ (fun k3 r3 e => by
          have := List.append_cancel_left e
          simp only [List.cons.injEq] at this
          rw [← this.1]; exact hl)]
        simp [nodeAt, hat, hl, hlong k2 r2]
  · intro q hq
    rw [hB q (fun k3 r3 e => absurd (by rw [e]; simp) (hq (k3 :: r3)))]
    by_cases hp : q.isPrefixOf (fs.abs base ++ [k]) = true
    · rcases hpre q (List.isPrefixOf_iff_prefix.1 hp) with h | h
      · exact absurd h (hq [])
      · simp [hp, List.isPrefixOf_iff_prefix.2 h]
    · have hp2 : q.isPrefixOf (fs.abs base) = false := by
        rw [Bool.eq_false_iff]
        intro h
        exact hp (List.isPrefixOf_iff_prefix.2
          ((List.isPrefixOf_iff_prefix.1 h).trans (List.prefix_append _ _)))
      simp [hp, hp2]

/-- The loop of `createStructure`, one turn, as calls laid over a state. -/
theorem treeOps_cons_laid (ff : Nat → String) (k : String) (v : Value)
    (rest : List (String × Value)) (base : Path) (fs : FS) (a : List String)
    (hfresh : lookupKey k rest = none)
    (h1 : EntryLaid ff k v a fs (forceAll (entryOps ff k v base) fs))
    (h2 : TreeLaid ff rest a (forceAll (entryOps ff k v base) fs)
      (forceAll (treeOps ff rest base) (forceAll (entryOps ff k v base) fs))) :
    TreeLaid ff ((k, v) :: rest) a fs (forceAll (treeOps ff ((k, v) :: rest) base) fs) := by
  rw [treeOps, forceAll_append]
  obtain ⟨hc1, hA1, hB1⟩ := h1
  obtain ⟨hc, hA, hB⟩ := h2
  have hlong : ∀ (k2 : String) (r : List String), (a ++ k2 :: r).isPrefixOf a = false := by
    intro k2 r
    rw [Bool.eq_false_iff]
    intro h
    exact prefix_ne_append_cons _ _ k2 r (List.isPrefixOf_iff_prefix.1 h) rfl
  refine ⟨hc.trans hc1, ?_, ?_⟩
  · intro k0 r v0 hl
    by_cases hk : k = k0
    · subst hk
      simp only [lookupKey, if_true, Option.some.injEq] at hl
      subst hl
      rw [hB _ (fun k3 r3 e => by
        have := List.append_cancel_left e
        simp only [List.cons.injEq] at this
        rw [← this.1]; exact hfresh)]
      simp only [hlong, Bool.and_false, Bool.false_eq_true, if_false]
      exact hA1 r
    · simp only [lookupKey, hk, if_false] at hl
      rw [hA k0 r v0 hl, hB1 _ (fun r2 e => by
        have := List.append_cancel_left e
        simp only [List.cons.injEq] at this
        exact hk this.1.symm)]
      simp only [hlong, Bool.false_eq_true, if_false]
  · intro q hq
    have hrest : ∀ k3 r3, q = a ++ k3 :: r3 → lookupKey k3 rest = none := by
      intro k3 r3 e
      have := hq k3 r3 e
      by_cases hk : k = k3
      · simp [lookupKey, hk] at this
      · simpa [lookupKey, hk] using this
    rw [hB q hrest, hB1 q (fun r e => by
      have := hq k r e
      simp [lookupKey] at this)]
    by_cases hp : q.isPrefixOf a = true <;> simp [hp]

/-- The calls of `createStructure` on a plain tree, laid over any state: the nodes of the
tree are put over what was there, the base directory and its ancestors are directories when
the tree has an entry, and every other node is as before. -/
theorem treeOps_laid (ff : Nat → String) : ∀ (n : Nat) (es : List (String × Value))
    (base : Path) (fs : FS), sizeOf es ≤ n → plainTree es = true →
    TreeLaid ff es (fs.abs base) fs (forceAll (treeOps ff es base) fs) := by
  intro n
  induction n with
  | zero =>
    intro es base fs hn
    cases es <;> simp at hn
  | succ n ih =>
    intro es base fs hn hp
    cases es with
    | nil =>
      refine ⟨rfl, ?_, ?_⟩
      · intro k r v h; simp [lookupKey] at h
      · intro q _; simp [treeOps, forceAll]
    | cons e rest =>
      obtain ⟨k, v⟩ := e
      rw [plainTree] at hp
      simp only [Bool.and_eq_true] at hp
      obtain ⟨⟨⟨hk, hall⟩, hv⟩, hrest⟩ := hp
      have hfresh := lookupKey_fresh k rest hall
      have hsz : sizeOf v + sizeOf rest < sizeOf ((k, v) :: rest) := by simp; omega
      have h1 : EntryLaid ff k v (fs.abs base) fs (forceAll (entryOps ff k v base) fs) := by
        by_cases hl : isLeaf v = true
        · exact entryOps_leaf_laid ff k v base fs hk hl
        · obtain ⟨m, rfl, hat, hpm⟩ := plainValue_not_leaf v hv hl
          apply entryOps_dir_laid ff k m base fs hk hat
          intro fs1 hc
          have hk2 : k ≠ ".." := (plainName_spec k hk).2.2.2
          have habs : fs1.abs (base ++ [k]) = fs.abs base ++ [k] :=
            (abs_congr fs1 fs hc _).trans (abs_append fs base k hk2)
          have hm : sizeOf (Value.map m) = 1 + sizeOf m := Value.map.sizeOf_spec m
          have := ih m (base ++ [k]) fs1 (by omega) hpm
          rw [habs] at this
          exact this
      have h2 := ih rest base (forceAll (entryOps ff k v base) fs) (by omega) hrest
      rw [abs_congr _ fs (forceAll_cwd _ fs) base] at h2
      exact treeOps_cons_laid ff k v rest base fs (fs.abs base) hfresh h1 h2

theorem subEntries_lookup (k : String) : ∀ (es1 es2 : List (String × Value)) (v1 : Value),
    subEntries es1 es2 → lookupKey k es1 = some v1 →
    ∃ v2, lookupKey k es2 = some v2 ∧ subValue v1 v2 := by
  intro es1
  induction es1 with
  | nil => intro es2 v1 _ h; simp [lookupKey] at h
  | cons e rest ih =>
    intro es2 v1 hs h
    obtain ⟨k1, w⟩ := e
    rw [subEntries] at hs
    by_cases hk : k1 = k
    · subst hk
      simp only [lookupKey, if_true, Option.some.injEq] at h
      subst h
      exact hs.1
    · simp only [lookupKey, hk, if_false] at h
      exact ih es2 v1 hs.2 h

theorem subEntries_lookup_none (k : String) (es1 es2 : List (String × Value))
    (hs : subEntries es2 es1) (h : lookupKey k es1 = none) : lookupKey k es2 = none := by
  cases h2 : lookupKey k es2 with
  | none => rfl
  | some v2 =>
    obtain ⟨v1, h1, _⟩ := subEntries_lookup k es2 es1 v2 hs h2
    rw [h] at h1
    cases h1

/-- Two values that are one another up to the order of the entries describe the same nodes. -/
theorem nodeAt_reordered (ff : Nat → String) : ∀ (r : List String) (v1 v2 : Value),
    subValue v1 v2 → subValue v2 v1 → nodeAt ff r v1 = nodeAt ff r v2 := by
  intro r
  induction r with
  | nil =>
    intro v1 v2 h12 h21
    cases v1 with
    | map m1 =>
      cases v2 with
      | map m2 =>
        simp only [subValue] at h12
        by_cases ha : hasAtKey m1 = true
        · rw [if_pos ha] at h12
          rw [h12]
        · rw [if_neg ha] at h12
          simp only [Bool.not_eq_true] at ha
          simp [nodeAt, ha, h12.1]
      | null => simp [subValue] at h12
      | bool b => simp [subValue] at h12
      | float x => simp [subValue] at h12
      | str s => simp [subValue] at h12
      | arr xs => simp [subValue] at h12
    | null => simp only [subValue] at h12; rw [h12]
    | bool b => simp only [subValue] at h12; rw [h12]
    | float x => simp only [subValue] at h12; rw [h12]
    | str s => simp only [subValue] at h12; rw [h12]
    | arr xs => simp only [subValue] at h12; rw [h12]
  | cons k r ih =>
    intro v1 v2 h12 h21
    cases v1 with
    | map m1 =>
      cases v2 with
      | map m2 =>
        simp only [subValue] at h12 h21
        by_cases ha : hasAtKey m1 = true
        · rw [if_pos ha] at h12
          rw [h12]
        · rw [if_neg ha] at h12
          simp only [Bool.not_eq_true] at ha
          rw [if_neg (by simp [h12.1])] at h21
          cases hl1 : lookupKey k m1 with
          | none =>
            have hl2 := subEntries_lookup_none k m1 m2 h21.2 hl1
            simp [nodeAt, ha, h12.1, hl1, hl2]
          | some w1 =>
            obtain ⟨w2, hl2, hw12⟩ := subEntries_lookup k m1 m2 w1 h12.2 hl1
            obtain ⟨w3, hl3, hw21⟩ := subEntries_lookup k m2 m1 w2 h21.2 hl2
            rw [hl1] at hl3
            cases hl3
            simp only [nodeAt, ha, h12.1, hl1, hl2, Bool.false_eq_true, if_false]
            exact ih w1 w2 hw12 hw21
      | null => simp [subValue] at h12
      | bool b => simp [subValue] at h12
      | float x => simp [subValue] at h12
      | str s => simp [subValue] at h12
      | arr xs => simp [subValue] at h12
    | null => simp only [subValue] at h12; rw [h12]
    | bool b => simp only [subValue] at h12; rw [h12]
    | float x => simp only [subValue] at h12; rw [h12]
    | str s => simp only [subValue] at h12; rw [h12]
    | arr xs => simp only [subValue] at h12; rw [h12]

theorem subEntries_isEmpty (es1 es2 : List (String × Value)) (h12 : subEntries es1 es2)
    (h21 : subEntries es2 es1) : es1.isEmpty = es2.isEmpty := by
  cases es1 with
  | nil =>
    cases es2 with
    | nil => rfl
    | cons e rest =>
      obtain ⟨k, v⟩ := e
      rw [subEntries] at h21
      obtain ⟨⟨v2, h, _⟩, _⟩ := h21
      simp [lookupKey] at h
  | cons e rest =>
    cases es2 with
    | nil =>
      obtain ⟨k, v⟩ := e
      rw [subEntries] at h12
      obtain ⟨⟨v2, h, _⟩, _⟩ := h12
      simp [lookupKey] at h
    | cons e2 rest2 => rfl

/-- Two states laid from one state by two orders of one plain mapping are equal. -/
theorem treeLaid_reordered (ff : Nat → String) (es1 es2 : List (String × Value))
    (a : List String) (fs o1 o2 : FS) (hre : Reordered es1 es2)
    (h1 : TreeLaid ff es1 a fs o1) (h2 : TreeLaid ff es2 a fs o2) : o1 = o2 := by
  obtain ⟨hc1, hA1, hB1⟩ := h1
  obtain ⟨hc2, hA2, hB2⟩ := h2
  apply FS.eq_of
  · rw [hc1, hc2]
  · intro q
    by_cases hq : ∃ k r, q = a ++ k :: r ∧ lookupKey k es1 ≠ none
    · obtain ⟨k, r, rfl, hl⟩ := hq
      cases hl1 : lookupKey k es1 with
      | none => exact absurd hl1 hl
      | some v1 =>
        obtain ⟨v2, hl2, h12⟩ := subEntries_lookup k es1 es2 v1 hre.1 hl1
        obtain ⟨v3, hl3, h21⟩ := subEntries_lookup k es2 es1 v2 hre.2 hl2
        rw [hl1] at hl3
        cases hl3
        rw [hA1 k r v1 hl1, hA2 k r v2 hl2, nodeAt_reordered ff r v1 v2 h12 h21]
    · have hn1 : ∀ k r, q = a ++ k :: r → lookupKey k es1 = none := by
        intro k r e
        by_contra hne
        exact hq ⟨k, r, e, hne⟩
      have hn2 : ∀ k r, q = a ++ k :: r → lookupKey k es2 = none :=
        fun k r e => subEntries_lookup_none k es1 es2 hre.2 (hn1 k r e)
      rw [hB1 q hn1, hB2 q hn2, subEntries_isEmpty es1 es2 hre.1 hre.2]

/-- C16, for keys that are plain file names: for every mapping whose keys, at every level,
are plain file names distinct within their parent, every base path and every initial state,
and for any two orders in which the entries of the mapping and of its nested mappings are
visited, if `createStructure` succeeds under both orders then the two final states are
equal. -/
theorem C16_order_independent_on_plain_keys (ff : Nat → String)
    (es1 es2 : List (String × Value)) (base : Path) (fs : FS)
    (hp1 : plainTree es1 = true) (hp2 : plainTree es2 = true) (hre : Reordered es1 es2)
    (h1 : (createStructure ff es1 base fs).err = none)
    (h2 : (createStructure ff es2 base fs).err = none) :
    (createStructure ff es1 base fs).fs = (createStructure ff es2 base fs).fs := by
  have e1 : (createStructure ff es1 base fs).fs = forceAll (treeOps ff es1 base) fs := by
    apply runOps_ok_forceAll
    rw [← createStructure_runOps, ← h1]
  have e2 : (createStructure ff es2 base fs).fs = forceAll (treeOps ff es2 base) fs := by
    apply runOps_ok_forceAll
    rw [← createStructure_runOps, ← h2]
  rw [e1, e2]
  exact treeLaid_reordered ff es1 es2 (fs.abs base) fs _ _ hre
    (treeOps_laid ff (sizeOf es1) es1 base fs (le_refl _) hp1)
    (treeOps_laid ff (sizeOf es2) es2 base fs (le_refl _) hp2)

/-- Witness of C16: a tree of two levels and the same tree with the entries of each mapping
in the other order, materialized in `myapp`. -/
theorem C16_order_independent_on_plain_keys_witness :
    plainTree twoLevels = true ∧ plainTree twoLevelsBack = true ∧
    Reordered twoLevels twoLevelsBack ∧
    (createStructure noFloat twoLevels ["myapp"] fsProject).err = none ∧
    (createStructure noFloat twoLevelsBack ["myapp"] fsProject).err = none ∧
    (createStructure noFloat twoLevels ["myapp"] fsProject).fs =
      (createStructure noFloat twoLevelsBack ["myapp"] fsProject).fs :=
  have hre : Reordered twoLevels twoLevelsBack := by
    simp [Reordered, twoLevels, twoLevelsBack, subEntries, subValue, lookupKey, hasAtKey,
      hasPrefix]
  ⟨by decide, by decide, hre, rfl, rfl,
    C16_order_independent_on_plain_keys noFloat twoLevels twoLevelsBack ["myapp"] fsProject
      (by decide) (by decide) hre rfl rfl⟩

/-! ## Reading the filesystem back -/

theorem noAtTree_hasAtKey : ∀ m : List (String × Value), noAtTree m = true →
    hasAtKey m = false := by
  intro m
  induction m with
  | nil => intro _; rfl
  | cons e es ih =>
    intro h
    obtain ⟨k, v⟩ := e
    simp only [noAtTree, Bool.and_eq_true, Bool.not_eq_true'] at h
    simp [hasAtKey, h.1.1, ih h.2]

theorem fileContent_stringForm (ff : Nat → String) (v : Value) (hv : noNilValue ff v = true)
    (hm : ∀ m, v ≠ .map m) : fileContent ff v = stringForm ff v := by
  cases v with
  | map m => exact absurd rfl (hm m)
  | null => rfl
  | bool b =>
    simp only [noNilValue, decide_eq_true_eq] at hv
    simp [fileContent, stringForm, hv]
  | float x =>
    simp only [noNilValue, decide_eq_true_eq] at hv
    simp [fileContent, stringForm, hv]
  | str s =>
    simp only [noNilValue, decide_eq_true_eq] at hv
    simp [fileContent, stringForm, sprint, hv]
  | arr xs =>
    simp only [noNilValue, decide_eq_true_eq] at hv
    simp [fileContent, stringForm, hv]

theorem lookupKey_stringifyAll (ff : Nat → String) (k : String) :
    ∀ m : List (String × Value),
    lookupKey k (stringifyAll ff m) = (lookupKey k m).map (stringify ff) := by
  intro m
  induction m with
  | nil => rfl
  | cons e es ih =>
    obtain ⟨k1, v⟩ := e
    by_cases h : k1 = k
    · simp [stringifyAll, lookupKey, h]
    · simp [stringifyAll, lookupKey, h, ih]

theorem keys_stringifyAll (ff : Nat → String) : ∀ m : List (String × Value),
    (stringifyAll ff m).map Prod.fst = m.map Prod.fst := by
  intro m
  induction m with
  | nil => rfl
  | cons e es ih =>
    obtain ⟨k1, v⟩ := e
    simp [stringifyAll, ih]

theorem plainTree_mem : ∀ (es : List (String × Value)), plainTree es = true →
    (es.map Prod.fst).Nodup ∧
    ∀ k v, (k, v) ∈ es → plainValue v = true ∧ lookupKey k es = some v := by
  intro es
  induction es with
  | nil => intro _; exact ⟨List.nodup_nil, fun k v h => by cases h⟩
  | cons e es ih =>
    intro hp
    obtain ⟨k1, v1⟩ := e
    rw [plainTree] at hp
    simp only [Bool.and_eq_true] at hp
    obtain ⟨⟨⟨hk, hall⟩, hv⟩, hrest⟩ := hp
    obtain ⟨hnd, hmem⟩ := ih hrest
    have hfresh : ∀ e2 ∈ es, e2.1 ≠ k1 := by
      simpa only [List.all_eq_true, decide_eq_true_eq] using hall
    refine ⟨?_, ?_⟩
    · rw [List.map_cons, List.nodup_cons]
      refine ⟨?_, hnd⟩
      intro hm
      obtain ⟨e2, he2, hk2⟩ := List.mem_map.1 hm
      exact hfresh e2 he2 hk2
    · intro k v h
      rcases List.mem_cons.1 h with h | h
      · cases h
        exact ⟨hv, by simp [lookupKey]⟩
      · have hne : k1 ≠ k := fun e => hfresh (k, v) h e.symm
        obtain ⟨h1, h2⟩ := hmem k v h
        exact ⟨h1, by simp [lookupKey, hne, h2]⟩

theorem noAtTree_mem : ∀ (es : List (String × Value)), noAtTree es = true →
    ∀ k v, (k, v) ∈ es → noAtValue v = true := by
  intro es
  induction es with
  | nil => intro _ k v h; cases h
  | cons e es ih =>
    intro hp k v h
    obtain ⟨k1, v1⟩ := e
    simp only [noAtTree, Bool.and_eq_true] at hp
    rcases List.mem_cons.1 h with h | h
    · cases h; exact hp.1.2
    · exact ih hp.2 k v h

theorem noNilTree_mem (ff : Nat → String) : ∀ (es : List (String × Value)),
    noNilTree ff es = true → ∀ k v, (k, v) ∈ es → noNilValue ff v = true := by
  intro es
  induction es with
  | nil => intro _ k v h; cases h
  | cons e es ih =>
    intro hp k v h
    obtain ⟨k1, v1⟩ := e
    simp only [noNilTree, Bool.and_eq_true] at hp
    rcases List.mem_cons.1 h with h | h
    · cases h; exact hp.1
    · exact ih hp.2 k v h

theorem readsAsEntries_of (ff : Nat → String) (fs : FS) (a : List String)
    (P : Value → Prop)
    (hP : ∀ k v, P v → (∀ r, fs.node ((a ++ [k]) ++ r) = nodeAt ff r v) →
      ReadsAsValue fs (a ++ [k]) (stringify ff v)) :
    ∀ es : List (String × Value),
    (∀ k v, (k, v) ∈ es → P v ∧ ∀ r, fs.node ((a ++ [k]) ++ r) = nodeAt ff r v) →
    ReadsAsEntries fs a (stringifyAll ff es) := by
  intro es
  induction es with
  | nil => intro _; simp [stringifyAll, ReadsAsEntries]
  | cons e es ih =>
    intro h
    obtain ⟨k1, v1⟩ := e
    rw [stringifyAll, ReadsAsEntries]
    obtain ⟨h1, h2⟩ := h k1 v1 (List.mem_cons_self _ _)
    exact ⟨hP k1 v1 h1 h2, ih (fun k v hm => h k v (List.mem_cons_of_mem _ hm))⟩

/-- A state that holds at and below the path `a` exactly the nodes of a plain value without
`@` keys reads back at `a` as the value with every leaf replaced by its string form. -/
theorem readsAs_of_nodes (ff : Nat → String) (fs : FS) : ∀ (n : Nat) (v : Value)
    (a : List String), sizeOf v ≤ n → plainValue v = true → noAtValue v = true →
    noNilValue ff v = true → (∀ r, fs.node (a ++ r) = nodeAt ff r v) →
    ReadsAsValue fs a (stringify ff v) := by
  intro n
  induction n with
  | zero =>
    intro v a hn
    cases v <;> simp at hn
  | succ n ih =>
    intro v a hn hp hat hnil hnodes
    have h0 := hnodes []
    rw [List.append_nil] at h0
    cases v with
    | map m =>
      rw [noAtValue] at hat
      rw [noNilValue] at hnil
      have hak := noAtTree_hasAtKey m hat
      rw [plainValue, hak, Bool.false_or] at hp
      obtain ⟨hnd, hmem⟩ := plainTree_mem m hp
      have hm : sizeOf (Value.map m) = 1 + sizeOf m := Value.map.sizeOf_spec m
      rw [stringify, ReadsAsValue]
      refine ⟨?_, ?_, ?_, ?_⟩
      · rw [h0]; simp [nodeAt, hak]
      · rw [keys_stringifyAll]; exact hnd
      · apply readsAsEntries_of ff fs a
          (fun v => sizeOf v ≤ n ∧ plainValue v = true ∧ noAtValue v = true ∧
            noNilValue ff v = true)
        · intro k v hv hr
          exact ih v (a ++ [k]) hv.1 hv.2.1 hv.2.2.1 hv.2.2.2 hr
        · intro k v hkv
          obtain ⟨hpv, hl⟩ := hmem k v hkv
          have hlt : sizeOf v < sizeOf m := by
            have h1 := List.sizeOf_lt_of_mem hkv
            have h2 : sizeOf (k, v) = 1 + sizeOf k + sizeOf v := Prod.mk.sizeOf_spec k v
            omega
          refine ⟨⟨by omega, hpv, noAtTree_mem m hat k v hkv, noNilTree_mem ff m hnil k v hkv⟩,
            ?_⟩
          intro r
          rw [List.append_assoc, hnodes]
          simp [nodeAt, hak, hl]
      · intro k hk
        rw [hnodes [k]] at hk
        rw [lookupKey_stringifyAll]
        cases hl : lookupKey k m with
        | none => simp [nodeAt, hak, hl] at hk
        | some w => simp
    | null =>
      rw [stringify, ReadsAsValue, h0, ← fileContent_stringForm ff _ hnil (by simp)]
      rfl
    | bool b =>
      rw [stringify, ReadsAsValue, h0, ← fileContent_stringForm ff _ hnil (by simp)]
      rfl
    | float x =>
      rw [stringify, ReadsAsValue, h0, ← fileContent_stringForm ff _ hnil (by simp)]
      rfl
    | str s =>
      rw [stringify, ReadsAsValue, h0, ← fileContent_stringForm ff _ hnil (by simp)]
      rfl
    | arr xs =>
      rw [stringify, ReadsAsValue, h0, ← fileContent_stringForm ff _ hnil (by simp)]
      rfl

/-- C15, as the claim has it, fails for a tree with an `@` key: the mapping under `page` is
written as one file, so the directory does not read back as the tree, which has a mapping
there; it reads back as the tree with the leaf `map[@id:7]` under `page`. It fails as well
for the tree with the key `a/b`, which is materialized as the directory `a` with the file
`b` and not as an entry of the name `a/b`; and for the tree with the leaf `<nil>`, whose
file is empty. -/
theorem C15_round_trip_counterexample :
    (createStructure noFloat atPage ["myapp"] fsProject).err = none ∧
    (createStructure noFloat atPage ["myapp"] fsProject).fs.node ["w", "myapp", "page"] =
      some (.file "map[@id:7]") ∧
    ¬ ReadsAsValue (createStructure noFloat atPage ["myapp"] fsProject).fs ["w", "myapp"]
      (.map (stringifyAll noFloat atPage)) ∧
    ReadsAsValue (createStructure noFloat atPage ["myapp"] fsProject).fs ["w", "myapp"]
      (.map [("page", .str "map[@id:7]")]) ∧
    (createStructure noFloat slashKey ["myapp"] fsProject).err = none ∧
    (createStructure noFloat slashKey ["myapp"] fsProject).fs.node ["w", "myapp", "a", "b"] =
      some (.file "x") ∧
    ¬ ReadsAsValue (createStructure noFloat slashKey ["myapp"] fsProject).fs ["w", "myapp"]
      (.map (stringifyAll noFloat slashKey)) ∧
    (createStructure noFloat nilLeaf ["myapp"] fsProject).err = none ∧
    (createStructure noFloat nilLeaf ["myapp"] fsProject).fs.node
      ["w", "myapp", "src", "main.go"] = some (.file "") ∧
    ¬ ReadsAsValue (createStructure noFloat nilLeaf ["myapp"] fsProject).fs ["w", "myapp"]
      (.map (stringifyAll noFloat nilLeaf)) := by
  have hn : ∀ r, (createStructure noFloat atPage ["myapp"] fsProject).fs.node
      (["w", "myapp"] ++ r) = treeAt noFloat atPage r :=
    (createStructure_on_empty_dir noFloat atPage ["myapp"] fsProject (by decide)
      fsProject_dirs fsProject_empty).2.1
  refine ⟨rfl, rfl, ?_, ?_, rfl, rfl, ?_, rfl, rfl, ?_⟩
  · intro h
    simp only [stringifyAll, stringify, ReadsAsValue, ReadsAsEntries] at h
    have h1 := h.2.2.1.1.1
    have h2 : (createStructure noFloat atPage ["myapp"] fsProject).fs.node
        (["w", "myapp"] ++ ["page"]) = some (.file "map[@id:7]") := rfl
    rw [h2] at h1
    revert h1
    decide
  · simp only [ReadsAsValue, ReadsAsEntries]
    refine ⟨rfl, by simp, ⟨rfl, trivial⟩, ?_⟩
    intro k hk
    rw [hn [k]] at hk
    by_cases e : "page" = k
    · simp [lookupKey, e]
    · simp [treeAt, atPage, lookupKey, e] at hk
  · intro h
    simp only [slashKey, stringifyAll, stringify, ReadsAsValue, ReadsAsEntries] at h
    have h1 := h.2.2.1.1
    have h2 : (createStructure noFloat [("a/b", .str "x")] ["myapp"] fsProject).fs.node
        (["w", "myapp"] ++ ["a/b"]) = none := rfl
    rw [h2] at h1
    revert h1
    decide
  · intro h
    simp only [nilLeaf, stringifyAll, stringify, stringForm, ReadsAsValue, ReadsAsEntries] at h
    have h1 := h.2.2.1.1.2.2.1.1
    have h2 : (createStructure noFloat [("src", .map [("main.go", .str "<nil>")])] ["myapp"]
        fsProject).fs.node ((["w", "myapp"] ++ ["src"]) ++ ["main.go"]) = some (.file "") := rfl
    rw [h2] at h1
    revert h1
    decide

/-! ## The loop of `main` -/

theorem mkdirAll_dirs (fs : FS) (p : Path) (fs1 : FS) (h : mkdirAll fs p = .ok fs1) :
    fs1.cwd = fs.cwd ∧ DirsTo fs1 (fs.abs p) := by
  obtain ⟨_, rfl⟩ := mkdirAll_inv fs p fs1 h
  refine ⟨rfl, ?_⟩
  intro q hq
  show (if q.isPrefixOf (fs.abs p) then some FNode.dir else fs.node q) = _
  rw [List.isPrefixOf_iff_prefix.2 hq]
  rfl

theorem abs_cleanStep_up (fs : FS) (acc : Path) :
    fs.abs (cleanStep acc "..") = (fs.abs acc).dropLast := by
  rcases List.eq_nil_or_concat acc with h | ⟨init, l, h⟩
  · subst h
    simp [cleanStep, FS.abs]
  · subst h
    by_cases hl : l = ".."
    · subst hl
      simp [cleanStep, FS.abs, List.foldl_append]
    · simp [cleanStep, FS.abs, List.foldl_append, hl]

theorem abs_replicate_up : ∀ (n : Nat) (l : List String), l.length ≤ n →
    (List.replicate n "..").foldl (fun acc c => if c = ".." then acc.dropLast else acc ++ [c]) l
      = [] := by
  intro n
  induction n with
  | zero =>
    intro l hl
    cases l with
    | nil => rfl
    | cons a l => simp at hl
  | succ n ih =>
    intro l hl
    rw [List.replicate_succ, List.foldl_cons, if_pos rfl]
    apply ih
    rw [List.length_dropLast]
    omega

theorem dirsTo_dropLast (fs : FS) (a : List String) (h : DirsTo fs a) : DirsTo fs a.dropLast :=
  fun q hq => h q (hq.trans (List.dropLast_prefix a))

/-- The walk of `os.MkdirAll` over the components of a path: when it has not failed, it is at
the cleaned path of the components, and the directory reached exists with all its
ancestors when the directory of the start did. -/
theorem walk_inv : ∀ (comps : List String) (w : Walk),
    (comps.foldl mkdirAllStep w).ok = true →
    w.ok = true ∧ (comps.foldl mkdirAllStep w).pos = comps.foldl cleanStep w.pos ∧
    (comps.foldl mkdirAllStep w).fs.cwd = w.fs.cwd ∧
    (DirsTo w.fs (w.fs.abs w.pos) →
      DirsTo (comps.foldl mkdirAllStep w).fs (w.fs.abs (comps.foldl cleanStep w.pos))) := by
  intro comps
  induction comps with
  | nil => intro w h; exact ⟨h, rfl, rfl, fun hd => hd⟩
  | cons c cs ih =>
    intro w h
    rw [List.foldl_cons] at h ⊢
    obtain ⟨h1, h2, h3, h4⟩ := ih (mkdirAllStep w c) h
    rw [List.foldl_cons]
    by_cases hok : w.ok = true
    · by_cases hc : c = "" ∨ c = "." ∨ c = ".."
      · have hs : mkdirAllStep w c = { w with pos := cleanStep w.pos c } := by
          simp only [mkdirAllStep, hok, if_true, hc]
        rw [hs] at h2 h3 h4 ⊢
        refine ⟨hok, h2, h3, fun hd => h4 ?_⟩
        show DirsTo w.fs (w.fs.abs (cleanStep w.pos c))
        rcases hc with e | e | e
        · subst e; simpa [cleanStep] using hd
        · subst e; simpa [cleanStep] using hd
        · subst e; rw [abs_cleanStep_up]; exact dirsTo_dropLast _ _ hd
      · cases hm : mkdirAll w.fs (cleanStep w.pos c) with
        | error e =>
          have hs : mkdirAllStep w c = ⟨w.fs, cleanStep w.pos c, false⟩ := by
            simp only [mkdirAllStep, hok, if_true, hc, if_false, hm]
          rw [hs] at h1
          cases h1
        | ok fs1 =>
          have hs : mkdirAllStep w c = ⟨fs1, cleanStep w.pos c, true⟩ := by
            simp only [mkdirAllStep, hok, if_true, hc, if_false, hm]
          obtain ⟨hcwd, hdirs⟩ := mkdirAll_dirs _ _ _ hm
          rw [hs] at h2 h3 h4 ⊢
          refine ⟨hok, h2, h3.trans hcwd, fun _ => ?_⟩
          have := h4 (by rw [abs_congr fs1 w.fs hcwd]; exact hdirs)
          rw [abs_congr fs1 w.fs hcwd] at this
          exact this
    · have hs : mkdirAllStep w c = w := by
        simp only [mkdirAllStep, hok, Bool.false_eq_true, if_false]
      rw [hs] at h1
      exact absurd h1 hok

/-- When `os.MkdirAll` succeeds on the project name, in a state where the working directory
exists with its ancestors, the base path of `createStructure` is a directory. -/
theorem mkdirAllText_dir (fs : FS) (name : String) (fs1 : FS) (hd : DirsTo fs fs.cwd)
    (h : mkdirAllText fs name = (fs1, true)) :
    fs1.cwd = fs.cwd ∧ fs1.node (fs.abs (projectBase fs name)) = some .dir := by
  unfold mkdirAllText at h
  by_cases hn : name = ""
  · rw [if_pos hn] at h
    cases h
  · rw [if_neg hn] at h
    simp only [Prod.mk.injEq] at h
    obtain ⟨hfs, hok⟩ := h
    obtain ⟨_, _, h3, h4⟩ := walk_inv _ _ hok
    rw [hfs] at h3 h4
    refine ⟨h3, ?_⟩
    have hstart : DirsTo fs (fs.abs (startOf fs name)) := by
      unfold startOf
      split
      · rw [FS.abs, abs_replicate_up _ _ (le_refl _)]
        exact fun q hq => hd q (hq.trans (List.nil_prefix))
      · exact hd
    exact h4 hstart _ (List.prefix_refl _)

theorem plainName_walk (fs : FS) (k : String) (hk : plainName k = true) :
    projectBase fs k = [k] ∧
    mkdirAllText fs k =
      match mkdirAll fs [k] with
      | .ok fs1 => (fs1, true)
      | .error _ => (fs, false) := by
  obtain ⟨h1, h2, h3, h4⟩ := plainName_spec k hk
  have hstart : startOf fs k = [] := by
    unfold startOf
    rw [if_neg]
    intro hh
    have hmem : '/' ∈ k.data := by
      cases hd : k.data with
      | nil => rw [hd] at hh; cases hh
      | cons c cs =>
        rw [hd] at hh
        simp only [List.head?_cons, Option.some.injEq] at hh
        rw [hh]
        exact List.mem_cons_self _ _
    have : k.data.contains '/' = true := by simpa using hmem
    rw [h2] at this
    cases this
  have hstep : cleanStep [] k = [k] := by simp [cleanStep, h1, h3, h4]
  refine ⟨?_, ?_⟩
  · rw [projectBase, hstart, join_plain [] k hk]
    rfl
  · unfold mkdirAllText
    rw [if_neg h1, hstart, splitSlash_plain k.data h2]
    simp only [List.map_cons, List.map_nil, List.foldl_cons, List.foldl_nil, mkdirAllStep,
      if_true, h1, h3, h4, or_self, if_false, hstep]
    cases mkdirAll fs [k] <;> rfl

/-- C17: for every decoded structure with one or more entries, the loop of `main` does what
it does for the first entry alone, whatever the other entries are. When the value of the
first entry is not a mapping, it reports that and leaves the filesystem as it was. When it
is a mapping and `os.MkdirAll` fails on the key, the loop reports that, without a call of
`createStructure`. When `os.MkdirAll` succeeds on the key, the loop returns the state in which
`createStructure` returns for that mapping with the key as base path, and reports its
error or its success; the directory of the key then exists (the working directory existing
with its ancestors), and for a key that is a plain file name it is the entry of that name
of the working directory. -/
theorem C17_only_the_first_entry_is_used (ff : Nat → String) :
    (∀ (e : String × Value) (rest : List (String × Value)) (fs : FS),
      mainLoop ff (e :: rest) fs = mainLoop ff [e] fs) ∧
    (∀ (k : String) (v : Value) (rest : List (String × Value)) (fs : FS),
      (∀ m, v ≠ .map m) → mainLoop ff ((k, v) :: rest) fs = (fs, .notADict)) ∧
    (∀ (k : String) (m rest : List (String × Value)) (fs fs1 : FS),
      mkdirAllText fs k = (fs1, false) →
      mainLoop ff ((k, .map m) :: rest) fs = (fs1, .mkdirError)) ∧
    (∀ (k : String) (m rest : List (String × Value)) (fs fs1 : FS),
      mkdirAllText fs k = (fs1, true) →
      (mainLoop ff ((k, .map m) :: rest) fs).1 =
        (createStructure ff m (projectBase fs k) fs1).fs ∧
      (mainLoop ff ((k, .map m) :: rest) fs).2 =
        (match (createStructure ff m (projectBase fs k) fs1).err with
          | some e => .createError e
          | none => .created k) ∧
      (DirsTo fs fs.cwd →
        (mainLoop ff ((k, .map m) :: rest) fs).1.node (fs.abs (projectBase fs k)) =
          some .dir)) ∧
    (∀ (k : String) (fs : FS), plainName k = true →
      projectBase fs k = [k] ∧
      mkdirAllText fs k =
        match mkdirAll fs [k] with
        | .ok fs1 => (fs1, true)
        | .error _ => (fs, false)) := by
  refine ⟨?_, ?_, ?_, ?_, fun k fs hk => plainName_walk fs k hk⟩
  · intro e rest fs
    obtain ⟨k, v⟩ := e
    cases v <;> rfl
  · intro k v rest fs hv
    cases v with
    | map m => exact absurd rfl (hv m)
    | null => rfl
    | bool b => rfl
    | float x => rfl
    | str s => rfl
    | arr xs => rfl
  · intro k m rest fs fs1 hmk
    simp only [mainLoop, hmk]
  · intro k m rest fs fs1 hmk
    have hloop : mainLoop ff ((k, .map m) :: rest) fs =
        ((createStructure ff m (projectBase fs k) fs1).fs,
          (match (createStructure ff m (projectBase fs k) fs1).err with
            | some e => Report.createError e
            | none => Report.created k)) := by
      simp only [mainLoop, hmk]
      rcases hc : createStructure ff m (projectBase fs k) fs1 with ⟨fs2, _ | e⟩ <;> rfl
    rw [hloop]
    refine ⟨rfl, rfl, ?_⟩
    intro hd
    obtain ⟨_, hdir⟩ := mkdirAllText_dir fs k fs1 hd hmk
    rw [createStructure_runOps]
    exact (runOps_keeps _ fs1 _).2.1 hdir

/-- Witness of C17: the structure with the two projects `myapp` and `other`, in a working
directory that is empty. -/
theorem C17_only_the_first_entry_is_used_witness :
    (mainLoop noFloat twoProjects fsWork).1.node ["w", "myapp"] = some .dir :=
  ((C17_only_the_first_entry_is_used noFloat).2.2.2.1 "myapp" scenario
    [("other", .map [("x", .str "1")])] fsWork (mkdirAllText fsWork "myapp").1 rfl).2.2
    (by
      intro q hq
      have hq2 : q ∈ (["w"] : List String).inits := (List.mem_inits _ _).2 hq
      simp only [List.inits, List.map_cons, List.map_nil, List.mem_cons, List.mem_singleton,
        List.not_mem_nil, or_false] at hq2
      rcases hq2 with rfl | rfl <;> rfl)

/-- The loop of `main` on a structure with the two projects `myapp` and `other`: `myapp` is
made with its tree, and nothing is made for `other`; and on a structure whose first entry is
a leaf, nothing is made at all. -/
theorem main_two_projects_sample :
    (mainLoop noFloat twoProjects fsWork).2 = .created "myapp" ∧
    (mainLoop noFloat twoProjects fsWork).1.node ["w", "myapp", "src", "main.go"] =
      some (.file "package main") ∧
    (mainLoop noFloat twoProjects fsWork).1.node ["w", "myapp", "README.md"] =
      some (.file "hello") ∧
    (mainLoop noFloat twoProjects fsWork).1.node ["w", "other"] = none ∧
    (mainLoop noFloat twoProjects fsWork).1.node ["w", "other", "x"] = none ∧
    (mainLoop noFloat leafFirst fsWork).2 = .notADict ∧
    (mainLoop noFloat leafFirst fsWork).1.node ["w", "myapp"] = none := by
  decide

/-- C15, for trees that have a directory for every mapping: for every tree whose keys, at
every level, are plain file names distinct within their parent, none of them starting with
`@`, and none of whose leaves other than a null has the text `<nil>`, when `createStructure`
succeeds on a base directory that is empty, the filesystem at the base directory afterwards
reads back as the tree with every leaf replaced by its string form. -/
theorem C15_round_trip_on_plain_trees (ff : Nat → String) (es : List (String × Value))
    (base : Path) (fs : FS) (hp : plainTree es = true) (hat : noAtTree es = true)
    (hnil : noNilTree ff es = true) (hbase : fs.node (fs.abs base) = some .dir)
    (hempty : ∀ q, fs.abs base <+: q → q ≠ fs.abs base → fs.node q = none)
    (h : (createStructure ff es base fs).err = none) :
    ReadsAsValue (createStructure ff es base fs).fs (fs.abs base)
      (.map (stringifyAll ff es)) := by
  have e1 : (createStructure ff es base fs).fs = forceAll (treeOps ff es base) fs := by
    apply runOps_ok_forceAll
    rw [← createStructure_runOps, ← h]
  obtain ⟨_, hA, hB⟩ := treeOps_laid ff (sizeOf es) es base fs (le_refl _) hp
  have hak := noAtTree_hasAtKey es hat
  have hlong : ∀ (k : String) (r : List String),
      (fs.abs base ++ k :: r).isPrefixOf (fs.abs base) = false := by
    intro k r
    rw [Bool.eq_false_iff]
    intro hh
    exact prefix_ne_append_cons _ _ k r (List.isPrefixOf_iff_prefix.1 hh) rfl
  have := readsAs_of_nodes ff (createStructure ff es base fs).fs (sizeOf (Value.map es))
    (.map es) (fs.abs base) (le_refl _) (by rw [plainValue, hp, Bool.or_true])
    (by rw [noAtValue, hat]) (by rw [noNilValue, hnil])
    (by
      intro r
      rw [e1]
      cases r with
      | nil =>
        rw [List.append_nil, hB _ (fun k r e =>
          absurd e (prefix_ne_append_cons _ _ k r (List.prefix_refl _)))]
        simp [nodeAt, hak, hbase]
      | cons k r =>
        have hnone : fs.node (fs.abs base ++ k :: r) = none :=
          hempty _ (List.prefix_append _ _) (by simp)
        cases hl : lookupKey k es with
        | some v =>
          rw [hA k r v hl, hnone]
          simp [nodeAt, hak, hl]
        | none =>
          rw [hB _ (fun k3 r3 e => by
            have := List.append_cancel_left e
            simp only [List.cons.injEq] at this
            rw [← this.1]; exact hl), hlong k r, hnone]
          simp [nodeAt, hak, hl])
  rw [stringify] at this
  exact this

/-- Witness of C15: a tree with a string, a boolean and a null, materialized in the empty
directory `myapp` and read back. -/
theorem C15_round_trip_on_plain_trees_witness :
    (createStructure noFloat scalars ["myapp"] fsProject).err = none ∧
    ReadsAsValue (createStructure noFloat scalars ["myapp"] fsProject).fs ["w", "myapp"]
      (.map [("src", .map [("on", .str "true"), ("none", .str "")]),
        ("README.md", .str "hello")]) :=
  ⟨rfl, C15_round_trip_on_plain_trees noFloat scalars ["myapp"] fsProject (by decide)
    (by decide) (by decide) rfl fsProject_empty rfl⟩

/-! ## A second run -/

theorem mkdirAll_same (T : FS) (p : Path) (h : DirsTo T (T.abs p)) : mkdirAll T p = .ok T := by
  rw [mkdirAll_ok T p (fun q hq => by rw [h q hq]; rfl)]
  congr 1
  apply FS.eq_of
  · rfl
  · intro q
    show (if q.isPrefixOf (T.abs p) then some FNode.dir else T.node q) = T.node q
    by_cases hq : q.isPrefixOf (T.abs p) = true
    · rw [if_pos hq, h q (List.isPrefixOf_iff_prefix.1 hq)]
    · rw [if_neg hq]

theorem writeFile_same (T : FS) (p : Path) (c : String)
    (h1 : T.node (T.abs p) = some (.file c)) (h2 : T.node (T.abs p).dropLast = some .dir) :
    writeFile T p c = .ok T := by
  rw [writeFile_ok T p c (by rw [h1]; simp) h2]
  congr 1
  apply FS.eq_of
  · rfl
  · intro q
    show (if q = T.abs p then some (FNode.file c) else T.node q) = T.node q
    by_cases hq : q = T.abs p
    · rw [if_pos hq, hq, h1]
    · rw [if_neg hq]

theorem dirsTo_concat (T : FS) (a : List String) (k : String) (h : DirsTo T a)
    (hk : T.node (a ++ [k]) = some .dir) : DirsTo T (a ++ [k]) := by
  intro q hq
  rcases List.prefix_concat_iff.1 hq with e | hp
  · rw [e]; exact hk
  · exact h q hp

/-- The calls of `createStructure` on a plain tree, in a state that holds the tree already:
every call succeeds and the state stays as it is. -/
theorem treeOps_settled (ff : Nat → String) : ∀ (n : Nat) (es : List (String × Value))
    (base : Path) (T : FS), sizeOf es ≤ n → plainTree es = true → DirsTo T (T.abs base) →
    (∀ k v, lookupKey k es = some v → ∀ r x, nodeAt ff r v = some x →
      T.node (T.abs base ++ k :: r) = some x) →
    runOps (treeOps ff es base) T = ⟨T, none⟩ := by
  intro n
  induction n with
  | zero =>
    intro es base T hn
    cases es <;> simp at hn
  | succ n ih =>
    intro es base T hn hp hd hnodes
    cases es with
    | nil => rfl
    | cons e rest =>
      obtain ⟨k, v⟩ := e
      rw [plainTree] at hp
      simp only [Bool.and_eq_true] at hp
      obtain ⟨⟨⟨hk, hall⟩, hv⟩, hrest⟩ := hp
      have hfresh := lookupKey_fresh k rest hall
      have hk2 : k ≠ ".." := (plainName_spec k hk).2.2.2
      have habs : T.abs (base ++ [k]) = T.abs base ++ [k] := abs_append T base k hk2
      have hsz : sizeOf v + sizeOf rest < sizeOf ((k, v) :: rest) := by simp; omega
      have hkv := hnodes k v (by simp [lookupKey])
      have h1 : runOps (entryOps ff k v base) T = ⟨T, none⟩ := by
        by_cases hl : isLeaf v = true
        · rw [entryOps_leaf ff k v base hl, join_plain base k hk, writeOps]
          have hdir : dir (base ++ [k]) = base := by simp [dir]
          have hfile := hkv [] _ (nodeAt_leaf ff v hl).1
          simp only [runOps, Op.run, hdir, mkdirAll_same T base hd]
          rw [writeFile_same T (base ++ [k]) _ (by rw [habs]; exact hfile)
            (by rw [habs, List.dropLast_concat]; exact hd _ (List.prefix_refl _))]
        · obtain ⟨m, rfl, hat, hpm⟩ := plainValue_not_leaf v hv hl
          have hm : sizeOf (Value.map m) = 1 + sizeOf m := Value.map.sizeOf_spec m
          have hdk : DirsTo T (T.abs base ++ [k]) :=
            dirsTo_concat T _ k hd (hkv [] _ (by simp [nodeAt, hat]))
          rw [entryOps]
          simp only [hat, Bool.false_eq_true, if_false, join_plain base k hk, runOps, Op.run,
            mkdirAll_same T (base ++ [k]) (by rw [habs]; exact hdk)]
          apply ih m (base ++ [k]) T (by omega) hpm (by rw [habs]; exact hdk)
          intro k2 v2 hl2 r x hx
          rw [habs, List.append_assoc]
          apply hkv (k2 :: r) x
          simp [nodeAt, hat, hl2, hx]
      rw [treeOps, runOps_append, h1]
      apply ih rest base T (by omega) hrest hd
      intro k2 v2 hl2 r x hx
      apply hnodes k2 v2 _ r x hx
      have hne : k ≠ k2 := fun e => by rw [e] at hfresh; rw [hfresh] at hl2; cases hl2
      simp [lookupKey, hne, hl2]

/-- After `createStructure` succeeded, the same list of entries visited again in the same
order succeeds and leaves the state as it is, for every tree. -/
theorem createStructure_same_order_again (ff : Nat → String) (data : List (String × Value))
    (basePath : Path) (fs : FS) (h : (createStructure ff data basePath fs).err = none) :
    createStructure ff data basePath (createStructure ff data basePath fs).fs =
      ⟨(createStructure ff data basePath fs).fs, none⟩ := by
  rw [createStructure_runOps] at h
  rw [createStructure_runOps, createStructure_runOps]
  apply runOps_idempotent (treeOps ff data basePath) fs
  generalize runOps (treeOps ff data basePath) fs = o at h
  obtain ⟨f, e⟩ := o
  simp only at h
  rw [h]

/-- C14, as the claim has it, fails for the mapping of `a` and `./a`: the first run visits
`a` and then `./a`, succeeds, and leaves `2` in the file `a`; the second run, from that
state, visits `./a` and then `a`, succeeds, and leaves `1` in the file `a`. -/
theorem C14_other_order_counterexample :
    Reordered sameFileTwice sameFileTwiceBack ∧
    (createStructure noFloat sameFileTwice ["myapp"] fsProject).err = none ∧
    (createStructure noFloat sameFileTwice ["myapp"] fsProject).fs.node ["w", "myapp", "a"] =
      some (.file "2") ∧
    (createStructure noFloat sameFileTwiceBack ["myapp"]
      (createStructure noFloat sameFileTwice ["myapp"] fsProject).fs).err = none ∧
    (createStructure noFloat sameFileTwiceBack ["myapp"]
      (createStructure noFloat sameFileTwice ["myapp"] fsProject).fs).fs.node
        ["w", "myapp", "a"] = some (.file "1") ∧
    (createStructure noFloat sameFileTwiceBack ["myapp"]
      (createStructure noFloat sameFileTwice ["myapp"] fsProject).fs).fs ≠
      (createStructure noFloat sameFileTwice ["myapp"] fsProject).fs := by
  refine ⟨?_, rfl, rfl, rfl, rfl, ?_⟩
  · simp [Reordered, sameFileTwice, sameFileTwiceBack, subEntries, subValue, lookupKey]
  · intro h
    have h1 : (createStructure noFloat sameFileTwiceBack ["myapp"]
        (createStructure noFloat sameFileTwice ["myapp"] fsProject).fs).fs.node
          ["w", "myapp", "a"] = some (.file "1") := rfl
    rw [h] at h1
    have h2 : (createStructure noFloat sameFileTwice ["myapp"] fsProject).fs.node
        ["w", "myapp", "a"] = some (.file "2") := rfl
    rw [h2] at h1
    revert h1
    decide

/-- C14, for keys that are plain file names: for every tree whose keys, at every level, are
plain file names distinct within their parent, every base path and every initial state, when
`createStructure` succeeds, a second run of `createStructure` on the same tree and base
path, from the state that the first run left and in any order of the entries of the mapping
and of its nested mappings, succeeds and leaves that state as it is. -/
theorem C14_second_run_changes_nothing (ff : Nat → String) (es1 es2 : List (String × Value))
    (basePath : Path) (fs : FS) (hp1 : plainTree es1 = true) (hp2 : plainTree es2 = true)
    (hre : Reordered es1 es2) (h : (createStructure ff es1 basePath fs).err = none) :
    createStructure ff es2 basePath (createStructure ff es1 basePath fs).fs =
      ⟨(createStructure ff es1 basePath fs).fs, none⟩ := by
  have e1 : (createStructure ff es1 basePath fs).fs = forceAll (treeOps ff es1 basePath) fs := by
    apply runOps_ok_forceAll
    rw [← createStructure_runOps, ← h]
  obtain ⟨hc, hA, hB⟩ := treeOps_laid ff (sizeOf es1) es1 basePath fs (le_refl _) hp1
  rw [← e1] at hc hA hB
  generalize (createStructure ff es1 basePath fs).fs = T at hc hA hB ⊢
  have habs : T.abs basePath = fs.abs basePath := abs_congr T fs hc basePath
  rw [createStructure_runOps]
  cases hes : es2 with
  | nil => rfl
  | cons e rest =>
    rw [← hes]
    have hne1 : es1.isEmpty = false := by
      rw [subEntries_isEmpty es1 es2 hre.1 hre.2, hes]
      rfl
    apply treeOps_settled ff (sizeOf es2) es2 basePath T (le_refl _) hp2
    · rw [habs]
      intro q hq
      rw [hB q (fun k r e => absurd e (prefix_ne_append_cons _ _ k r hq)), hne1,
        List.isPrefixOf_iff_prefix.2 hq]
      rfl
    · intro k v2 hl2 r x hx
      obtain ⟨v1, hl1, h21⟩ := subEntries_lookup k es2 es1 v2 hre.2 hl2
      obtain ⟨v3, hl3, h12⟩ := subEntries_lookup k es1 es2 v1 hre.1 hl1
      rw [hl2] at hl3
      cases hl3
      rw [habs, hA k r v1 hl1, nodeAt_reordered ff r v1 v2 h12 h21, hx]
      rfl

/-- Witness of C14: a tree of two levels, materialized in `myapp`, and then once more with
the entries of each mapping in the other order. -/
theorem C14_second_run_changes_nothing_witness :
    plainTree twoLevels = true ∧ plainTree twoLevelsBack = true ∧
    Reordered twoLevels twoLevelsBack ∧
    (createStructure noFloat twoLevels ["myapp"] fsProject).err = none ∧
    createStructure noFloat twoLevelsBack ["myapp"]
        (createStructure noFloat twoLevels ["myapp"] fsProject).fs =
      ⟨(createStructure noFloat twoLevels ["myapp"] fsProject).fs, none⟩ :=
  have hre : Reordered twoLevels twoLevelsBack := by
    simp [Reordered, twoLevels, twoLevelsBack, subEntries, subValue, lookupKey, hasAtKey,
      hasPrefix]
  ⟨by decide, by decide, hre, rfl,
    C14_second_run_changes_nothing noFloat twoLevels twoLevelsBack ["myapp"] fsProject
      (by decide) (by decide) hre rfl⟩

/-! ## A mapping with an `@` key -/

/-- The inner loop of `createStructure` finds a key exactly when some key of the mapping
starts with `@`. -/
theorem hasAtKey_iff : ∀ m : List (String × Value),
    hasAtKey m = true ↔ ∃ e ∈ m, hasPrefix e.1 "@" = true := by
  intro m
  induction m with
  | nil => simp [hasAtKey]
  | cons e es ih =>
    obtain ⟨k, v⟩ := e
    by_cases hk : hasPrefix k "@" = true
    · simp [hasAtKey, hk]
    · simp [hasAtKey, hk, ih]

theorem lookupKey_split (k : String) : ∀ (data : List (String × Value)) (v : Value),
    lookupKey k data = some v → ∃ l1 l2, data = l1 ++ (k, v) :: l2 := by
  intro data
  induction data with
  | nil => intro v h; simp [lookupKey] at h
  | cons e es ih =>
    intro v h
    obtain ⟨k1, v1⟩ := e
    by_cases hk : k1 = k
    · subst hk
      simp only [lookupKey, if_true, Option.some.injEq] at h
      subst h
      exact ⟨[], es, rfl⟩
    · simp only [lookupKey, hk, if_false] at h
      obtain ⟨l1, l2, e⟩ := ih v h
      exact ⟨(k1, v1) :: l1, l2, by rw [e]; rfl⟩

/-- The calls of `createStructure` for a tree hold, one after the other, the calls of the
loop body for the entry at a path of keys, made with the base path of its depth. -/
theorem treeOps_at (ff : Nat → String) (name : String) (w : Value) :
    ∀ (path : List String) (data : List (String × Value)) (base : Path),
    entryAt data (path ++ [name]) = some w →
    ∃ pre post, treeOps ff data base =
      pre ++ entryOps ff name w (joinAll base path) ++ post := by
  intro path
  induction path with
  | nil =>
    intro data base h
    cases hl : lookupKey name data with
    | none => simp [entryAt, hl] at h
    | some u =>
      simp only [List.nil_append, entryAt, hl, valueAt, Option.some.injEq] at h
      subst h
      obtain ⟨l1, l2, e⟩ := lookupKey_split name data u hl
      refine ⟨treeOps ff l1 base, treeOps ff l2 base, ?_⟩
      rw [e, treeOps_append, treeOps]
      simp [joinAll]
  | cons k r ih =>
    intro data base h
    cases hl : lookupKey k data with
    | none => simp [entryAt, hl] at h
    | some u =>
      simp only [List.cons_append, entryAt, hl] at h
      obtain ⟨l1, l2, e⟩ := lookupKey_split k data u hl
      have hcons : ∃ k2 r2, r ++ [name] = k2 :: r2 := by
        cases r with
        | nil => exact ⟨name, [], rfl⟩
        | cons a r => exact ⟨a, r ++ [name], rfl⟩
      obtain ⟨k2, r2, hr⟩ := hcons
      cases u with
      | map m2 =>
        by_cases hat : hasAtKey m2 = true
        · rw [hr] at h
          simp [valueAt, hat] at h
        · have hent : entryAt m2 (r ++ [name]) = some w := by
            rw [hr] at h ⊢
            simp only [valueAt, hat, Bool.false_eq_true, if_false] at h
            simpa only [entryAt] using h
          obtain ⟨pre, post, hops⟩ := ih m2 (join base k) hent
          refine ⟨treeOps ff l1 base ++ .mkdir (join base k) :: pre,
            post ++ treeOps ff l2 base, ?_⟩
          rw [e, treeOps_append, treeOps, entryOps]
          simp only [hat, Bool.false_eq_true, if_false, hops, joinAll, List.foldl_cons,
            List.append_assoc, List.cons_append]
      | null => rw [hr] at h; simp [valueAt] at h
      | bool b => rw [hr] at h; simp [valueAt] at h
      | float x => rw [hr] at h; simp [valueAt] at h
      | str s => rw [hr] at h; simp [valueAt] at h
      | arr xs => rw [hr] at h; simp [valueAt] at h

/-- C3: the loop body of `createStructure` on an entry whose value is a mapping with a key
that starts with `@`, for every name, base path and state. It makes two calls and no other:
`os.MkdirAll` of the parent of `join(basePath, name)` and `os.WriteFile` of that path with
the rendering of the whole mapping; the path is not made a directory as for a mapping
without such a key, and no call is made for an entry of the mapping. When the calls succeed, the path is one regular file that holds the
rendering, and every other node is as `os.MkdirAll` of the parent leaves it. Whether they
succeed or not, no node other than the path and the ancestors of its parent is touched;
when one fails, no file is written. The loop goes on with the other entries exactly when
the calls succeed. At any depth: the calls of `createStructure` for a tree that has the
mapping at a path of keys are, for that entry, these two calls at the path joined to the
base path; and for a tree of plain keys that is materialized with success, from any state,
the path is that file and nothing below it is touched. -/
theorem C3_at_key_mapping_is_one_file (ff : Nat → String) (name : String)
    (m : List (String × Value)) (basePath : Path) (fs : FS)
    (hat : ∃ e ∈ m, hasPrefix e.1 "@" = true) :
    createEntry ff name (.map m) basePath fs =
      runOps [.mkdir (dir (join basePath name)),
        .write (join basePath name) (sprint ff (.map m))] fs ∧
    ((createEntry ff name (.map m) basePath fs).err = none →
      (createEntry ff name (.map m) basePath fs).fs.node (fs.abs (join basePath name)) =
        some (.file (sprint ff (.map m))) ∧
      ∀ q, q ≠ fs.abs (join basePath name) →
        (createEntry ff name (.map m) basePath fs).fs.node q =
          if q.isPrefixOf (fs.abs (dir (join basePath name))) then some .dir else fs.node q) ∧
    (∀ q, q ≠ fs.abs (join basePath name) → ¬ q <+: fs.abs (dir (join basePath name)) →
      (createEntry ff name (.map m) basePath fs).fs.node q = fs.node q) ∧
    (∀ e, (createEntry ff name (.map m) basePath fs).err = some e →
      ∀ q, (createEntry ff name (.map m) basePath fs).fs.node q = fs.node q ∨
        (q <+: fs.abs (dir (join basePath name)) ∧
          (createEntry ff name (.map m) basePath fs).fs.node q = some .dir)) ∧
    (∀ rest, createStructure ff ((name, .map m) :: rest) basePath fs =
      match (createEntry ff name (.map m) basePath fs).err with
      | none => createStructure ff rest basePath (createEntry ff name (.map m) basePath fs).fs
      | some _ => createEntry ff name (.map m) basePath fs) ∧
    (∀ (data : List (String × Value)) (base : Path) (path : List String),
      entryAt data (path ++ [name]) = some (.map m) →
      ∃ pre post, ∀ fs0 : FS, createStructure ff data base fs0 =
        runOps (pre ++ [.mkdir (dir (join (joinAll base path) name)),
          .write (join (joinAll base path) name) (sprint ff (.map m))] ++ post) fs0) ∧
    (∀ (data : List (String × Value)) (base : Path) (fs0 : FS) (path : List String),
      plainTree data = true → entryAt data (path ++ [name]) = some (.map m) →
      (createStructure ff data base fs0).err = none →
      (createStructure ff data base fs0).fs.node (fs0.abs base ++ (path ++ [name])) =
        some (.file (sprint ff (.map m))) ∧
      ∀ k r, (createStructure ff data base fs0).fs.node
          (fs0.abs base ++ ((path ++ [name]) ++ k :: r)) =
        fs0.node (fs0.abs base ++ ((path ++ [name]) ++ k :: r))) := by
  have hak : hasAtKey m = true := (hasAtKey_iff m).2 hat
  have hops : entryOps ff name (.map m) = fun b => [.mkdir (dir (join b name)),
      .write (join b name) (sprint ff (.map m))] := by
    funext b
    rw [entryOps, if_pos hak, writeOps, fileContent_map]
  have hrun : createEntry ff name (.map m) basePath fs =
      runOps [.mkdir (dir (join basePath name)),
        .write (join basePath name) (sprint ff (.map m))] fs := by
    rw [createEntry_runOps, hops]
  refine ⟨hrun, ?_, ?_, ?_, ?_, ?_, ?_⟩
  · intro hs
    rw [hrun] at hs ⊢
    simp only [runOps, Op.run] at hs ⊢
    cases h1 : mkdirAll fs (dir (join basePath name)) with
    | error e => rw [h1] at hs; cases hs
    | ok fs1 =>
      rw [h1] at hs
      simp only [h1] at hs ⊢
      cases h2 : writeFile fs1 (join basePath name) (sprint ff (.map m)) with
      | error e => rw [h2] at hs; cases hs
      | ok fs2 =>
        obtain ⟨_, rfl⟩ := mkdirAll_inv _ _ _ h1
        obtain ⟨_, _, rfl⟩ := writeFile_inv _ _ _ _ h2
        refine ⟨?_, ?_⟩
        · show (if fs.abs (join basePath name) = _ then _ else _) = _
          rw [if_pos (abs_congr (Op.force fs (.mkdir (dir (join basePath name)))) fs rfl
            (join basePath name)).symm]
        · intro q hq
          show (if q = _ then _ else _) = _
          rw [if_neg (fun e => hq (e.trans
            (abs_congr (Op.force fs (.mkdir (dir (join basePath name)))) fs rfl _)))]
          rfl
  · intro q hq hnp
    rw [hrun]
    simp only [runOps, Op.run]
    cases h1 : mkdirAll fs (dir (join basePath name)) with
    | error e => rfl
    | ok fs1 =>
      obtain ⟨_, rfl⟩ := mkdirAll_inv _ _ _ h1
      have hfs1 : (Op.force fs (.mkdir (dir (join basePath name)))).node q = fs.node q := by
        show (if q.isPrefixOf _ then _ else _) = _
        rw [if_neg (fun hh => hnp (List.isPrefixOf_iff_prefix.1 hh))]
      simp only
      cases h2 : writeFile (Op.force fs (.mkdir (dir (join basePath name))))
          (join basePath name) (sprint ff (.map m)) with
      | error e => exact hfs1
      | ok fs2 =>
        obtain ⟨_, _, rfl⟩ := writeFile_inv _ _ _ _ h2
        show (if q = _ then _ else _) = _
        rw [if_neg (fun e => hq (e.trans
            (abs_congr (Op.force fs (.mkdir (dir (join basePath name)))) fs rfl _)))]
        exact hfs1
  · intro e he q
    rw [hrun] at he ⊢
    simp only [runOps, Op.run] at he ⊢
    cases h1 : mkdirAll fs (dir (join basePath name)) with
    | error e1 => exact Or.inl rfl
    | ok fs1 =>
      obtain ⟨_, rfl⟩ := mkdirAll_inv _ _ _ h1
      rw [h1] at he
      simp only at he ⊢
      cases h2 : writeFile (Op.force fs (.mkdir (dir (join basePath name))))
          (join basePath name) (sprint ff (.map m)) with
      | ok fs2 => rw [h2] at he; cases he
      | error e2 =>
        show (if q.isPrefixOf _ then _ else _) = _ ∨ _
        by_cases hp : q.isPrefixOf (fs.abs (dir (join basePath name))) = true
        · right
          refine ⟨List.isPrefixOf_iff_prefix.1 hp, ?_⟩
          show (if q.isPrefixOf _ then _ else _) = _
          rw [if_pos hp]
        · left
          rw [if_neg hp]
  · intro rest
    rw [createStructure]
    rcases createEntry ff name (.map m) basePath fs with ⟨fs1, _ | e⟩ <;> rfl
  · intro data base path hent
    obtain ⟨pre, post, h⟩ := treeOps_at ff name (.map m) path data base hent
    refine ⟨pre, post, fun fs0 => ?_⟩
    rw [createStructure_runOps, h, hops]
  · intro data base fs0 path hp hent hs
    have e1 : (createStructure ff data base fs0).fs = forceAll (treeOps ff data base) fs0 := by
      apply runOps_ok_forceAll
      rw [← createStructure_runOps, ← hs]
    obtain ⟨_, hA, _⟩ := treeOps_laid ff (sizeOf data) data base fs0 (le_refl _) hp
    have hcons : ∃ k2 r2, path ++ [name] = k2 :: r2 := by
      cases path with
      | nil => exact ⟨name, [], rfl⟩
      | cons a r => exact ⟨a, r ++ [name], rfl⟩
    obtain ⟨k2, r2, hr⟩ := hcons
    rw [hr] at hent ⊢
    cases hl : lookupKey k2 data with
    | none => simp [entryAt, hl] at hent
    | some u =>
      simp only [entryAt, hl] at hent
      have hn := nodeAt_valueAt ff r2 u (.map m) hent
      rw [e1]
      refine ⟨?_, ?_⟩
      · rw [hA k2 r2 u hl]
        have := hn []
        rw [List.append_nil] at this
        rw [this]
        simp [nodeAt, hak, fileContent_map]
      · intro k r
        rw [List.cons_append, hA k2 (r2 ++ k :: r) u hl, hn (k :: r)]
        simp [nodeAt, hak]

/-- Witness of C3: the mapping with the keys `@id` and `body`, as the entry `page` of the
empty directory `myapp`, is written as the single file `map[@id:7 body:text]`. -/
theorem C3_at_key_mapping_is_one_file_witness :
    (∃ e ∈ atMapping, hasPrefix e.1 "@" = true) ∧
    (createEntry noFloat "page" (.map atMapping) ["myapp"] fsProject).err = none ∧
    (createEntry noFloat "page" (.map atMapping) ["myapp"] fsProject).fs.node
      ["w", "myapp", "page"] = some (.file "map[@id:7 body:text]") :=
  have hat : ∃ e ∈ atMapping, hasPrefix e.1 "@" = true :=
    ⟨("@id", .str "7"), List.mem_cons_self _ _, rfl⟩
  ⟨hat, rfl,
    ((C3_at_key_mapping_is_one_file noFloat "page" atMapping ["myapp"] fsProject hat).2.1
      rfl).1⟩

/-- The mapping with the keys `@id` and `body` one level down in a tree, materialized in the
empty directory `myapp`: it is the file `doc/page`, with nothing below it. Under the names
`.` and the empty name, which `filepath.Join` cleans to the base path, the write fails
because the path is a directory, which stays one. -/
theorem at_key_samples :
    (createStructure noFloat atTree ["myapp"] fsProject).err = none ∧
    (createStructure noFloat atTree ["myapp"] fsProject).fs.node
      ["w", "myapp", "doc", "page"] = some (.file "map[@id:7 body:text]") ∧
    (createStructure noFloat atTree ["myapp"] fsProject).fs.node
      ["w", "myapp", "doc", "page", "body"] = none ∧
    (createEntry noFloat "." (.map atMapping) ["myapp"] fsProject).err = some .isDir ∧
    (createEntry noFloat "." (.map atMapping) ["myapp"] fsProject).fs.node ["w", "myapp"] =
      some .dir ∧
    (createEntry noFloat "" (.map atMapping) ["myapp"] fsProject).err = some .isDir :=
  ⟨rfl, rfl, rfl, rfl, rfl, rfl⟩

/-! ## JSON and XML texts of one tree -/

theorem dropWhile_concat (p : Char → Bool) (c : Char) (hc : p c = false) :
    ∀ l : List Char, ∃ l2, (l ++ [c]).dropWhile p = l2 ++ [c] := by
  intro l
  induction l with
  | nil => exact ⟨[], by simp [List.dropWhile, hc]⟩
  | cons a l ih =>
    by_cases ha : p a = true
    · obtain ⟨l2, h⟩ := ih
      exact ⟨l2, by simp [List.dropWhile, ha, h]⟩
    · exact ⟨a :: l, by simp [List.dropWhile, ha]⟩

/-- A text that starts with `<` once its white space is trimmed does not start with a
brace. -/
theorem not_brace_of_trimmed_lt (head : String) (h : hasPrefix (trimSpace head) "<" = true) :
    hasPrefix head "\x7b" = false := by
  rw [Bool.eq_false_iff]
  intro hb
  unfold hasPrefix at h hb
  cases hd : head.data with
  | nil => rw [hd] at hb; revert hb; decide
  | cons c cs =>
    rw [hd] at hb
    have hc : c = '\x7b' := by
      have : ("\x7b" : String).data = ['\x7b'] := rfl
      rw [this] at hb
      simp only [List.isPrefixOf, Bool.and_true, beq_iff_eq] at hb
      exact hb.symm
    subst hc
    have hsp : isSpace '\x7b' = false := by decide
    have h1 : (head.data).dropWhile isSpace = '\x7b' :: cs := by
      rw [hd]; simp [List.dropWhile, hsp]
    obtain ⟨l2, h2⟩ := dropWhile_concat isSpace '\x7b' hsp cs.reverse
    have h3 : (trimSpace head).data = '\x7b' :: l2.reverse := by
      show trimChars head.data = _
      rw [trimChars, h1, List.reverse_cons, h2]
      simp
    rw [h3] at h
    revert h
    have : ("<" : String).data = ['<'] := rfl
    rw [this]
    simp [List.isPrefixOf]

theorem xmlEncodesAll_spec (es : List (String × Value))
    (ih : ∀ (k : String) (v : Value) (sub : List XNode), (k, v) ∈ es →
      xmlEncodes v sub = true → elemValue sub = v) :
    ∀ cs : List (StartElement × List XNode), xmlEncodesAll es cs = true →
    (cs.map fun c => (c.1.Name.Local, elemValue c.2)) = es ∧
    (cs.map fun c => c.1.Name.Local).Nodup ∧ (es = [] → cs = []) := by
  induction es with
  | nil =>
    intro cs h
    cases cs with
    | nil => exact ⟨rfl, List.nodup_nil, fun _ => rfl⟩
    | cons c cs => simp [xmlEncodesAll] at h
  | cons e es ihes =>
    intro cs h
    obtain ⟨k, v⟩ := e
    cases cs with
    | nil => simp [xmlEncodesAll] at h
    | cons c cs2 =>
      obtain ⟨se, sub⟩ := c
      simp only [xmlEncodesAll, Bool.and_eq_true, decide_eq_true_eq, List.all_eq_true] at h
      obtain ⟨⟨⟨hk, hall⟩, hv⟩, hrest⟩ := h
      obtain ⟨h1, h2, _⟩ := ihes (fun k2 v2 sub2 hm => ih k2 v2 sub2 (List.mem_cons_of_mem _ hm))
        cs2 hrest
      refine ⟨?_, ?_, fun e => by cases e⟩
      · rw [List.map_cons, h1]
        simp only [hk, ih k v sub (List.mem_cons_self _ _) hv]
      · rw [List.map_cons, List.nodup_cons]
        refine ⟨?_, h2⟩
        intro hm
        have hkeys : (cs2.map fun c => c.1.Name.Local) = es.map Prod.fst := by
          rw [← h1, List.map_map]
          rfl
        rw [hkeys] at hm
        obtain ⟨e2, he2, hk2⟩ := List.mem_map.1 hm
        exact hall e2 he2 (hk2.trans hk)

/-- An element whose content encodes a value decodes to that value. -/
theorem elemValue_of_encodes : ∀ (n : Nat) (v : Value) (kids : List XNode), sizeOf v ≤ n →
    xmlEncodes v kids = true → elemValue kids = v := by
  intro n
  induction n with
  | zero => intro v kids hn; cases v <;> simp at hn
  | succ n ih =>
    intro v kids hn hv
    cases v with
    | str s =>
      match kids, hv with
      | [], hv =>
        simp only [xmlEncodes, decide_eq_true_eq] at hv
        simp [elemValue, hasChildElement, trimmedText, hv]
      | [.text t], hv =>
        simp only [xmlEncodes, decide_eq_true_eq] at hv
        simp [elemValue, hasChildElement, trimmedText, hv]
      | [.elem _ _], hv => simp [xmlEncodes] at hv
      | [.comment _], hv => simp [xmlEncodes] at hv
      | [.procInst _ _], hv => simp [xmlEncodes] at hv
      | [.directive _], hv => simp [xmlEncodes] at hv
      | _ :: _ :: _, hv => simp [xmlEncodes] at hv
    | map m =>
      simp only [xmlEncodes, Bool.and_eq_true, Bool.not_eq_true', List.isEmpty_eq_false] at hv
      obtain ⟨hne, hall⟩ := hv
      have hsz : sizeOf (Value.map m) = 1 + sizeOf m := Value.map.sizeOf_spec m
      obtain ⟨h1, h2, h3⟩ := xmlEncodesAll_spec m (fun k v sub hm hs => by
        have hlt : sizeOf v < sizeOf m := by
          have h1 := List.sizeOf_lt_of_mem hm
          have h2 : sizeOf (k, v) = 1 + sizeOf k + sizeOf v := Prod.mk.sizeOf_spec k v
          omega
        exact ih v sub (by omega) hs) (childElements kids) hall
      have hc : hasChildElement kids = true := by
        rw [hasChildElement_iff]
        intro e
        rw [e] at h1
        exact hne h1.symm
      have hm := childMap_distinct kids [] (by simpa using h2)
      rw [elemValue, hc, hm, if_pos rfl, List.nil_append, h1]
    | null => simp [xmlEncodes] at hv
    | bool b => simp [xmlEncodes] at hv
    | float x => simp [xmlEncodes] at hv
    | arr xs => simp [xmlEncodes] at hv

/-- The XML content without white space that `xmlContent` gives for a value, when XML can
encode the value, encodes it. -/
theorem xmlEncodes_xmlContent : ∀ (n : Nat) (v : Value), sizeOf v ≤ n →
    xmlEncodable v = true → xmlEncodes v (xmlContent v) = true := by
  intro n
  induction n with
  | zero => intro v hn; cases v <;> simp at hn
  | succ n ih =>
    intro v hn hv
    cases v with
    | str s =>
      simp only [xmlEncodable, decide_eq_true_eq] at hv
      simp [xmlContent, xmlEncodes, hv]
    | map m =>
      simp only [xmlEncodable, Bool.and_eq_true, Bool.not_eq_true'] at hv
      obtain ⟨hne, hall⟩ := hv
      have hsz : sizeOf (Value.map m) = 1 + sizeOf m := Value.map.sizeOf_spec m
      have hes : ∀ es : List (String × Value), sizeOf es ≤ n → xmlEncodableAll es = true →
          xmlEncodesAll es (es.map fun e => ((⟨⟨"", e.1⟩, []⟩ : StartElement),
            xmlContent e.2)) = true := by
        intro es
        induction es with
        | nil => intro _ _; rfl
        | cons e es ihes =>
          intro hs he
          obtain ⟨k, w⟩ := e
          simp only [xmlEncodableAll, Bool.and_eq_true] at he
          have hs2 : sizeOf w + sizeOf es < sizeOf ((k, w) :: es) := by simp; omega
          simp only [List.map_cons, xmlEncodesAll, Bool.and_eq_true, decide_eq_true_eq]
          exact ⟨⟨⟨trivial, he.1.1⟩, ih w (by omega) he.1.2⟩, ihes (by omega) he.2⟩
      rw [xmlEncodes, xmlContent, childElements_xmlEntries, hne, hes m (by omega) hall]
      rfl
    | null => simp [xmlEncodable] at hv
    | bool b => simp [xmlEncodable] at hv
    | float x => simp [xmlEncodable] at hv
    | arr xs => simp [xmlEncodable] at hv

/-- C12, as the code has it, for JSON and XML: a JSON text that starts with a brace and that
decodes to the tree with the one top-level entry `root`, and an XML text whose first 1024
bytes start with `<` once the white space is trimmed and hold neither `---` nor `:`, and
whose first element has the local name `root` and a content that encodes the value of the
entry, give the same canonical tree. In the XML text every string is the text of its
element, the white space around it aside, and every mapping, which is not empty, has one
child element for each entry, with the key as its local name, the keys being distinct. -/
theorem C12_json_and_xml_agree (c : Codecs) (jsonText xmlText root : String) (v : Value)
    (se : StartElement) (kids : List XNode) (pre rest : List Token) (bad : Bool)
    (hj1 : hasPrefix (sniff jsonText) "\x7b" = true)
    (hj2 : c.jsonDecode jsonText = .ok (.map [(root, v)]))
    (hx1 : hasPrefix (trimSpace (sniff xmlText)) "<" = true)
    (hx3 : contains (sniff xmlText) "---" = false)
    (hx4 : contains (sniff xmlText) ":" = false)
    (hx2 : c.xmlDecoder xmlText =
      ⟨pre ++ .StartElement se :: (tokensOf kids ++ .EndElement se.Name :: rest), bad, []⟩)
    (hroot : se.Name.Local = root)
    (hpre : ∀ t ∈ pre, isMisc t = true) (hv : xmlEncodes v kids = true) :
    loadStructureFromFile c jsonText = .ok [(root, v)] ∧
    loadStructureFromFile c xmlText = .ok [(root, v)] := by
  have hdj : detectFormat (sniff jsonText) = some .json := by
    simp [detectFormat, hj1]
  have hdx : detectFormat (sniff xmlText) = some .xml := by
    simp [detectFormat, not_brace_of_trimmed_lt _ hx1, hx1, hx3, hx4]
  constructor
  · exact ((load_accepts c jsonText [(root, v)]).1 hdj).2 hj2
  · apply ((load_accepts c xmlText [(root, v)]).2.1 hdx).2
    rw [hx2, parseXML_first pre _ _ bad hpre, parseXMLElement_elem se kids rest bad [],
      elemValue_of_encodes _ v kids (le_refl _) hv, hroot]

/-- Witness of C12: the JSON text of the tree of `myapp` with the entry `name` set to `demo`,
and its XML text with one element on each line, give the same tree. -/
theorem C12_json_and_xml_agree_witness :
    xmlEncodes (.map [("name", .str "demo")]) prettyKids = true ∧
    loadStructureFromFile prettyCodecs jsonName =
      .ok [("myapp", .map [("name", .str "demo")])] ∧
    loadStructureFromFile prettyCodecs xmlPretty =
      .ok [("myapp", .map [("name", .str "demo")])] :=
  ⟨by decide,
    C12_json_and_xml_agree prettyCodecs jsonName xmlPretty "myapp"
      (.map [("name", .str "demo")]) (tag "myapp") prettyKids [] [.CharData "\n"] false
      (by decide) rfl (by decide) (by decide) (by decide) rfl rfl (fun t h => by cases h)
      (by decide)⟩

end TreeCreator
